import Mathlib

/-!
Verification development for the transubtil server repository.

The relevant source files are embedded shallowly:
* `src/src/file-sharing.ts` — share-link service (`createShareLink`,
  `validateShareLink`, `incrementDownloadCount`, `deactivateShareLink`,
  `deleteShareLink`, token generation);
* `src/src/share-routes.ts` (second document: `sftp.ts` / FTPS variant) and
  `src/unnamed/part_000` (`AdminStorageClient`) — storage-client connection
  state machines, path resolution and recursive search;
* `src/catalogue-routes.js` — the artists text-store serializer and parser.

Conventions of the embedding:
* JavaScript timestamps (`Date.now()`, ISO strings compared through `Date`)
  are modelled as integers (milliseconds); `new Date(iso) < new Date()`
  becomes strict `<` on those integers.
* The Supabase table `shared_links` is modelled as a `List ShareLink`;
  a `.eq(...).single()` query errors unless exactly one row matches, which
  the model reproduces.  Database-assigned defaults (`id`, `created_at`,
  `download_count = 0`, `is_active = true`) are supplied explicitly.
* `crypto.randomBytes` is modelled by an explicit supply of byte lists;
  `bcrypt` hashing/comparison by explicit function parameters.
* Node's `path.normalize` / `path.join` (POSIX) are modelled on segment
  lists; trailing-slash preservation is irrelevant to every statement below
  and is not modelled.
* JavaScript truthiness of optional numbers/strings (`if (x)`, `x || null`)
  is modelled explicitly: `none` and `some 0` / `some ""` are falsy.
-/

namespace Transubtil

/-! ## Generic character/string utilities -/

/-- Does `p` occur at the head of `l`?  (Boolean prefix test used by the
substring and search models.) -/
def leadsWith {α : Type} [DecidableEq α] : List α → List α → Bool
  | [], _ => true
  | _ :: _, [] => false
  | p :: ps, c :: cs => p = c && leadsWith ps cs

/-- Index of the first occurrence of `pat` in `l` (models both
`String.prototype.replace` with a string pattern and the leftmost regex
match position used by `parseArtistsFile`). -/
def findFirstIdx {α : Type} [DecidableEq α] (pat : List α) : List α → Option Nat
  | [] => if pat = [] then some 0 else none
  | c :: cs =>
    if leadsWith pat (c :: cs) then some 0
    else (findFirstIdx pat cs).map (· + 1)

/-- Substring containment (models JavaScript `String.prototype.includes`). -/
def containsSub : List Char → List Char → Bool
  | hay, needle =>
    if leadsWith needle hay then true
    else match hay with
      | [] => false
      | _ :: t => containsSub t needle

/-- Character-wise lower-casing (models `String.prototype.toLowerCase` on the
file names and queries handled by the search endpoints). -/
def toLowerL (l : List Char) : List Char := l.map Char.toLower

/-! ## Share-link data model (`file-sharing.ts`) -/

/-- A row of the `shared_links` table, mirroring the `ShareLink` interface of
`file-sharing.ts`.  ISO timestamp strings are modelled as integer
milliseconds. -/
structure ShareLink where
  id : String
  file_path : String
  file_name : String
  file_size : Int
  token : String
  created_by : String
  created_at : Int
  expires_at : Option Int
  password_hash : Option String
  max_downloads : Option Int
  download_count : Int
  is_active : Bool
  last_accessed_at : Option Int
deriving Repr, DecidableEq

/-- The `ShareLinkOptions` interface of `file-sharing.ts`.  Optional fields
are `Option`s; JavaScript truthiness on them is modelled by `jsTruthyInt` /
`jsTruthyStr`. -/
structure ShareLinkOptions where
  filePath : String
  fileName : String
  fileSize : Int
  createdBy : String
  expiresIn : Option Int
  password : Option String
  maxDownloads : Option Int
deriving Repr, DecidableEq

/-- Truthiness of an optional JavaScript number: `undefined` and `0` are
falsy. -/
def jsTruthyInt : Option Int → Bool
  | none => false
  | some v => v ≠ 0

/-- Truthiness of an optional JavaScript string: `undefined` and `""` are
falsy. -/
def jsTruthyStr : Option String → Bool
  | none => false
  | some s => s ≠ ""

/-- Hexadecimal digit characters, as produced by Node's
`Buffer.toString('hex')` (lower case). -/
def hexDigitChar (n : Nat) : Char :=
  if n = 0 then '0' else if n = 1 then '1' else if n = 2 then '2'
  else if n = 3 then '3' else if n = 4 then '4' else if n = 5 then '5'
  else if n = 6 then '6' else if n = 7 then '7' else if n = 8 then '8'
  else if n = 9 then '9' else if n = 10 then 'a' else if n = 11 then 'b'
  else if n = 12 then 'c' else if n = 13 then 'd' else if n = 14 then 'e'
  else 'f'

/-- Hex encoding of one byte (two lower-case hex characters). -/
def byteToHex (b : Nat) : List Char := [hexDigitChar (b / 16 % 16), hexDigitChar (b % 16)]

/-- `generateShareToken` of `file-sharing.ts`:
`crypto.randomBytes(16).toString('hex')`.  The random bytes drawn are made
explicit as the argument `bytes`. -/
def generateShareToken (bytes : List Nat) : String :=
  ⟨bytes.flatMap byteToHex⟩

/-- Is every character of `s` a lower-case hex digit? -/
def isHexString (s : String) : Bool :=
  s.data.all fun c => ((['0','1','2','3','4','5','6','7'] ++ ['8','9','a','b','c','d','e','f'])).contains c

/-- The token-uniqueness retry loop of `createShareLink`:
keep drawing `randomBytes` (the supply, indexed by draw number) while the
store already contains the generated token.  The `while (!isUnique)` loop of
the source is unbounded; `fuel` bounds the recursion, and `none` means the
loop has not terminated within `fuel` draws. -/
def findUniqueToken (supply : Nat → List Nat) (store : List ShareLink) : Nat → Nat → Option String
  | 0, _ => none
  | fuel + 1, i =>
    let t := generateShareToken (supply i)
    if store.any (fun l => l.token = t) then findUniqueToken supply store fuel (i + 1)
    else some t

/-- `createShareLink` of `file-sharing.ts`.  `hash` models `bcrypt.hash`
(with its salt fixed), `supply` the successive `crypto.randomBytes(16)`
draws, `now` `Date.now()`, and `newId` the store-assigned row id.
`download_count = 0` and `is_active = true` are the database defaults of the
`shared_links` table (the insert does not set them).  Returns the created
link together with the updated store, or `none` if the token retry loop did
not terminate within `fuel`. -/
def createShareLink (hash : String → String) (supply : Nat → List Nat) (fuel : Nat)
    (store : List ShareLink) (options : ShareLinkOptions) (now : Int) (newId : String) :
    Option (ShareLink × List ShareLink) :=
  match findUniqueToken supply store fuel 0 with
  | none => none
  | some token =>
    let expiresAt : Option Int :=
      if jsTruthyInt options.expiresIn then some (now + options.expiresIn.getD 0) else none
    let passwordHash : Option String :=
      if jsTruthyStr options.password then some (hash (options.password.getD "")) else none
    let maxDownloads : Option Int :=
      if jsTruthyInt options.maxDownloads then options.maxDownloads else none
    let link : ShareLink :=
      { id := newId
        file_path := options.filePath
        file_name := options.fileName
        file_size := options.fileSize
        token := token
        created_by := options.createdBy
        created_at := now
        expires_at := expiresAt
        password_hash := passwordHash
        max_downloads := maxDownloads
        download_count := 0
        is_active := true
        last_accessed_at := none }
    some (link, store ++ [link])

/-- `getShareLink` of `file-sharing.ts`: `.eq('token', token).single()`,
returning `null` on error.  `.single()` errors unless exactly one row
matches. -/
def getShareLink (store : List ShareLink) (token : String) : Option ShareLink :=
  match store.filter (fun l => l.token = token) with
  | [l] => some l
  | _ => none

/-- Result of `validateShareLink`. -/
inductive ValidationResult where
  | invalid (reason : String)
  | valid (link : ShareLink)
deriving Repr, DecidableEq

/-- `validateShareLink` of `file-sharing.ts`.  `verify` models
`bcrypt.compare` (`verify password hash`); `now` is the clock at validation
time.  `password = some ""` is falsy in JavaScript (`if (!password)`), hence
treated like an absent password.  The function is total: no input throws. -/
def validateShareLink (verify : String → String → Bool) (store : List ShareLink)
    (token : String) (password : Option String) (now : Int) : ValidationResult :=
  match getShareLink store token with
  | none => .invalid "Link not found"
  | some link =>
    if !link.is_active then .invalid "Link has been deactivated"
    else if (match link.expires_at with | some e => decide (e < now) | none => false) then
      .invalid "Link has expired"
    else if (match link.max_downloads with
             | some m => decide (m ≤ link.download_count)
             | none => false) then
      .invalid "Download limit reached"
    else
      match link.password_hash with
      | none => .valid link
      | some h =>
        match password with
        | none => .invalid "Password required"
        | some p =>
          if p = "" then .invalid "Password required"
          else if verify p h then .valid link
          else .invalid "Invalid password"

/-- `incrementDownloadCount` of `file-sharing.ts`: fetch the current count
through `.eq('token', token).single()` (an error — e.g. no such row — is
propagated as `Failed to fetch download count`), then write `count + 1` and
`last_accessed_at = now` to every row with that token.  The store itself is
assumed reliable on writes; a write error would likewise be propagated by
the source. -/
def incrementDownloadCount (store : List ShareLink) (token : String) (now : Int) :
    Except String (List ShareLink) :=
  match store.filter (fun l => l.token = token) with
  | [l] =>
    .ok (store.map fun x =>
      if x.token = token then
        { x with download_count := l.download_count + 1, last_accessed_at := some now }
      else x)
  | _ => .error "Failed to fetch download count"

/-- `deactivateShareLink` of `file-sharing.ts`: set `is_active := false` on
every row matching both the link id and the creator.  A non-matching filter
affects zero rows and is not an error. -/
def deactivateShareLink (store : List ShareLink) (linkId userId : String) : List ShareLink :=
  store.map fun l =>
    if l.id = linkId ∧ l.created_by = userId then { l with is_active := false } else l

/-- `deleteShareLink` of `file-sharing.ts`: delete every row matching both
the link id and the creator.  A non-matching filter affects zero rows and is
not an error. -/
def deleteShareLink (store : List ShareLink) (linkId userId : String) : List ShareLink :=
  store.filter fun l => ¬(l.id = linkId ∧ l.created_by = userId)

/-! ## Node `path` (POSIX) model

`path.normalize` and `path.join` are modelled on segment lists.  Trailing
slashes are not preserved by the model (they are irrelevant to every
statement below, since a later `join` re-normalizes and segment splitting
drops empty pieces). -/

/-- Split a character list on `'/'` (pieces between slashes, empties
included). -/
def splitOnSlash : List Char → List (List Char)
  | [] => [[]]
  | c :: cs =>
    if c = '/' then [] :: splitOnSlash cs
    else match splitOnSlash cs with
      | s :: ss => (c :: s) :: ss
      | [] => [[c]]

/-- The non-empty path segments of a character list. -/
def segsOf (l : List Char) : List (List Char) := (splitOnSlash l).filter (· ≠ [])

/-- Join segments with `'/'`. -/
def joinSegs : List (List Char) → List Char
  | [] => []
  | [s] => s
  | s :: rest => s ++ '/' :: joinSegs rest

/-- The `"."` segment. -/
def dotSeg : List Char := ['.']

/-- The `".."` segment. -/
def dotDotSeg : List Char := ['.', '.']

/-- Segment-level normalization: `"."` is dropped; `".."` pops the stack
when possible, is dropped at the root of an absolute path, and is kept at
the front of a relative path. -/
def normStack (abs : Bool) : List (List Char) → List (List Char) → List (List Char)
  | stack, [] => stack
  | stack, s :: rest =>
    if s = dotSeg then normStack abs stack rest
    else if s = dotDotSeg then
      if stack ≠ [] ∧ stack.getLast? ≠ some dotDotSeg then normStack abs stack.dropLast rest
      else if abs then normStack abs stack rest
      else normStack abs (stack ++ [dotDotSeg]) rest
    else normStack abs (stack ++ [s]) rest

/-- Model of POSIX `path.normalize`. -/
def normalizeModel (p : String) : String :=
  let abs := p.data.head? = some '/'
  let segs := normStack abs [] (segsOf p.data)
  if abs then ⟨'/' :: joinSegs segs⟩
  else if segs = [] then "." else ⟨joinSegs segs⟩

/-- Model of POSIX `path.join a b`: concatenate with a slash, then
normalize. -/
def joinModel (a b : String) : String := normalizeModel ⟨a.data ++ '/' :: b.data⟩

/-- `AdminStorageClient.getFullPath` of `src/unnamed/part_000`:
`path.normalize` the relative path, strip one leading slash if present, and
`path.join` it onto the base path. -/
def getFullPath (basePath relativePath : String) : String :=
  match (normalizeModel relativePath).data with
  | '/' :: rest => joinModel basePath ⟨rest⟩
  | _ => joinModel basePath (normalizeModel relativePath)

/-- `O2SwitchStorage.downloadAdminFile` (SFTP variant, `file-sharing.ts`
third document) resolves its relative path by a bare `path.join` onto the
admin base path.  This is that resolved full path. -/
def downloadAdminFullPath (adminBasePath relativePath : String) : String :=
  joinModel adminBasePath relativePath

/-- Does `p` stay inside the subtree rooted at `basePath`?  (Segment-level
prefix test: the claim's "stays within the configured base root".) -/
def withinBase (basePath p : String) : Bool :=
  leadsWith (segsOf basePath.data) (segsOf p.data)

/-- JavaScript `s.replace(pat, repl)` with a plain-string pattern: replace
the first occurrence only. -/
def replaceFirst (pat repl s : String) : String :=
  match findFirstIdx pat.data s.data with
  | none => s
  | some i => ⟨s.data.take i ++ repl.data ++ s.data.drop (i + pat.data.length)⟩

/-- JavaScript `s.replace(/^\//, '')`: strip one leading slash. -/
def stripLeadSlash (s : String) : String :=
  match s.data with
  | '/' :: r => ⟨r⟩
  | _ => s

/-! ## Storage-client `connect()` state machines

The single-threaded event loop runs each synchronous segment of a
`connect()` caller atomically; `await` points are where other tasks or the
handshake completion may interleave.  `handshakes` counts underlying
handshake attempts started (`client.connect` / `client.access` calls).

`O2SwitchStorage.connect` (both the SFTP and the FTPS variant have
identical structure): check `connected`, then check the in-flight
`connecting` promise, else start a handshake and publish the promise — all
in one synchronous segment (the async IIFE runs synchronously up to its
first `await`, which is the handshake call itself). -/

structure O2ConnState where
  connected : Bool
  connecting : Bool
  handshakes : Nat
deriving Repr, DecidableEq

inductive O2Pc where
  | start
  | waiting
  | finished
deriving Repr, DecidableEq

/-- One synchronous segment of an `O2SwitchStorage.connect` caller. -/
def o2ConnectStep (s : O2ConnState) (pc : O2Pc) : O2ConnState × O2Pc :=
  match pc with
  | .start =>
    if s.connected then (s, .finished)
    else if s.connecting then (s, .waiting)
    else ({ s with connecting := true, handshakes := s.handshakes + 1 }, .waiting)
  | pc => (s, pc)

/-- Completion of the in-flight handshake: the IIFE continuation sets
`connected` (true on success, false on failure), clears `connecting` in its
`finally`, and every caller awaiting the promise resumes (on failure the
rejection propagates to them). -/
def o2Resolve (success : Bool) (s : O2ConnState) (pcs : List O2Pc) : O2ConnState × List O2Pc :=
  if s.connecting then
    ({ s with connected := success, connecting := false },
     pcs.map fun pc => if pc = .waiting then .finished else pc)
  else (s, pcs)

inductive O2Event where
  | task (i : Nat)
  | resolveOk
  | resolveFail
deriving Repr, DecidableEq

/-- One scheduler step over an `O2SwitchStorage` instance shared by the
tasks in `pcs`. -/
def o2Step (st : O2ConnState × List O2Pc) (e : O2Event) : O2ConnState × List O2Pc :=
  match e with
  | .task i =>
    match st.2.get? i with
    | none => st
    | some pc =>
      let r := o2ConnectStep st.1 pc
      (r.1, st.2.set i r.2)
  | .resolveOk => o2Resolve true st.1 st.2
  | .resolveFail => o2Resolve false st.1 st.2

/-- Run a schedule. -/
def o2Run (st : O2ConnState × List O2Pc) (evs : List O2Event) : O2ConnState × List O2Pc :=
  evs.foldl o2Step st

/-- Fresh instance shared by `n` concurrent `connect()` callers. -/
def o2Init (n : Nat) : O2ConnState × List O2Pc :=
  (⟨false, false, 0⟩, List.replicate n .start)

/-- `AdminStorageClient.connect` of `src/unnamed/part_000`: it checks only
the `connected` flag — there is no in-flight `connecting` guard — then
starts its own handshake and awaits it. -/

structure AdminConnState where
  connected : Bool
  handshakes : Nat
deriving Repr, DecidableEq

inductive AdminPc where
  | start
  | waiting
  | finished
deriving Repr, DecidableEq

/-- One synchronous segment of an `AdminStorageClient.connect` caller. -/
def adminConnectStep (s : AdminConnState) (pc : AdminPc) : AdminConnState × AdminPc :=
  match pc with
  | .start =>
    if s.connected then (s, .finished)
    else ({ s with handshakes := s.handshakes + 1 }, .waiting)
  | pc => (s, pc)

inductive AdminEvent where
  | task (i : Nat)
  | resolve (i : Nat) (success : Bool)
deriving Repr, DecidableEq

/-- One scheduler step over an `AdminStorageClient` instance; `resolve i ok`
completes the handshake started by task `i` (each caller awaits its own
attempt). -/
def adminStep (st : AdminConnState × List AdminPc) (e : AdminEvent) :
    AdminConnState × List AdminPc :=
  match e with
  | .task i =>
    match st.2.get? i with
    | none => st
    | some pc =>
      let r := adminConnectStep st.1 pc
      (r.1, st.2.set i r.2)
  | .resolve i success =>
    match st.2.get? i with
    | some .waiting => ({ st.1 with connected := success }, st.2.set i .finished)
    | _ => st

/-- Run a schedule. -/
def adminRun (st : AdminConnState × List AdminPc) (evs : List AdminEvent) :
    AdminConnState × List AdminPc :=
  evs.foldl adminStep st

/-- Fresh instance shared by `n` concurrent `connect()` callers. -/
def adminInit (n : Nat) : AdminConnState × List AdminPc :=
  (⟨false, 0⟩, List.replicate n .start)

/-- Invariant of the `O2SwitchStorage.connect` machine under failure-free
schedules: the handshake count equals one exactly when a handshake is in
flight or the connection is established (and is zero otherwise, in which
case no caller has moved past its first segment). -/
def o2Inv (st : O2ConnState × List O2Pc) : Prop :=
  st.1.handshakes = (if st.1.connecting || st.1.connected then 1 else 0)
  ∧ (st.1.connecting = false → st.1.connected = false → ∀ pc ∈ st.2, pc = O2Pc.start)

/-- Some caller has performed its first synchronous segment. -/
def o2Started (st : O2ConnState × List O2Pc) : Prop :=
  ∃ pc ∈ st.2, pc ≠ O2Pc.start

/-! ## Remote file tree and the two search implementations -/

/-- A node of the remote file tree (`children` is meaningful for
directories).  Timestamp/permission fields of the real listings are carried
through both implementations unchanged and are omitted from the model. -/
inductive FSEntry where
  | mk (name : String) (isDir : Bool) (size : Nat) (children : List FSEntry)

/-- Entry name. -/
def FSEntry.name : FSEntry → String
  | .mk n _ _ _ => n

/-- Is the entry a directory? -/
def FSEntry.isDir : FSEntry → Bool
  | .mk _ d _ _ => d

/-- Entry size. -/
def FSEntry.size : FSEntry → Nat
  | .mk _ _ s _ => s

/-- Children of the entry. -/
def FSEntry.children : FSEntry → List FSEntry
  | .mk _ _ _ c => c

/-- A result record of `O2SwitchStorage.searchAdminFiles`
(`name/size/type/path`, where `type` is `"d"` for directories and `"-"`
otherwise and `path` is relative to the admin base root). -/
structure SearchResult where
  name : String
  size : Nat
  type : String
  path : String
deriving Repr, DecidableEq

/-- The recursive `searchDirectory` closure inside
`O2SwitchStorage.searchAdminFiles` (both variants are identical).
`client.list dirPath` is modelled as yielding the children of the node the
path denotes, which are threaded alongside the path. -/
def searchDirectory (adminBase lowerQuery : String) : String → List FSEntry → List SearchResult
  | _, [] => []
  | dirPath, FSEntry.mk nm isDir sz ch :: rest =>
    (if nm = "." ∨ nm = ".." then []
     else
       (if containsSub (toLowerL nm.data) lowerQuery.data then
          [{ name := nm, size := sz, type := if isDir then "d" else "-",
             path := stripLeadSlash (replaceFirst adminBase "" (joinModel dirPath nm)) }]
        else [])
       ++ (if isDir then searchDirectory adminBase lowerQuery (joinModel dirPath nm) ch else []))
    ++ searchDirectory adminBase lowerQuery dirPath rest

/-- `O2SwitchStorage.searchAdminFiles`: lower-case the query once, resolve
the search root by `path.join`, and run the recursive walk.  `rootEntries`
are the children of the search root. -/
def searchAdminFiles (adminBase : String) (rootEntries : List FSEntry)
    (relativePath query : String) : List SearchResult :=
  searchDirectory adminBase ⟨toLowerL query.data⟩ (joinModel adminBase relativePath) rootEntries

/-- Specification-side enumeration (from the claim's words): every entry at
every depth of the subtree, each with its path relative to the base root
(the segments from the base root joined with slashes).  The claimed search
result is this enumeration filtered by case-insensitive name containment. -/
def allEntries (relSegs : List (List Char)) : List FSEntry → List SearchResult
  | [] => []
  | FSEntry.mk nm isDir sz ch :: rest =>
    (if nm = "." ∨ nm = ".." then []
     else
       { name := nm, size := sz, type := (if isDir then "d" else "-"),
         path := (⟨joinSegs (relSegs ++ [nm.data])⟩ : String) }
       :: (if isDir then allEntries (relSegs ++ [nm.data]) ch else []))
    ++ allEntries relSegs rest

/-- Look up the children list reached from `entries` by descending the
given directory names. -/
def lookupEntries : List FSEntry → List (List Char) → Option (List FSEntry)
  | entries, [] => some entries
  | entries, seg :: rest =>
    match entries.find? (fun e => e.name.data = seg && e.isDir) with
    | some e => lookupEntries e.children rest
    | none => none

/-- A record of `AdminStorageClient.listFiles` (name/kind/size; the
remaining fields are copied through unchanged and omitted). -/
structure AdminFileM where
  name : String
  isDir : Bool
  size : Nat
deriving Repr, DecidableEq

/-- `AdminStorageClient.listFiles`: resolve the path via `getFullPath`,
`client.list` it (modelled as the tree lookup under the base root; paths
escaping the base are outside the model and yield `none`), drop the
`.`/`..` pseudo-entries and map the fields. -/
def adminListFiles (basePath : String) (root : List FSEntry) (rel : String) :
    Option (List AdminFileM) :=
  let fullSegs := segsOf (getFullPath basePath rel).data
  let baseSegs := segsOf basePath.data
  if leadsWith baseSegs fullSegs then
    (lookupEntries root (fullSegs.drop baseSegs.length)).map fun entries =>
      (entries.filter fun e => !(e.name == "." || e.name == "..")).map fun e =>
        { name := e.name, isDir := e.isDir, size := e.size }
  else none

/-- `AdminStorageClient.search` of `src/unnamed/part_000`: list the files of
the given directory and filter them by case-insensitive name containment.
There is no recursion into subdirectories. -/
def adminSearch (basePath : String) (root : List FSEntry) (rel query : String) :
    Option (List AdminFileM) :=
  (adminListFiles basePath root rel).map fun files =>
    files.filter fun f => containsSub (toLowerL f.name.data) (toLowerL query.data)

/-- A well-formed file name: non-empty, slash-free, and not a pseudo
entry. -/
def cleanName (s : String) : Bool :=
  s != "" && s.data.all (fun c => c ≠ '/') && s != "." && s != ".."

/-- Every name in the forest is well-formed. -/
def forestClean : List FSEntry → Bool
  | [] => true
  | FSEntry.mk nm _ _ ch :: rest => cleanName nm && forestClean ch && forestClean rest

/-! ## Catalogue artists text store (`catalogue-routes.js`)

`writeArtistsFile` regenerates the whole `artists.ts` file from the
in-memory artist array; `parseArtistsFile` extracts the literal array with
a regex and evaluates it.  The file-system write/read itself is modelled by
passing the file content directly from writer to parser. -/

/-- An artist record as serialized by `artistToTS` (numeric values are
modelled as integers). -/
structure Artist where
  id : Int
  name : String
  act : String
  description : String
  style : List String
  social : List (String × String)
  country : String
  image_url : String
  videos : List String
deriving Repr, DecidableEq

/-- Shorthand: the characters of a string literal. -/
def strL (s : String) : List Char := s.data

/-- The escaping applied to the description field:
`.replace(/"/g, '\\"').replace(/\n/g, '\\n')`.  The two sequential global
single-character replacements amount to this character-wise map (the first
introduces no newline, so the second is independent of it). -/
def escDescL : List Char → List Char
  | [] => []
  | c :: cs =>
    if c = '"' then '\\' :: '"' :: escDescL cs
    else if c = '\n' then '\\' :: 'n' :: escDescL cs
    else c :: escDescL cs

/-- A double-quoted literal with the given raw body. -/
def quoteRaw (s : List Char) : List Char := '"' :: (s ++ ['"'])

/-- `Array.prototype.join` on character lists. -/
def joinWith (sep : List Char) : List (List Char) → List Char
  | [] => []
  | [x] => x
  | x :: xs => x ++ (sep ++ joinWith sep xs)

/-- Big-endian decimal digits of a positive number; the fuel (any bound on
`n`) makes the recursion structural. -/
def natToDecimalAux : Nat → Nat → List Char
  | 0, _ => []
  | fuel + 1, n => if n = 0 then [] else natToDecimalAux fuel (n / 10) ++ [hexDigitChar (n % 10)]

/-- Decimal rendering of a natural number (JavaScript number-to-string for
non-negative integers). -/
def natToDecimal (n : Nat) : List Char :=
  if n = 0 then ['0'] else natToDecimalAux n n

/-- Decimal rendering of an integer (JavaScript `${number}` for integral
values). -/
def intToDecimal (i : Int) : List Char :=
  if i < 0 then '-' :: natToDecimal i.natAbs else natToDecimal i.natAbs

/-- `artistToTS` of `catalogue-routes.js`: the template literal producing
one artist object literal.  Only the description is escaped; `social`
entries with falsy (empty) values are dropped; the `videos` field is
emitted only when the list is non-empty. -/
def artistToTSL (a : Artist) : List Char :=
  strL "  \x7b\n    id: " ++ intToDecimal a.id
  ++ strL ",\n    name: " ++ quoteRaw a.name.data
  ++ strL ",\n    act: " ++ quoteRaw a.act.data
  ++ strL ",\n    description: " ++ quoteRaw (escDescL a.description.data)
  ++ strL ",\n    style: [" ++ joinWith (strL ", ") (a.style.map fun s => quoteRaw s.data)
  ++ strL "],\n    social: \x7b\n"
  ++ joinWith (strL ",\n")
      ((a.social.filter fun kv => kv.2 != "").map fun kv =>
        strL "      " ++ kv.1.data ++ strL ": " ++ quoteRaw kv.2.data)
  ++ strL "\n    \x7d,\n    country: " ++ quoteRaw a.country.data
  ++ strL ",\n    image_url: " ++ quoteRaw a.image_url.data ++ [',']
  ++ (if a.videos = [] then []
      else
        strL "\n    videos: [\n"
        ++ joinWith (strL ",\n") (a.videos.map fun v => strL "      " ++ quoteRaw v.data)
        ++ strL "\n    ],")
  ++ strL "\n  \x7d"

/-- `artistToTS` as a string. -/
def artistToTS (a : Artist) : String := ⟨artistToTSL a⟩

/-- The fixed head of the regenerated `artists.ts` (the two import lines of
the template in `writeArtistsFile`). -/
def artistsHeader : String :=
  "import type \x7b Artist \x7d from \"../types/artist\"\nimport \x7b slugify \x7d from \"../utils/slugify\"\n\n"

/-- The literal the extraction regex anchors on. -/
def artistsMarker : String := "const artistsData = ["

/-- The fixed tail of the regenerated `artists.ts`: the closing bracket and
the boilerplate helper functions regenerated verbatim on each write. -/
def artistsFooter : String :=
  "\n]\n\n// Add slugs to all artists\nexport const artists: Artist[] = artistsData.map((artist) => (\x7b\n  ...artist,\n  slug: slugify(artist.name),\n  videos: artist.videos || [],\n\x7d))\n\n// Helper functions\nexport function getArtistBySlug(slug: string): Artist | undefined \x7b\n  return artists.find((artist) => artist.slug === slug)\n\x7d\n\nexport function getArtistById(id: number): Artist | undefined \x7b\n  return artists.find((artist) => artist.id === id)\n\x7d\n\nexport function getAllStyles(): string[] \x7b\n  const styles = new Set<string>()\n  artists.forEach((artist) => \x7b\n    artist.style.forEach((s) => styles.add(s))\n  \x7d)\n  return Array.from(styles).sort()\n\x7d\n\nexport function getAllCountries(): string[] \x7b\n  const countries = new Set<string>()\n  artists.forEach((artist) => countries.add(artist.country))\n  return Array.from(countries).sort()\n\x7d\n"

/-- `writeArtistsFile` of `catalogue-routes.js`: the full regenerated file
content (the `fs.writeFileSync` is modelled by returning the content). -/
def writeArtistsFileModel (artists : List Artist) : String :=
  artistsHeader ++ artistsMarker ++ "\n"
    ++ (⟨joinWith (strL ",\n") (artists.map artistToTSL)⟩ : String)
    ++ artistsFooter

/-! ### Model of the extraction regex and of `eval` on the emitted grammar -/

/-- Whitespace skipped between JavaScript tokens. -/
def isWsChar (c : Char) : Bool := c = ' ' || c = '\n' || c = '\t' || c = '\r'

/-- Skip leading whitespace. -/
def skipWs : List Char → List Char
  | [] => []
  | c :: cs => if isWsChar c then skipWs cs else c :: cs

/-- Value of a JavaScript single-character escape sequence (`\n`, `\t`, …;
any other escaped character stands for itself, as in JavaScript). -/
def escCharJs (e : Char) : Char :=
  if e = 'n' then '\n' else if e = 't' then '\t' else if e = 'r' then '\r'
  else if e = 'b' then Char.ofNat 8 else if e = 'f' then Char.ofNat 12
  else if e = 'v' then Char.ofNat 11 else e

/-- Parse the body of a JavaScript double-quoted string literal (after the
opening quote).  The flag records whether the previous character was an
unconsumed backslash.  A raw line terminator inside the literal is a
syntax error, as in JavaScript. -/
def parseStringBodyF : Bool → List Char → Option (List Char × List Char)
  | _, [] => none
  | true, e :: cs => (parseStringBodyF false cs).map fun p => (escCharJs e :: p.1, p.2)
  | false, c :: cs =>
    if c = '"' then some ([], cs)
    else if c = '\\' then parseStringBodyF true cs
    else if c = '\n' ∨ c = '\r' then none
    else (parseStringBodyF false cs).map fun p => (c :: p.1, p.2)

/-- The body parser from its initial state. -/
def parseStringBody (l : List Char) : Option (List Char × List Char) :=
  parseStringBodyF false l

/-- Identifier characters. -/
def identChar (c : Char) : Bool := c.isAlpha || c.isDigit || c = '_'

/-- Longest identifier-character run at the head. -/
def parseIdent : List Char → (List Char × List Char)
  | [] => ([], [])
  | c :: cs =>
    if identChar c then
      let p := parseIdent cs
      (c :: p.1, p.2)
    else ([], c :: cs)

/-- Digit value of a decimal digit character. -/
def digitVal (c : Char) : Nat := c.toNat - 48

/-- Longest digit run at the head. -/
def parseDigits : List Char → (List Char × List Char)
  | [] => ([], [])
  | c :: cs =>
    if c.isDigit then
      let p := parseDigits cs
      (c :: p.1, p.2)
    else ([], c :: cs)

/-- Value of a digit run. -/
def decimalVal (ds : List Char) : Nat := ds.foldl (fun a c => 10 * a + digitVal c) 0

/-- Parse an optionally-signed decimal integer literal. -/
def parseNum : List Char → Option (Int × List Char)
  | [] => none
  | c :: cs =>
    if c = '-' then
      let p := parseDigits cs
      if p.1 = [] then none else some (-(decimalVal p.1 : Int), p.2)
    else
      let p := parseDigits (c :: cs)
      if p.1 = [] then none else some ((decimalVal p.1 : Int), p.2)

/-- A JavaScript value of the shapes the serializer emits: number, string,
array of strings, or object with string values. -/
inductive JsVal where
  | num (n : Int)
  | str (s : String)
  | arrS (xs : List String)
  | objS (kvs : List (String × String))
deriving Repr, DecidableEq

/-- Elements of an array of string literals (positioned after `[` or after
a separating comma; trailing commas are permitted as in JavaScript).  The
fuel bounds the iteration; each step consumes at least one character, so
`length + 1` always suffices. -/
def parseStrListAux : Nat → List Char → Option (List String × List Char)
  | 0, _ => none
  | fuel + 1, l =>
    match skipWs l with
    | [] => none
    | c :: r =>
      if c = ']' then some ([], r)
      else if c = '"' then
        match parseStringBody r with
        | none => none
        | some (s, r2) =>
          match skipWs r2 with
          | [] => none
          | c2 :: r4 =>
            if c2 = ',' then
              match parseStrListAux fuel r4 with
              | none => none
              | some (xs, r5) => some ((⟨s⟩ : String) :: xs, r5)
            else if c2 = ']' then some ([(⟨s⟩ : String)], r4)
            else none
      else none

/-- Entries of an object literal with identifier keys and string-literal
values (positioned after the opening brace or a separating comma). -/
def parseObjStrAux : Nat → List Char → Option (List (String × String) × List Char)
  | 0, _ => none
  | fuel + 1, l =>
    match skipWs l with
    | [] => none
    | c :: r =>
      if c = '\x7d' then some ([], r)
      else
        match parseIdent (c :: r) with
        | ([], _) => none
        | (k, r1) =>
          match skipWs r1 with
          | [] => none
          | c2 :: r3 =>
            if c2 = ':' then
              match skipWs r3 with
              | [] => none
              | c3 :: r5 =>
                if c3 = '"' then
                  match parseStringBody r5 with
                  | none => none
                  | some (v, r6) =>
                    match skipWs r6 with
                    | [] => none
                    | c4 :: r8 =>
                      if c4 = ',' then
                        match parseObjStrAux fuel r8 with
                        | none => none
                        | some (kvs, r9) =>
                          some (((⟨k⟩ : String), (⟨v⟩ : String)) :: kvs, r9)
                      else if c4 = '\x7d' then
                        some ([((⟨k⟩ : String), (⟨v⟩ : String))], r8)
                      else none
                else none
            else none

/-- Parse one value of the emitted grammar. -/
def parseValue (l : List Char) : Option (JsVal × List Char) :=
  match skipWs l with
  | [] => none
  | c :: r =>
    if c = '"' then (parseStringBody r).map fun p => (JsVal.str ⟨p.1⟩, p.2)
    else if c = '[' then
      match parseStrListAux (r.length + 1) r with
      | none => none
      | some (xs, r2) => some (JsVal.arrS xs, r2)
    else if c = '\x7b' then
      match parseObjStrAux (r.length + 1) r with
      | none => none
      | some (kvs, r2) => some (JsVal.objS kvs, r2)
    else (parseNum (c :: r)).map fun p => (JsVal.num p.1, p.2)

/-- Fields of an object literal (positioned after the opening brace or a
separating comma; trailing commas permitted). -/
def parseFieldsAux : Nat → List Char → Option (List (String × JsVal) × List Char)
  | 0, _ => none
  | fuel + 1, l =>
    match skipWs l with
    | [] => none
    | c :: r =>
      if c = '\x7d' then some ([], r)
      else
        match parseIdent (c :: r) with
        | ([], _) => none
        | (k, r1) =>
          match skipWs r1 with
          | [] => none
          | c2 :: r3 =>
            if c2 = ':' then
              match parseValue r3 with
              | none => none
              | some (v, r4) =>
                match skipWs r4 with
                | [] => none
                | c3 :: r6 =>
                  if c3 = ',' then
                    match parseFieldsAux fuel r6 with
                    | none => none
                    | some (kvs, r7) => some (((⟨k⟩ : String), v) :: kvs, r7)
                  else if c3 = '\x7d' then some ([((⟨k⟩ : String), v)], r6)
                  else none
            else none

/-- Elements of an array of object literals (positioned after `[` or a
separating comma). -/
def parseObjsAux : Nat → List Char → Option (List (List (String × JsVal)) × List Char)
  | 0, _ => none
  | fuel + 1, l =>
    match skipWs l with
    | [] => none
    | c :: r =>
      if c = ']' then some ([], r)
      else if c = '\x7b' then
        match parseFieldsAux (r.length + 1) r with
        | none => none
        | some (kvs, r2) =>
          match skipWs r2 with
          | [] => none
          | c2 :: r4 =>
            if c2 = ',' then
              match parseObjsAux fuel r4 with
              | none => none
              | some (objs, r5) => some (kvs :: objs, r5)
            else if c2 = ']' then some ([kvs], r4)
            else none
      else none

/-- Model of `eval('[' + captured + ']')` restricted to the grammar the
serializer emits (an array of object literals whose values are numbers,
double-quoted strings, arrays of strings, or objects of strings).  Inputs
outside this grammar yield `none`, as `eval` raises a `SyntaxError` on the
corresponding texts (raw line terminators inside string literals, stray
tokens after a closed literal, and so on). -/
def evalArtistArray (s : String) : Option (List (List (String × JsVal))) :=
  match skipWs s.data with
  | [] => none
  | c :: r =>
    if c = '[' then
      match parseObjsAux (r.length + 1) r with
      | none => none
      | some (objs, rest) => if skipWs rest = [] then some objs else none
    else none

/-- First value bound to a key (the emitted objects have distinct keys). -/
def lookupJs (kvs : List (String × JsVal)) (k : String) : Option JsVal :=
  (kvs.find? fun kv => kv.1 == k).map fun kv => kv.2

/-- Read an evaluated object field-for-field as the route code and the
claim's field-for-field comparison do: the typed fields of `Artist`, with a
missing `videos` field being the absent optional list. -/
def artistOfJs (kvs : List (String × JsVal)) : Option Artist :=
  match lookupJs kvs "id", lookupJs kvs "name", lookupJs kvs "act",
        lookupJs kvs "description", lookupJs kvs "style", lookupJs kvs "social",
        lookupJs kvs "country", lookupJs kvs "image_url" with
  | some (.num i), some (.str nm), some (.str ac), some (.str de),
      some (.arrS st), some (.objS so), some (.str co), some (.str ur) =>
    match lookupJs kvs "videos" with
    | none => some ⟨i, nm, ac, de, st, so, co, ur, []⟩
    | some (.arrS vs) => some ⟨i, nm, ac, de, st, so, co, ur, vs⟩
    | some _ => none
  | _, _, _, _, _, _, _, _ => none

/-- The extraction regex `/const artistsData = \[([\s\S]*?)\n\]/` of
`parseArtistsFile`: anchor on the first occurrence of
`const artistsData = [` and capture lazily up to the first following
`"\n]"`.  (On the generated contents considered below the leftmost marker
occurrence always has a later `"\n]"`, so this equals the regex engine's
leftmost-match rule.) -/
def extractArtistsData (content : String) : Option String :=
  match findFirstIdx artistsMarker.data content.data with
  | none => none
  | some i =>
    let after := content.data.drop (i + artistsMarker.data.length)
    match findFirstIdx (strL "\n]") after with
    | none => none
    | some j => some ⟨after.take j⟩

/-- `parseArtistsFile` of `catalogue-routes.js`: extract the array text and
evaluate it, then read the resulting objects. -/
def parseArtistsFileModel (content : String) : Option (List Artist) :=
  match extractArtistsData content with
  | none => none
  | some captured =>
    match evalArtistArray ("[" ++ captured ++ "]") with
    | none => none
    | some objs => objs.mapM artistOfJs

/-! ### The class of artists for which the round trip holds -/

/-- Characters safe in the fields that are serialized without escaping: no
quote, no backslash, no line terminator. -/
def plainChar (c : Char) : Bool := !(c = '"' || c = '\\' || c = '\n' || c = '\r')

/-- A string of safe characters. -/
def plainStr (s : String) : Bool := s.data.all plainChar

/-- Characters safe in the (escaped) description: quotes and newlines are
escaped by the serializer, so only backslashes and carriage returns break
the round trip. -/
def descChar (c : Char) : Bool := !(c = '\\' || c = '\r')

/-- A description whose quotes and newlines survive the round trip. -/
def descOk (s : String) : Bool := s.data.all descChar

/-- A social key must be emitted as a valid identifier key. -/
def identName (s : String) : Bool :=
  match s.data with
  | [] => false
  | c :: cs => (c.isAlpha || c = '_') && cs.all identChar

/-- The well-formedness class of the amended round-trip claim: description
free of backslashes and carriage returns (quotes and newlines allowed); all
other free-text fields free of quotes, backslashes and line terminators;
social keys identifiers and social values non-empty. -/
def artistOk (a : Artist) : Bool :=
  plainStr a.name && plainStr a.act && descOk a.description
  && a.style.all plainStr
  && a.social.all (fun kv => identName kv.1 && kv.2 != "" && plainStr kv.2)
  && plainStr a.country && plainStr a.image_url
  && a.videos.all plainStr

/-- The key/value fields, in emission order, that evaluating one rendered
artist object yields. -/
def fieldsOf (a : Artist) : List (String × JsVal) :=
  [("id", .num a.id), ("name", .str a.name), ("act", .str a.act),
   ("description", .str a.description), ("style", .arrS a.style),
   ("social", .objS (a.social.filter fun kv => kv.2 != "")),
   ("country", .str a.country), ("image_url", .str a.image_url)]
  ++ (if a.videos = [] then [] else [("videos", .arrS a.videos)])

/-- The nine fields of one rendered artist, each as the key, the emitted
value text (as a difference list, so that concatenation with what follows
is definitionally associated), and the value `eval` yields for it. -/
def artistTrips (a : Artist) : List (String × (List Char → List Char) × JsVal) :=
  [("id", fun X => intToDecimal a.id ++ X, JsVal.num a.id),
   ("name", fun X => quoteRaw a.name.data ++ X, JsVal.str a.name),
   ("act", fun X => quoteRaw a.act.data ++ X, JsVal.str a.act),
   ("description", fun X => quoteRaw (escDescL a.description.data) ++ X,
     JsVal.str a.description),
   ("style", fun X => '[' :: (joinWith (strL ", ")
     (a.style.map fun s => quoteRaw s.data) ++ (']' :: X)), JsVal.arrS a.style),
   ("social", fun X => '\x7b' :: ('\n' :: (joinWith (strL ",\n")
     ((a.social.filter fun kv => kv.2 != "").map fun kv =>
       strL "      " ++ (kv.1.data ++ (strL ": " ++ quoteRaw kv.2.data)))
     ++ ('\n' :: (strL "    " ++ ('\x7d' :: X))))),
     JsVal.objS (a.social.filter fun kv => kv.2 != "")),
   ("country", fun X => quoteRaw a.country.data ++ X, JsVal.str a.country),
   ("image_url", fun X => quoteRaw a.image_url.data ++ X, JsVal.str a.image_url)]
  ++ (if a.videos = [] then [] else
    [("videos", fun X => '[' :: ('\n' :: (joinWith (strL ",\n")
      (a.videos.map fun v => strL "      " ++ quoteRaw v.data)
      ++ ('\n' :: (strL "    " ++ (']' :: X))))), JsVal.arrS a.videos)])

/-- The text of one rendered artist object after its opening brace, with
`T` appended after the closing brace. -/
def artistFieldsText (a : Artist) (T : List Char) : List Char :=
  (artistTrips a).foldr
    (fun tr acc => strL "\n    " ++ (tr.1.data ++ (':' :: (' ' :: tr.2.1 (',' :: acc)))))
    (strL "\n  " ++ '\x7d' :: T)

/-- Adjacent-pair safety for the capture region: a newline is never
immediately followed by a closing bracket (so the lazy `([\s\S]*?)\n\]`
capture cannot end early). -/
def nlBr (a b : Char) : Bool := !(a = '\n' && b = ']')

/-- `nlBr` holds of every adjacent pair. -/
def nlChainB : List Char → Bool
  | [] => true
  | [_] => true
  | a :: b :: t => nlBr a b && nlChainB (b :: t)

/-! ## Concrete fixtures used by witnesses and counterexamples -/

/-- Stand-in for `bcrypt.compare` in witnesses: a password matches the
stored "hash" when they are equal. -/
def wVerify : String → String → Bool := fun p h => p == h

/-- Round-trip witness artist: negative id, a description with an embedded
newline and embedded quotes, populated style, social and videos. -/
def wArtist : Artist :=
  ⟨-7, "Nina", "DJ", "line1\nsaid \"hi\" twice", ["techno", "house"],
   [("instagram", "nina-ig"), ("bandcamp", "nina-bc")], "FR",
   "https://img.example/x.png", ["https://video.example/1", "https://video.example/2"]⟩

/-- An artist whose name carries a double quote: `artistToTS` emits it raw
inside the name string literal, so the regenerated file no longer
evaluates. -/
def cArtistQuote : Artist := ⟨1, "Ni\"na", "", "", [], [], "", "", []⟩

/-- Witness link: active, unrestricted. -/
def linkA : ShareLink :=
  ⟨"idA", "files/a.zip", "a.zip", 100, "tokA", "alice", 0, none, none, none, 0, true, none⟩

/-- Witness link: deactivated but with an expiry far in the future. -/
def linkB : ShareLink :=
  ⟨"idB", "files/b.zip", "b.zip", 100, "tokB", "alice", 0, some 1000000, none, none, 0, false, none⟩

/-- Witness link: active but expired. -/
def linkC : ShareLink :=
  ⟨"idC", "files/c.zip", "c.zip", 100, "tokC", "alice", 0, some 10, none, none, 0, true, none⟩

/-- Witness link: active, download limit exhausted. -/
def linkD : ShareLink :=
  ⟨"idD", "files/d.zip", "d.zip", 100, "tokD", "alice", 0, none, none, some 1, 1, true, none⟩

/-- Witness link: active, password-protected. -/
def linkE : ShareLink :=
  ⟨"idE", "files/e.zip", "e.zip", 100, "tokE", "alice", 0, none, some "pw", none, 0, true, none⟩

/-- Witness store. -/
def wStore : List ShareLink := [linkA, linkB, linkC, linkD, linkE]

/-- Witness byte supply: draw `i` yields bytes `i, i+1, …, i+15`. -/
def wSupply : Nat → List Nat := fun i => (List.range 16).map (i + ·)

/-- Witness tree for the search claims: case-insensitive matches for
"Report" at depth 0 (`report.txt`) and at depth 3 (`deepReport.txt`). -/
def wTree : List FSEntry :=
  [.mk "report.txt" false 10 [],
   .mk "notes.md" false 5 [],
   .mk "a" true 0 [.mk "b" true 0 [.mk "c" true 0 [.mk "deepReport.txt" false 22 []]]]]

/-- Counterexample tree for the search claims: the only match for "report"
sits at depth 3 (`a/b/c/report.txt`). -/
def cTree : List FSEntry :=
  [.mk "a" true 0 [.mk "b" true 0 [.mk "c" true 0 [.mk "report.txt" false 10 []]]],
   .mk "readme.md" false 5 []]

/-! # Theorems -/

/-! ## Share-link helper lemmas -/

theorem findUniqueToken_fresh (supply : Nat → List Nat) (store : List ShareLink) :
    ∀ fuel i t, findUniqueToken supply store fuel i = some t →
      (∀ l ∈ store, l.token ≠ t) ∧ ∃ j, t = generateShareToken (supply j) := by
  intro fuel
  induction fuel with
  | zero => intro i t h; simp [findUniqueToken] at h
  | succ n ih =>
    intro i t h
    simp only [findUniqueToken] at h
    by_cases hc : store.any (fun l => l.token = generateShareToken (supply i))
    · rw [if_pos hc] at h
      exact ih (i + 1) t h
    · rw [if_neg hc] at h
      obtain rfl : generateShareToken (supply i) = t := by simpa using h
      refine ⟨?_, i, rfl⟩
      intro l hl hlt
      exact hc (List.any_eq_true.mpr ⟨l, hl, by simpa using hlt⟩)

theorem createShareLink_some (hash : String → String) (supply : Nat → List Nat) (fuel : Nat)
    (store : List ShareLink) (options : ShareLinkOptions) (now : Int) (newId : String)
    (link : ShareLink) (store' : List ShareLink)
    (hc : createShareLink hash supply fuel store options now newId = some (link, store')) :
    store' = store ++ [link]
    ∧ (∀ l ∈ store, l.token ≠ link.token)
    ∧ (∃ j, link.token = generateShareToken (supply j))
    ∧ link.id = newId
    ∧ link.file_path = options.filePath
    ∧ link.file_name = options.fileName
    ∧ link.file_size = options.fileSize
    ∧ link.created_by = options.createdBy
    ∧ link.created_at = now
    ∧ link.expires_at
        = (if jsTruthyInt options.expiresIn then some (now + options.expiresIn.getD 0) else none)
    ∧ link.password_hash
        = (if jsTruthyStr options.password then some (hash (options.password.getD "")) else none)
    ∧ link.max_downloads
        = (if jsTruthyInt options.maxDownloads then options.maxDownloads else none)
    ∧ link.download_count = 0
    ∧ link.is_active = true
    ∧ link.last_accessed_at = none := by
  unfold createShareLink at hc
  cases hfind : findUniqueToken supply store fuel 0 with
  | none => rw [hfind] at hc; exact absurd hc (by simp)
  | some t =>
    rw [hfind] at hc
    simp only [Option.some.injEq, Prod.mk.injEq] at hc
    obtain ⟨hlink, hstore⟩ := hc
    obtain ⟨hfresh, j, hj⟩ := findUniqueToken_fresh supply store fuel 0 t hfind
    subst hlink
    refine ⟨hstore.symm, ?_, ⟨j, hj⟩, rfl, rfl, rfl, rfl, rfl, rfl, rfl, rfl, rfl, rfl, rfl, rfl⟩
    intro l hl
    exact hfresh l hl

theorem getShareLink_append_fresh (store : List ShareLink) (link : ShareLink)
    (h : ∀ l ∈ store, l.token ≠ link.token) :
    getShareLink (store ++ [link]) link.token = some link := by
  unfold getShareLink
  have hfilter : store.filter (fun l => l.token = link.token) = [] := by
    induction store with
    | nil => rfl
    | cons a as ih =>
      have ha := h a (by simp)
      simp only [List.filter_cons]
      rw [if_neg (by simpa using ha)]
      exact ih fun l hl => h l (by simp [hl])
  rw [List.filter_append, hfilter]
  simp

/-! ## C1: validation check order -/

/-- C1: `validateShareLink` evaluates existence, then the active flag, then
expiry (expiry timestamp strictly before the current time), then download
count versus maximum, then password requirement/correctness, and the first
failing check short-circuits with its specific reason string.  An unknown
token yields `invalid "Link not found"` (the function is total, so no input
throws), and a deactivated link reports the deactivation reason regardless
of its expiry state — in particular when it is not yet expired. -/
theorem validateShareLink_check_order
    (verify : String → String → Bool) (store : List ShareLink)
    (token : String) (password : Option String) (now : Int) :
    (getShareLink store token = none →
      validateShareLink verify store token password now = .invalid "Link not found")
    ∧ (∀ link, getShareLink store token = some link →
        (link.is_active = false →
          validateShareLink verify store token password now
            = .invalid "Link has been deactivated")
        ∧ (link.is_active = true → (∃ e, link.expires_at = some e ∧ e < now) →
          validateShareLink verify store token password now = .invalid "Link has expired")
        ∧ (link.is_active = true → (∀ e, link.expires_at = some e → ¬ e < now) →
           (∃ m, link.max_downloads = some m ∧ m ≤ link.download_count) →
          validateShareLink verify store token password now = .invalid "Download limit reached")
        ∧ (link.is_active = true → (∀ e, link.expires_at = some e → ¬ e < now) →
           (∀ m, link.max_downloads = some m → link.download_count < m) →
           ∀ h, link.password_hash = some h →
            ((password = none ∨ password = some "" →
              validateShareLink verify store token password now = .invalid "Password required")
             ∧ (∀ p, password = some p → p ≠ "" → verify p h = false →
              validateShareLink verify store token password now = .invalid "Invalid password")
             ∧ (∀ p, password = some p → p ≠ "" → verify p h = true →
              validateShareLink verify store token password now = .valid link)))
        ∧ (link.is_active = true → (∀ e, link.expires_at = some e → ¬ e < now) →
           (∀ m, link.max_downloads = some m → link.download_count < m) →
           link.password_hash = none →
          validateShareLink verify store token password now = .valid link)) := by
  constructor
  · intro h
    simp [validateShareLink, h]
  · intro link hlink
    have hexpF : (∀ e, link.expires_at = some e → ¬ e < now) →
        (match link.expires_at with | some e => decide (e < now) | none => false) = false := by
      intro hne
      cases hx : link.expires_at with
      | none => rfl
      | some e => simpa using hne e hx
    have hmaxF : (∀ m, link.max_downloads = some m → link.download_count < m) →
        (match link.max_downloads with
         | some m => decide (m ≤ link.download_count)
         | none => false) = false := by
      intro hlt
      cases hx : link.max_downloads with
      | none => rfl
      | some m => simpa using hlt m hx
    refine ⟨?_, ?_, ?_, ?_, ?_⟩
    · intro hact
      simp [validateShareLink, hlink, hact]
    · rintro hact ⟨e, he, helt⟩
      simp [validateShareLink, hlink, hact, he, helt]
    · rintro hact hne ⟨m, hm, hle⟩
      simp [validateShareLink, hlink, hact, hexpF hne, hm, hle]
    · intro hact hne hlt h hh
      refine ⟨?_, ?_, ?_⟩
      · rintro (rfl | rfl) <;>
          simp [validateShareLink, hlink, hact, hexpF hne, hmaxF hlt, hh]
      · rintro p rfl hp hv
        simp [validateShareLink, hlink, hact, hexpF hne, hmaxF hlt, hh, hp, hv]
      · rintro p rfl hp hv
        simp [validateShareLink, hlink, hact, hexpF hne, hmaxF hlt, hh, hp, hv]
    · intro hact hne hlt hh
      simp [validateShareLink, hlink, hact, hexpF hne, hmaxF hlt, hh]

/-- Witness for C1: the five reason strings and the success case, computed
on a concrete store through `validateShareLink_check_order`. -/
theorem validateShareLink_check_order_witness :
    validateShareLink wVerify wStore "nope" none 50 = .invalid "Link not found"
    ∧ validateShareLink wVerify wStore "tokB" none 50 = .invalid "Link has been deactivated"
    ∧ validateShareLink wVerify wStore "tokC" none 50 = .invalid "Link has expired"
    ∧ validateShareLink wVerify wStore "tokD" none 50 = .invalid "Download limit reached"
    ∧ validateShareLink wVerify wStore "tokE" none 50 = .invalid "Password required"
    ∧ validateShareLink wVerify wStore "tokE" (some "bad") 50 = .invalid "Invalid password"
    ∧ validateShareLink wVerify wStore "tokE" (some "pw") 50 = .valid linkE
    ∧ validateShareLink wVerify wStore "tokA" none 50 = .valid linkA := by
  refine ⟨?_, ?_, ?_, ?_, ?_, ?_, ?_, ?_⟩
  · exact (validateShareLink_check_order wVerify wStore "nope" none 50).1 (by decide)
  · exact (((validateShareLink_check_order wVerify wStore "tokB" none 50).2 linkB
      (by decide)).1) (by decide)
  · exact (((validateShareLink_check_order wVerify wStore "tokC" none 50).2 linkC
      (by decide)).2.1) (by decide) ⟨10, rfl, by decide⟩
  · exact (((validateShareLink_check_order wVerify wStore "tokD" none 50).2 linkD
      (by decide)).2.2.1) (by decide) (by intro e he; cases he) ⟨1, rfl, by decide⟩
  · exact ((((validateShareLink_check_order wVerify wStore "tokE" none 50).2 linkE
      (by decide)).2.2.2.1) (by decide) (by intro e he; cases he) (by intro m hm; cases hm)
      "pw" rfl).1 (Or.inl rfl)
  · exact ((((validateShareLink_check_order wVerify wStore "tokE" (some "bad") 50).2 linkE
      (by decide)).2.2.2.1) (by decide) (by intro e he; cases he) (by intro m hm; cases hm)
      "pw" rfl).2.1 "bad" rfl (by decide) (by decide)
  · exact ((((validateShareLink_check_order wVerify wStore "tokE" (some "pw") 50).2 linkE
      (by decide)).2.2.2.1) (by decide) (by intro e he; cases he) (by intro m hm; cases hm)
      "pw" rfl).2.2 "pw" rfl (by decide) (by decide)
  · exact (((validateShareLink_check_order wVerify wStore "tokA" none 50).2 linkA
      (by decide)).2.2.2.2) (by decide) (by intro e he; cases he) (by intro m hm; cases hm)
      (by decide)

/-! ## C9: owner-scoped deactivate/delete -/

/-- C9: `deactivateShareLink` and `deleteShareLink` filter on both the link
id and the creator identity; when the requesting user is not the creator of
any link carrying that id, zero records are affected and the store is
returned unchanged.  Both modelled operations are total functions, so the
non-matching case completes without an error, indistinguishable between
"not found" and "not yours". -/
theorem deactivate_delete_nonowner_noop (store : List ShareLink) (linkId userId : String)
    (h : ∀ l ∈ store, l.id = linkId → l.created_by ≠ userId) :
    deactivateShareLink store linkId userId = store
    ∧ deleteShareLink store linkId userId = store := by
  constructor
  · unfold deactivateShareLink
    induction store with
    | nil => rfl
    | cons a as ih =>
      have ha := h a (by simp)
      simp only [List.map_cons]
      rw [if_neg (by rintro ⟨h1, h2⟩; exact ha h1 h2)]
      rw [ih fun l hl => h l (by simp [hl])]
  · unfold deleteShareLink
    induction store with
    | nil => rfl
    | cons a as ih =>
      have ha := h a (by simp)
      simp only [List.filter_cons]
      rw [if_pos (by simp only [decide_eq_true_eq]; tauto)]
      rw [ih fun l hl => h l (by simp [hl])]

/-- Witness for C9: a non-owner's deactivate/delete on a concrete store is
the identity. -/
theorem deactivate_delete_nonowner_noop_witness :
    deactivateShareLink wStore "idA" "mallory" = wStore
    ∧ deleteShareLink wStore "idA" "mallory" = wStore :=
  deactivate_delete_nonowner_noop wStore "idA" "mallory" (by decide)

/-! ## C10: falsy option values -/

/-- C10: `createShareLink` treats falsy option values as absent:
`expiresIn = 0` stores `expires_at = null` and `maxDownloads = 0` stores
`max_downloads = null` (`options.maxDownloads || null`), so the resulting
link never fails validation with `"Link has expired"` or
`"Download limit reached"` — whatever the clock and however large its
download count grows. -/
theorem falsy_options_unlimited (hash : String → String) (supply : Nat → List Nat) (fuel : Nat)
    (store : List ShareLink) (options : ShareLinkOptions) (now : Int) (newId : String)
    (link : ShareLink) (store' : List ShareLink)
    (hexp : options.expiresIn = some 0) (hmax : options.maxDownloads = some 0)
    (hc : createShareLink hash supply fuel store options now newId = some (link, store')) :
    link.expires_at = none
    ∧ link.max_downloads = none
    ∧ ∀ verify password t count,
        validateShareLink verify [{ link with download_count := count }] link.token password t
          ≠ .invalid "Link has expired"
        ∧ validateShareLink verify [{ link with download_count := count }] link.token password t
          ≠ .invalid "Download limit reached" := by
  obtain ⟨-, -, -, -, -, -, -, -, -, he, -, hm, -, hact, -⟩ :=
    createShareLink_some hash supply fuel store options now newId link store' hc
  rw [hexp] at he
  rw [hmax] at hm
  simp only [jsTruthyInt] at he hm
  rw [if_neg (by simp)] at he
  rw [if_neg (by simp)] at hm
  refine ⟨he, hm, ?_⟩
  intro verify password t count
  have hfound : getShareLink [{ link with download_count := count }] link.token
      = some { link with download_count := count } := by
    unfold getShareLink
    simp
  unfold validateShareLink
  rw [hfound]
  simp only [he, hm, hact]
  cases hph : link.password_hash with
  | none => simp
  | some h =>
    cases password with
    | none => simp
    | some p =>
      by_cases hp : p = "" <;> by_cases hv : verify p h <;> simp [hp, hv]

/-- Witness for C10: a concrete creation with `expiresIn = 0` and
`maxDownloads = 0` yields a null expiry and null download cap, and a
validation far in the future with an enormous download count is refused by
neither the expiry nor the limit check. -/
theorem falsy_options_unlimited_witness :
    ∃ link store',
      createShareLink id wSupply 3 wStore
          ⟨"p", "n", 1, "alice", some 0, none, some 0⟩ 1000 "idF" = some (link, store')
      ∧ link.expires_at = none
      ∧ link.max_downloads = none
      ∧ validateShareLink wVerify [{ link with download_count := 99999 }] link.token none 999999999
          ≠ .invalid "Link has expired"
      ∧ validateShareLink wVerify [{ link with download_count := 99999 }] link.token none 999999999
          ≠ .invalid "Download limit reached" := by
  refine ⟨_, _, rfl, ?_⟩
  have h := falsy_options_unlimited id wSupply 3 wStore
    ⟨"p", "n", 1, "alice", some 0, none, some 0⟩ 1000 "idF" _ _ rfl rfl rfl
  exact ⟨h.1, h.2.1, (h.2.2 wVerify none 999999999 99999).1, (h.2.2 wVerify none 999999999 99999).2⟩

/-! ## C6: token format and uniqueness -/

theorem hexDigitChar_mem (n : Nat) (h : n < 16) :
    ((['0','1','2','3','4','5','6','7'] ++ ['8','9','a','b','c','d','e','f'])).contains
      (hexDigitChar n) = true := by
  interval_cases n <;> decide

theorem generateShareToken_length (bytes : List Nat) :
    (generateShareToken bytes).length = 2 * bytes.length := by
  show (bytes.flatMap byteToHex).length = 2 * bytes.length
  induction bytes with
  | nil => rfl
  | cons b bs ih =>
    show (byteToHex b ++ bs.flatMap byteToHex).length = 2 * (bs.length + 1)
    rw [List.length_append, ih, byteToHex]
    simp
    ring

theorem generateShareToken_hex (bytes : List Nat) :
    isHexString (generateShareToken bytes) = true := by
  show (bytes.flatMap byteToHex).all _ = true
  rw [List.all_eq_true]
  intro c hc
  rw [List.mem_flatMap] at hc
  obtain ⟨b, -, hcb⟩ := hc
  rw [byteToHex] at hcb
  simp only [List.mem_cons, List.not_mem_nil, or_false] at hcb
  rcases hcb with rfl | rfl <;> exact hexDigitChar_mem _ (Nat.mod_lt _ (by omega))

/-- C6: for every completed creation, the returned token is the hex
encoding of one 16-byte draw of the random supply — a 32-character string
over the lower-case hex alphabet — and the retry loop guarantees that no
link already stored carries that token, so the token is unique across all
stored share links at creation time. -/
theorem createShareLink_token_spec (hash : String → String) (supply : Nat → List Nat)
    (fuel : Nat) (store : List ShareLink) (options : ShareLinkOptions) (now : Int)
    (newId : String) (link : ShareLink) (store' : List ShareLink)
    (hbytes : ∀ i, (supply i).length = 16)
    (hc : createShareLink hash supply fuel store options now newId = some (link, store')) :
    link.token.length = 32
    ∧ isHexString link.token = true
    ∧ (∀ l ∈ store, l.token ≠ link.token)
    ∧ store' = store ++ [link] := by
  obtain ⟨hstore, hfresh, ⟨j, hj⟩, -⟩ :=
    createShareLink_some hash supply fuel store options now newId link store' hc
  refine ⟨?_, ?_, hfresh, hstore⟩
  · rw [hj, generateShareToken_length, hbytes j]
  · rw [hj]; exact generateShareToken_hex _

/-- Witness for C6: a concrete creation returns a 32-character hex token
absent from the pre-existing store. -/
theorem createShareLink_token_spec_witness :
    ∃ link store',
      createShareLink id wSupply 3 wStore ⟨"p", "n", 1, "alice", none, none, none⟩ 1000 "idF"
        = some (link, store')
      ∧ link.token.length = 32
      ∧ isHexString link.token = true
      ∧ (∀ l ∈ wStore, l.token ≠ link.token) := by
  refine ⟨_, _, rfl, ?_⟩
  have h := createShareLink_token_spec id wSupply 3 wStore
    ⟨"p", "n", 1, "alice", none, none, none⟩ 1000 "idF" _ _
    (fun i => by simp [wSupply]) rfl
  exact ⟨h.1, h.2.1, h.2.2.1⟩

/-! ## C7: absolute expiry from TTL -/

/-- C7: when a (truthy, i.e. non-zero) TTL is supplied, the stored link
carries the absolute expiry timestamp `creation clock + TTL`; in
particular, a link created with `expiresIn = -1` already lies in the past
and every subsequent validation (at any time not before the creation clock)
fails with `"Link has expired"`.  (A zero TTL is falsy at the JavaScript
interface and is treated as absent — see the claim about falsy option
values.) -/
theorem createShareLink_ttl_expiry (hash : String → String) (supply : Nat → List Nat)
    (fuel : Nat) (store : List ShareLink) (options : ShareLinkOptions) (now : Int)
    (newId : String) (link : ShareLink) (store' : List ShareLink) (d : Int)
    (hd : options.expiresIn = some d) (hd0 : d ≠ 0)
    (hc : createShareLink hash supply fuel store options now newId = some (link, store')) :
    link.expires_at = some (now + d)
    ∧ (d = -1 → ∀ verify t, now ≤ t →
        validateShareLink verify store' link.token none t = .invalid "Link has expired") := by
  obtain ⟨hstore, hfresh, -, -, -, -, -, -, -, he, -, -, -, hact, -⟩ :=
    createShareLink_some hash supply fuel store options now newId link store' hc
  rw [hd] at he
  simp only [jsTruthyInt] at he
  rw [if_pos (by simpa using hd0), Option.getD_some] at he
  refine ⟨he, ?_⟩
  rintro rfl verify t ht
  have hfound := getShareLink_append_fresh store link hfresh
  unfold validateShareLink
  rw [hstore, hfound]
  have hlt : now + (-1) < t := by omega
  simp [hact, he, hlt]

/-- Witness for C7: a concrete creation with `expiresIn = -1` stores
`expires_at = creation clock - 1` and validation at the creation clock
already reports the expiry. -/
theorem createShareLink_ttl_expiry_witness :
    ∃ link store',
      createShareLink id wSupply 3 wStore
          ⟨"p", "n", 1, "alice", some (-1), none, none⟩ 1000 "idG" = some (link, store')
      ∧ link.expires_at = some (1000 + (-1))
      ∧ validateShareLink wVerify store' link.token none 1000 = .invalid "Link has expired" := by
  refine ⟨_, _, rfl, ?_⟩
  have h := createShareLink_ttl_expiry id wSupply 3 wStore
    ⟨"p", "n", 1, "alice", some (-1), none, none⟩ 1000 "idG" _ _ (-1) rfl (by decide) rfl
  exact ⟨h.1, h.2 rfl wVerify 1000 (by omega)⟩

/-! ## C8: one download exhausts a one-download link -/

theorem filter_fresh_nil (store : List ShareLink) (tok : String)
    (h : ∀ l ∈ store, l.token ≠ tok) :
    store.filter (fun l => l.token = tok) = [] := by
  induction store with
  | nil => rfl
  | cons a as ih =>
    have ha := h a (by simp)
    simp only [List.filter_cons]
    rw [if_neg (by simpa using ha)]
    exact ih fun l hl => h l (by simp [hl])

theorem increment_map_fresh (store : List ShareLink) (tok : String)
    (g : ShareLink → ShareLink) (h : ∀ l ∈ store, l.token ≠ tok) :
    store.map (fun x => if x.token = tok then g x else x) = store := by
  induction store with
  | nil => rfl
  | cons a as ih =>
    have ha := h a (by simp)
    simp only [List.map_cons]
    rw [if_neg (by simpa using ha)]
    rw [ih fun l hl => h l (by simp [hl])]

/-- C8: on a link created with `maxDownloads = 1`, no password and no TTL,
one successful `incrementDownloadCount` (which writes `count + 1` and the
last-accessed timestamp) makes every subsequent `validateShareLink` fail
with `"Download limit reached"`.  The first conjunct is the loud-failure
half of the claim: if the underlying read finds no (unique) row, the
increment propagates an error instead of silently dropping the update. -/
theorem maxDownloads_one_limit (hash : String → String) (supply : Nat → List Nat)
    (fuel : Nat) (store : List ShareLink) (options : ShareLinkOptions) (now : Int)
    (newId : String) (link : ShareLink) (store₁ : List ShareLink) (now₁ : Int)
    (hmax : options.maxDownloads = some 1) (hexp : options.expiresIn = none)
    (_hpw : options.password = none)
    (hc : createShareLink hash supply fuel store options now newId = some (link, store₁)) :
    (∀ s (tok : String) n, s.filter (fun l => l.token = tok) = [] →
      incrementDownloadCount s tok n = .error "Failed to fetch download count")
    ∧ ∃ store₂,
        incrementDownloadCount store₁ link.token now₁ = .ok store₂
        ∧ getShareLink store₂ link.token
            = some { link with download_count := 1, last_accessed_at := some now₁ }
        ∧ ∀ verify password t,
            validateShareLink verify store₂ link.token password t
              = .invalid "Download limit reached" := by
  obtain ⟨hstore, hfresh, -, -, -, -, -, -, -, he, -, hm, hcount, hact, -⟩ :=
    createShareLink_some hash supply fuel store options now newId link store₁ hc
  rw [hexp] at he
  rw [hmax] at hm
  simp only [jsTruthyInt] at he hm
  rw [if_neg (by simp)] at he
  rw [if_pos (by simp)] at hm
  constructor
  · intro s tok n hnil
    unfold incrementDownloadCount
    rw [hnil]
  · have hfilter : store₁.filter (fun l => l.token = link.token) = [link] := by
      rw [hstore, List.filter_append, filter_fresh_nil store link.token hfresh]
      simp
    have hget : getShareLink
        (store₁.map fun x =>
          if x.token = link.token then
            { x with download_count := link.download_count + 1,
                     last_accessed_at := some now₁ }
          else x) link.token
        = some { link with download_count := 1, last_accessed_at := some now₁ } := by
      rw [hstore, List.map_append, increment_map_fresh store link.token _ hfresh]
      simp only [List.map_cons, List.map_nil, if_pos rfl]
      have hupd : ({ link with
          download_count := link.download_count + 1,
          last_accessed_at := some now₁ } : ShareLink)
          = { link with download_count := 1, last_accessed_at := some now₁ } := by
        simp [hcount]
      rw [hupd]
      exact getShareLink_append_fresh store _ hfresh
    refine ⟨_, ?_, hget, ?_⟩
    · unfold incrementDownloadCount
      rw [hfilter]
    · intro verify password t
      unfold validateShareLink
      rw [hget]
      simp [hact, he, hm]

/-- Witness for C8: concrete creation with `maxDownloads = 1`, one
increment, then a refused validation. -/
theorem maxDownloads_one_limit_witness :
    ∃ link store₁ store₂,
      createShareLink id wSupply 3 wStore
          ⟨"p", "n", 1, "alice", none, none, some 1⟩ 1000 "idH" = some (link, store₁)
      ∧ incrementDownloadCount store₁ link.token 2000 = .ok store₂
      ∧ validateShareLink wVerify store₂ link.token none 3000
          = .invalid "Download limit reached" := by
  obtain ⟨-, store₂, hinc, -, hval⟩ := maxDownloads_one_limit id wSupply 3 wStore
    ⟨"p", "n", 1, "alice", none, none, some 1⟩ 1000 "idH" _ _ 2000 rfl rfl rfl rfl
  refine ⟨_, _, store₂, rfl, ?_, ?_⟩
  · exact hinc
  · exact hval wVerify none 3000

/-! ## C2: connection de-duplication -/

theorem get?_mem_helper {α : Type} {l : List α} {i : Nat} {a : α}
    (h : l.get? i = some a) : a ∈ l := by
  induction l generalizing i with
  | nil => cases h
  | cons x xs ih =>
    cases i with
    | zero =>
      rw [List.get?] at h
      cases h
      exact List.mem_cons_self _ _
    | succ j => exact List.mem_cons_of_mem _ (ih h)

theorem get?_none_le {α : Type} {l : List α} {i : Nat}
    (h : l.get? i = none) : l.length ≤ i := by
  induction l generalizing i with
  | nil => simp
  | cons x xs ih =>
    cases i with
    | zero => cases h
    | succ j => simpa using ih h

theorem mem_set_self {α : Type} (l : List α) (i : Nat) (a : α) (h : i < l.length) :
    a ∈ l.set i a := by
  induction l generalizing i with
  | nil => simp at h
  | cons x xs ih =>
    cases i with
    | zero => simp
    | succ j =>
      rw [List.set]
      exact List.mem_cons_of_mem _ (ih j (by simpa using h))

theorem mem_of_mem_set {α : Type} {l : List α} {i : Nat} {a x : α}
    (h : x ∈ l.set i a) : x = a ∨ x ∈ l := by
  induction l generalizing i with
  | nil => cases h
  | cons y ys ih =>
    cases i with
    | zero =>
      rcases List.mem_cons.mp h with rfl | h'
      · exact Or.inl rfl
      · exact Or.inr (List.mem_cons_of_mem _ h')
    | succ j =>
      rcases List.mem_cons.mp h with rfl | h'
      · exact Or.inr (List.mem_cons_self _ _)
      · rcases ih h' with h'' | h''
        · exact Or.inl h''
        · exact Or.inr (List.mem_cons_of_mem _ h'')

theorem o2Run_cons (st : O2ConnState × List O2Pc) (e : O2Event) (es : List O2Event) :
    o2Run st (e :: es) = o2Run (o2Step st e) es := rfl

theorem o2Step_length (st : O2ConnState × List O2Pc) (e : O2Event) :
    (o2Step st e).2.length = st.2.length := by
  rcases st with ⟨s, pcs⟩
  cases e with
  | task i =>
    simp only [o2Step]
    cases h : pcs.get? i with
    | none => rfl
    | some pc => simp
  | resolveOk =>
    simp only [o2Step, o2Resolve]
    split <;> simp
  | resolveFail =>
    simp only [o2Step, o2Resolve]
    split <;> simp

theorem o2Inv_init (n : Nat) : o2Inv (o2Init n) := by
  constructor
  · rfl
  · intro _ _ pc hpc
    exact List.eq_of_mem_replicate hpc

theorem o2Inv_step (st : O2ConnState × List O2Pc) (e : O2Event)
    (hnf : e ≠ O2Event.resolveFail) (h : o2Inv st) : o2Inv (o2Step st e) := by
  rcases st with ⟨⟨c, g, k⟩, pcs⟩
  obtain ⟨h1, h2⟩ := h
  simp only at h1 h2
  cases e with
  | resolveFail => exact absurd rfl hnf
  | resolveOk =>
    simp only [o2Step, o2Resolve]
    cases g with
    | false => exact ⟨h1, h2⟩
    | true =>
      simp only [if_pos rfl]
      constructor
      · simpa using h1
      · intro _ hcon
        cases hcon
  | task i =>
    simp only [o2Step]
    cases hget : pcs.get? i with
    | none => exact ⟨h1, h2⟩
    | some pc =>
      have hpcmem : pc ∈ pcs := get?_mem_helper hget
      cases pc with
      | start =>
        simp only [o2ConnectStep]
        cases c with
        | true =>
          simp only [if_pos rfl]
          refine ⟨h1, ?_⟩
          intro _ hcon
          cases hcon
        | false =>
          cases g with
          | true =>
            rw [if_neg (by decide), if_pos (by decide)]
            refine ⟨h1, ?_⟩
            intro hcon _
            cases hcon
          | false =>
            rw [if_neg (by decide), if_neg (by decide)]
            refine ⟨?_, ?_⟩
            · simp only at h1 ⊢
              simpa using h1
            · intro hcon _
              cases hcon
      | waiting =>
        simp only [o2ConnectStep]
        refine ⟨h1, ?_⟩
        intro hg hc
        have := h2 hg hc _ hpcmem
        cases this
      | finished =>
        simp only [o2ConnectStep]
        refine ⟨h1, ?_⟩
        intro hg hc
        have := h2 hg hc _ hpcmem
        cases this

theorem o2Inv_run (st : O2ConnState × List O2Pc) (evs : List O2Event)
    (hnf : ∀ e ∈ evs, e ≠ O2Event.resolveFail) (h : o2Inv st) : o2Inv (o2Run st evs) := by
  induction evs generalizing st with
  | nil => exact h
  | cons e es ih =>
    rw [o2Run_cons]
    exact ih _ (fun e' he' => hnf e' (List.mem_cons_of_mem _ he'))
      (o2Inv_step st e (hnf e (List.mem_cons_self _ _)) h)

theorem o2ConnectStep_ne_start (s : O2ConnState) (pc : O2Pc) (hpc : pc ≠ O2Pc.start) :
    (o2ConnectStep s pc).2 ≠ O2Pc.start := by
  cases pc with
  | start => exact absurd rfl hpc
  | waiting => simp [o2ConnectStep]
  | finished => simp [o2ConnectStep]

theorem o2Started_step (st : O2ConnState × List O2Pc) (e : O2Event)
    (h : o2Started st) : o2Started (o2Step st e) := by
  rcases st with ⟨s, pcs⟩
  obtain ⟨pc0, hmem, hne⟩ := h
  cases e with
  | task i =>
    simp only [o2Step]
    cases hget : pcs.get? i with
    | none => exact ⟨pc0, hmem, hne⟩
    | some pc =>
      cases pc with
      | start =>
        refine ⟨(o2ConnectStep s .start).2, ?_, ?_⟩
        · exact mem_set_self _ _ _ (by
            have := get?_none_le (l := pcs) (i := i)
            by_contra hlt
            push_neg at hlt
            rw [List.get?_eq_none.mpr hlt] at hget
            cases hget)
        · simp only [o2ConnectStep]
          split
          · simp
          · split <;> simp
      | waiting =>
        refine ⟨(o2ConnectStep s .waiting).2, ?_, ?_⟩
        · exact mem_set_self _ _ _ (by
            by_contra hlt
            push_neg at hlt
            rw [List.get?_eq_none.mpr hlt] at hget
            cases hget)
        · simp [o2ConnectStep]
      | finished =>
        refine ⟨(o2ConnectStep s .finished).2, ?_, ?_⟩
        · exact mem_set_self _ _ _ (by
            by_contra hlt
            push_neg at hlt
            rw [List.get?_eq_none.mpr hlt] at hget
            cases hget)
        · simp [o2ConnectStep]
  | resolveOk =>
    simp only [o2Step, o2Resolve]
    split
    · refine ⟨if pc0 = O2Pc.waiting then O2Pc.finished else pc0, List.mem_map_of_mem _ hmem, ?_⟩
      split <;> simp_all
    · exact ⟨pc0, hmem, hne⟩
  | resolveFail =>
    simp only [o2Step, o2Resolve]
    split
    · refine ⟨if pc0 = O2Pc.waiting then O2Pc.finished else pc0, List.mem_map_of_mem _ hmem, ?_⟩
      split <;> simp_all
    · exact ⟨pc0, hmem, hne⟩

theorem o2Started_after_task (st : O2ConnState × List O2Pc) (i : Nat)
    (hi : i < st.2.length) : o2Started (o2Step st (.task i)) := by
  rcases st with ⟨s, pcs⟩
  simp only [o2Step]
  cases hget : pcs.get? i with
  | none =>
    exact absurd (get?_none_le hget) (by simpa using hi)
  | some pc =>
    refine ⟨(o2ConnectStep s pc).2, mem_set_self _ _ _ (by simpa using hi), ?_⟩
    cases pc with
    | start =>
      simp only [o2ConnectStep]
      split
      · simp
      · split <;> simp
    | waiting => simp [o2ConnectStep]
    | finished => simp [o2ConnectStep]

theorem o2Run_started (st : O2ConnState × List O2Pc) (evs : List O2Event)
    (h : o2Started st) : o2Started (o2Run st evs) := by
  induction evs generalizing st with
  | nil => exact h
  | cons e es ih =>
    rw [o2Run_cons]
    exact ih _ (o2Started_step st e h)

theorem o2Run_task_started (st : O2ConnState × List O2Pc) (evs : List O2Event) (i : Nat)
    (hi : i < st.2.length) (hmem : O2Event.task i ∈ evs) :
    o2Started (o2Run st evs) := by
  induction evs generalizing st with
  | nil => cases hmem
  | cons e es ih =>
    rw [o2Run_cons]
    rcases List.mem_cons.mp hmem with rfl | hmem'
    · exact o2Run_started _ es (o2Started_after_task st i hi)
    · exact ih _ (by rw [o2Step_length]; exact hi) hmem'

/-- C2 (amended): the claim holds for `O2SwitchStorage.connect` (both
variants) but not for `AdminStorageClient.connect`.  For the former: under
any failure-free schedule over a fresh instance the number of underlying
handshake attempts stays at most one, and equals exactly one as soon as any
caller has run (conjuncts 1–2: idempotence plus in-flight de-duplication);
a failing handshake resets both the connected flag and the in-flight
promise before the rejection propagates to the awaiting callers
(conjunct 3).  `AdminStorageClient.connect` is idempotent once connected
(conjunct 5) and resets its connected flag on a failed handshake
(conjunct 4), but it has no in-flight guard — see the counterexample for
the two-handshake schedule. -/
theorem connect_dedup_amended :
    (∀ n evs, (∀ e ∈ evs, e ≠ O2Event.resolveFail) →
      (o2Run (o2Init n) evs).1.handshakes ≤ 1)
    ∧ (∀ n evs i, (∀ e ∈ evs, e ≠ O2Event.resolveFail) →
        O2Event.task i ∈ evs → i < n →
        (o2Run (o2Init n) evs).1.handshakes = 1)
    ∧ (∀ s pcs, s.connecting = true →
        (o2Resolve false s pcs).1.connected = false
        ∧ (o2Resolve false s pcs).1.connecting = false)
    ∧ (∀ (s : AdminConnState) pcs i, pcs.get? i = some AdminPc.waiting →
        (adminStep (s, pcs) (.resolve i false)).1.connected = false)
    ∧ (∀ s : AdminConnState, s.connected = true →
        adminConnectStep s .start = (s, .finished)) := by
  refine ⟨?_, ?_, ?_, ?_, ?_⟩
  · intro n evs hnf
    obtain ⟨h1, -⟩ := o2Inv_run (o2Init n) evs hnf (o2Inv_init n)
    rw [h1]
    split <;> omega
  · intro n evs i hnf hmem hin
    obtain ⟨h1, h2⟩ := o2Inv_run (o2Init n) evs hnf (o2Inv_init n)
    obtain ⟨pc0, hmem0, hne0⟩ := o2Run_task_started (o2Init n) evs i
      (by simpa [o2Init] using hin) hmem
    rw [h1]
    by_cases hg : (o2Run (o2Init n) evs).1.connecting = true
    · simp [hg]
    · by_cases hc : (o2Run (o2Init n) evs).1.connected = true
      · simp [hc]
      · exact absurd (h2 (by simpa using hg) (by simpa using hc) _ hmem0) hne0
  · intro s pcs hs
    simp [o2Resolve, hs]
  · intro s pcs i hget
    rw [List.get?_eq_getElem?] at hget
    simp [adminStep, hget]
  · intro s hs
    simp [adminConnectStep, hs]

/-- Witness for C2 (amended): a concrete failure-free schedule in which two
callers interleave with the handshake completion performs exactly one
handshake; a concrete failed resolution resets the state; a concrete
already-connected admin call performs no handshake. -/
theorem connect_dedup_amended_witness :
    (o2Run (o2Init 2) [.task 0, .task 1, .resolveOk, .task 0]).1.handshakes = 1
    ∧ (o2Resolve false ⟨false, true, 1⟩ [.waiting, .waiting]).1.connected = false
    ∧ (o2Resolve false ⟨false, true, 1⟩ [.waiting, .waiting]).1.connecting = false
    ∧ (adminStep (⟨false, 1⟩, [AdminPc.waiting]) (.resolve 0 false)).1.connected = false
    ∧ adminConnectStep ⟨true, 5⟩ .start = (⟨true, 5⟩, .finished) := by
  refine ⟨?_, ?_, ?_, ?_, ?_⟩
  · exact connect_dedup_amended.2.1 2 [.task 0, .task 1, .resolveOk, .task 0] 0
      (by decide) (by decide) (by decide)
  · exact (connect_dedup_amended.2.2.1 ⟨false, true, 1⟩ [.waiting, .waiting] rfl).1
  · exact (connect_dedup_amended.2.2.1 ⟨false, true, 1⟩ [.waiting, .waiting] rfl).2
  · exact connect_dedup_amended.2.2.2.1 ⟨false, 1⟩ [AdminPc.waiting] 0 rfl
  · exact connect_dedup_amended.2.2.2.2 ⟨true, 5⟩ rfl

/-- Counterexample for C2 as stated: on a fresh `AdminStorageClient`, the
interleaving in which both concurrent `connect()` callers run their first
segment before either handshake completes starts two underlying handshake
attempts — `connect` checks only the `connected` flag and has no in-flight
guard — refuting "concurrent connect() calls against one client instance
result in exactly one underlying handshake attempt" for that
implementation. -/
theorem adminConnect_two_handshakes :
    (adminRun (adminInit 2) [.task 0, .task 1]).1.handshakes = 2 := by decide

/-! ## C5: path resolution and the base root -/

theorem splitOnSlash_ne_nil (l : List Char) : splitOnSlash l ≠ [] := by
  cases l with
  | nil => simp [splitOnSlash]
  | cons c cs =>
    rw [splitOnSlash]
    split
    · simp
    · split <;> simp

theorem splitOnSlash_append_slash (a b : List Char) :
    splitOnSlash (a ++ '/' :: b) = splitOnSlash a ++ splitOnSlash b := by
  induction a with
  | nil => rfl
  | cons c a' ih =>
    show splitOnSlash (c :: (a' ++ '/' :: b)) = splitOnSlash (c :: a') ++ splitOnSlash b
    rw [splitOnSlash, splitOnSlash]
    by_cases hc : c = '/'
    · rw [if_pos hc, if_pos hc, ih]
      rfl
    · rw [if_neg hc, if_neg hc, ih]
      cases ha' : splitOnSlash a' with
      | nil => exact absurd ha' (splitOnSlash_ne_nil a')
      | cons s ss => rfl

theorem segsOf_append_slash (a b : List Char) :
    segsOf (a ++ '/' :: b) = segsOf a ++ segsOf b := by
  unfold segsOf
  rw [splitOnSlash_append_slash, List.filter_append]

theorem splitOnSlash_no_slash (l : List Char) : ∀ x ∈ splitOnSlash l, '/' ∉ x := by
  induction l with
  | nil =>
    intro x hx
    simp [splitOnSlash] at hx
    simp [hx]
  | cons c cs ih =>
    intro x hx
    rw [splitOnSlash] at hx
    by_cases hc : c = '/'
    · rw [if_pos hc] at hx
      rcases List.mem_cons.mp hx with rfl | hx'
      · simp
      · exact ih x hx'
    · rw [if_neg hc] at hx
      cases hsp : splitOnSlash cs with
      | nil => exact absurd hsp (splitOnSlash_ne_nil cs)
      | cons s ss =>
        rw [hsp] at hx
        rcases List.mem_cons.mp hx with rfl | hx'
        · intro hmem
          rcases List.mem_cons.mp hmem with h' | h'
          · exact hc h'.symm
          · exact ih s (by rw [hsp]; exact List.mem_cons_self _ _) h'
        · exact ih x (by rw [hsp]; exact List.mem_cons_of_mem _ hx')

theorem segsOf_clean (l : List Char) : ∀ x ∈ segsOf l, x ≠ [] ∧ '/' ∉ x := by
  intro x hx
  unfold segsOf at hx
  obtain ⟨hmem, hne⟩ := List.mem_filter.mp hx
  exact ⟨by simpa using hne, splitOnSlash_no_slash l x hmem⟩

theorem splitOnSlash_single (x : List Char) (hslash : '/' ∉ x) (hne : x ≠ []) :
    splitOnSlash x = [x] := by
  induction x with
  | nil => exact absurd rfl hne
  | cons c cs ih =>
    rw [splitOnSlash]
    have hc : c ≠ '/' := fun h => hslash (by simp [h])
    rw [if_neg (fun h => hc h)]
    cases hcs : cs with
    | nil => rfl
    | cons d ds =>
      subst hcs
      rw [ih (fun h => hslash (List.mem_cons_of_mem _ h)) (by simp)]

theorem segsOf_single (x : List Char) (hslash : '/' ∉ x) (hne : x ≠ []) :
    segsOf x = [x] := by
  unfold segsOf
  rw [splitOnSlash_single x hslash hne]
  simp [hne]

theorem segsOf_joinSegs (segs : List (List Char))
    (h : ∀ x ∈ segs, x ≠ [] ∧ '/' ∉ x) : segsOf (joinSegs segs) = segs := by
  induction segs with
  | nil => rfl
  | cons s rest ih =>
    cases rest with
    | nil =>
      obtain ⟨hne, hslash⟩ := h s (by simp)
      exact segsOf_single s hslash hne
    | cons t rest' =>
      show segsOf (s ++ '/' :: joinSegs (t :: rest')) = s :: t :: rest'
      rw [segsOf_append_slash]
      obtain ⟨hne, hslash⟩ := h s (by simp)
      rw [segsOf_single s hslash hne, ih (fun x hx => h x (List.mem_cons_of_mem _ hx))]
      rfl

theorem segsOf_cons_slash (l : List Char) : segsOf ('/' :: l) = segsOf l := by
  unfold segsOf
  rw [show ('/' :: l) = ([] ++ '/' :: l) from rfl, splitOnSlash_append_slash]
  rfl

theorem normStack_no_dotdot (abs : Bool) (segs : List (List Char))
    (hdd : dotDotSeg ∉ segs) :
    ∀ stack, normStack abs stack segs = stack ++ segs.filter (· ≠ dotSeg) := by
  induction segs with
  | nil => intro stack; simp [normStack]
  | cons s rest ih =>
    intro stack
    have hs : s ≠ dotDotSeg := fun h => hdd (by rw [h]; exact List.mem_cons_self _ _)
    have hrest : dotDotSeg ∉ rest := fun h => hdd (List.mem_cons_of_mem _ h)
    rw [normStack]
    by_cases hdot : s = dotSeg
    · rw [if_pos hdot, ih hrest, List.filter_cons, if_neg (by simp [hdot])]
    · rw [if_neg hdot, if_neg (fun h => hs h), ih hrest,
        List.filter_cons, if_pos (by simpa using hdot)]
      simp

theorem leadsWith_append {α : Type} [DecidableEq α] (l m : List α) :
    leadsWith l (l ++ m) = true := by
  induction l with
  | nil => rfl
  | cons a l' ih => simp [leadsWith, ih]

theorem filter_ne_dot_eq_self (segs : List (List Char))
    (h : ∀ s ∈ segs, s ≠ dotSeg) : segs.filter (· ≠ dotSeg) = segs := by
  induction segs with
  | nil => rfl
  | cons s rest ih =>
    rw [List.filter_cons, if_pos (by simpa using h s (by simp))]
    rw [ih fun x hx => h x (List.mem_cons_of_mem _ hx)]

theorem normalizeModel_data_abs (p : String) (h : p.data.head? = some '/') :
    (normalizeModel p).data
      = '/' :: joinSegs (normStack (decide (p.data.head? = some '/')) [] (segsOf p.data)) := by
  unfold normalizeModel
  simp only []
  split
  · rfl
  · rename_i hcon
    exact absurd h hcon

theorem normalizeModel_data_rel (p : String) (h : ¬ p.data.head? = some '/') :
    (normalizeModel p).data
      = (if normStack (decide (p.data.head? = some '/')) [] (segsOf p.data) = []
         then dotSeg
         else joinSegs (normStack (decide (p.data.head? = some '/')) [] (segsOf p.data))) := by
  unfold normalizeModel
  simp only []
  split
  · rename_i hcon
    exact absurd hcon h
  · split
    · rfl
    · rfl

theorem joinModel_segs (base q : String)
    (habs : base.data.head? = some '/')
    (hbase : ∀ s ∈ segsOf base.data, s ≠ dotSeg ∧ s ≠ dotDotSeg)
    (hq : dotDotSeg ∉ segsOf q.data) :
    segsOf (joinModel base q).data
      = segsOf base.data ++ (segsOf q.data).filter (· ≠ dotSeg) := by
  have habs2 : ((⟨base.data ++ '/' :: q.data⟩ : String)).data.head? = some '/' := by
    show (base.data ++ '/' :: q.data).head? = some '/'
    cases hb : base.data with
    | nil => rw [hb] at habs; cases habs
    | cons c cs =>
      rw [hb] at habs
      simp only [List.head?] at habs
      simp [habs]
  have hdd : dotDotSeg ∉ segsOf (base.data ++ '/' :: q.data) := by
    rw [segsOf_append_slash]
    intro hmem
    rcases List.mem_append.mp hmem with h' | h'
    · exact (hbase _ h').2 rfl
    · exact hq h'
  unfold joinModel
  rw [normalizeModel_data_abs _ habs2]
  rw [segsOf_cons_slash]
  rw [show ((⟨base.data ++ '/' :: q.data⟩ : String)).data = base.data ++ '/' :: q.data from rfl]
  rw [normStack_no_dotdot _ _ hdd [], List.nil_append]
  rw [segsOf_joinSegs _ (fun x hx => segsOf_clean _ x (List.mem_of_mem_filter hx))]
  rw [segsOf_append_slash, List.filter_append]
  rw [filter_ne_dot_eq_self _ (fun s hs => (hbase s hs).1)]

theorem withinBase_joinModel (base q : String)
    (habs : base.data.head? = some '/')
    (hbase : ∀ s ∈ segsOf base.data, s ≠ dotSeg ∧ s ≠ dotDotSeg)
    (hq : dotDotSeg ∉ segsOf q.data) :
    withinBase base (joinModel base q) = true := by
  unfold withinBase
  rw [joinModel_segs base q habs hbase hq]
  exact leadsWith_append _ _

theorem normalizeModel_no_dotdot (p : String) (hp : dotDotSeg ∉ segsOf p.data) :
    dotDotSeg ∉ segsOf (normalizeModel p).data := by
  by_cases habs : p.data.head? = some '/'
  · rw [normalizeModel_data_abs p habs]
    rw [segsOf_cons_slash, normStack_no_dotdot _ _ hp [], List.nil_append]
    rw [segsOf_joinSegs _ (fun x hx => segsOf_clean _ x (List.mem_of_mem_filter hx))]
    intro hmem
    exact hp (List.mem_of_mem_filter hmem)
  · rw [normalizeModel_data_rel p habs]
    split
    · decide
    · rw [normStack_no_dotdot _ _ hp [], List.nil_append]
      rw [segsOf_joinSegs _ (fun x hx => segsOf_clean _ x (List.mem_of_mem_filter hx))]
      intro hmem
      exact hp (List.mem_of_mem_filter hmem)

/-- C5 (amended): path resolution confines every relative path containing
no `..` segment: for an absolute, already-normal base root, both
`AdminStorageClient.getFullPath` and the bare `path.join` used by
`O2SwitchStorage.downloadAdminFile` resolve such paths inside the base
root.  The normalization does NOT prevent traversal for inputs containing
`..` segments — see the counterexample, where `../../secret` resolves
outside the base. -/
theorem resolved_path_confined (basePath rel : String)
    (habs : basePath.data.head? = some '/')
    (hbase : ∀ s ∈ segsOf basePath.data, s ≠ dotSeg ∧ s ≠ dotDotSeg)
    (hrel : dotDotSeg ∉ segsOf rel.data) :
    withinBase basePath (getFullPath basePath rel) = true
    ∧ withinBase basePath (downloadAdminFullPath basePath rel) = true := by
  have hn : dotDotSeg ∉ segsOf (normalizeModel rel).data := normalizeModel_no_dotdot rel hrel
  constructor
  · unfold getFullPath
    split
    · rename_i rest heq
      refine withinBase_joinModel basePath _ habs hbase ?_
      rw [show (⟨rest⟩ : String).data = rest from rfl]
      rw [← segsOf_cons_slash, ← heq]
      exact hn
    · exact withinBase_joinModel basePath _ habs hbase hn
  · exact withinBase_joinModel basePath rel habs hbase hrel

/-- Witness for C5 (amended): a concrete `..`-free path resolves inside the
concrete admin base root under both resolution functions. -/
theorem resolved_path_confined_witness :
    withinBase "/home/faji2535/admin-files"
      (getFullPath "/home/faji2535/admin-files" "sub/dir/x.txt") = true
    ∧ withinBase "/home/faji2535/admin-files"
      (downloadAdminFullPath "/home/faji2535/admin-files" "sub/dir/x.txt") = true :=
  resolved_path_confined "/home/faji2535/admin-files" "sub/dir/x.txt"
    (by decide) (by decide) (by decide)

/-- Counterexample for C5 as stated: the input `../../secret` — accepted by
the remote storage operations — resolves to `/home/secret`, outside the
base root `/home/faji2535/admin-files`, under both
`AdminStorageClient.getFullPath` (normalize, then join) and the bare
`path.join` of `O2SwitchStorage.downloadAdminFile`: the normalization does
not prevent traversal outside the base path. -/
theorem getFullPath_escapes_base :
    getFullPath "/home/faji2535/admin-files" "../../secret" = "/home/secret"
    ∧ withinBase "/home/faji2535/admin-files"
        (getFullPath "/home/faji2535/admin-files" "../../secret") = false
    ∧ downloadAdminFullPath "/home/faji2535/admin-files" "../../secret" = "/home/secret"
    ∧ withinBase "/home/faji2535/admin-files"
        (downloadAdminFullPath "/home/faji2535/admin-files" "../../secret") = false := by
  refine ⟨?_, ?_, ?_, ?_⟩ <;> decide

/-! ## C4: recursive search -/

theorem string_eq_of_data {s : String} {l : List Char} (h : s.data = l) : s = ⟨l⟩ := by
  cases s with
  | mk d => cases h; rfl

theorem joinSegs_append (a b : List (List Char)) (ha : a ≠ []) (hb : b ≠ []) :
    joinSegs (a ++ b) = joinSegs a ++ '/' :: joinSegs b := by
  induction a with
  | nil => exact absurd rfl ha
  | cons x a' ih =>
    cases a' with
    | nil =>
      cases b with
      | nil => exact absurd rfl hb
      | cons y b' => rfl
    | cons z a'' =>
      have hih := ih (by simp)
      simp only [List.cons_append] at hih ⊢
      simp only [joinSegs]
      rw [hih]
      simp

theorem joinModel_clean_str (base q : String)
    (habs : base.data.head? = some '/')
    (hbase : ∀ s ∈ segsOf base.data, s ≠ dotSeg ∧ s ≠ dotDotSeg)
    (hq : ∀ s ∈ segsOf q.data, s ≠ dotSeg ∧ s ≠ dotDotSeg) :
    joinModel base q = ⟨'/' :: joinSegs (segsOf base.data ++ segsOf q.data)⟩ := by
  have habs2 : ((⟨base.data ++ '/' :: q.data⟩ : String)).data.head? = some '/' := by
    show (base.data ++ '/' :: q.data).head? = some '/'
    cases hb : base.data with
    | nil => rw [hb] at habs; cases habs
    | cons c cs =>
      rw [hb] at habs
      simp only [List.head?] at habs
      simp [habs]
  have hdd : dotDotSeg ∉ segsOf (base.data ++ '/' :: q.data) := by
    rw [segsOf_append_slash]
    intro hmem
    rcases List.mem_append.mp hmem with h' | h'
    · exact (hbase _ h').2 rfl
    · exact (hq _ h').2 rfl
  apply string_eq_of_data
  unfold joinModel
  rw [normalizeModel_data_abs _ habs2]
  rw [show ((⟨base.data ++ '/' :: q.data⟩ : String)).data = base.data ++ '/' :: q.data from rfl]
  rw [normStack_no_dotdot _ _ hdd [], List.nil_append]
  rw [segsOf_append_slash, List.filter_append]
  rw [filter_ne_dot_eq_self _ (fun s hs => (hbase s hs).1),
      filter_ne_dot_eq_self _ (fun s hs => (hq s hs).1)]

theorem replaceFirst_strip (basePath : String) (X : List Char) (hne : basePath.data ≠ []) :
    replaceFirst basePath "" ⟨basePath.data ++ X⟩ = ⟨X⟩ := by
  unfold replaceFirst
  have h0 : findFirstIdx basePath.data ((⟨basePath.data ++ X⟩ : String)).data = some 0 := by
    show findFirstIdx basePath.data (basePath.data ++ X) = some 0
    cases hb : basePath.data with
    | nil => exact absurd hb hne
    | cons c cs =>
      simp only [List.cons_append, findFirstIdx]
      rw [show leadsWith (c :: cs) (c :: cs.append X) = true from leadsWith_append (c :: cs) X]
      simp
  rw [h0]
  apply string_eq_of_data
  show (basePath.data ++ X).take 0 ++ ("" : String).data
      ++ (basePath.data ++ X).drop (0 + basePath.data.length) = X
  simp [List.drop_left]

theorem relPath_eq (basePath : String) (t : List (List Char))
    (hbasenorm : basePath.data = '/' :: joinSegs (segsOf basePath.data))
    (ht : ∀ x ∈ t, x ≠ [] ∧ '/' ∉ x) (htne : t ≠ []) :
    stripLeadSlash (replaceFirst basePath "" ⟨'/' :: joinSegs (segsOf basePath.data ++ t)⟩)
      = ⟨joinSegs t⟩ := by
  have hnil : basePath.data ≠ [] := by rw [hbasenorm]; simp
  have hhead : (joinSegs t).head? ≠ some '/' := by
    cases t with
    | nil => exact absurd rfl htne
    | cons s t' =>
      obtain ⟨hsne, hsl⟩ := ht s (by simp)
      cases s with
      | nil => exact absurd rfl hsne
      | cons c cs =>
        have hc : c ≠ '/' := fun h => hsl (by simp [h])
        cases t' with
        | nil => simpa [joinSegs] using hc
        | cons u t'' => simpa [joinSegs] using hc
  rcases eq_or_ne (segsOf basePath.data) [] with hbs | hbs
  · have harg : ('/' :: joinSegs (segsOf basePath.data ++ t)) = basePath.data ++ joinSegs t := by
      rw [hbs, hbasenorm, hbs]
      simp [joinSegs]
    rw [show (⟨'/' :: joinSegs (segsOf basePath.data ++ t)⟩ : String)
          = ⟨basePath.data ++ joinSegs t⟩ from congrArg String.mk harg]
    rw [replaceFirst_strip basePath _ hnil]
    unfold stripLeadSlash
    split
    · rename_i r heq
      exact absurd (by rw [show (joinSegs t) = '/' :: r from heq]; rfl) hhead
    · rfl
  · obtain ⟨b, bs, hbs2⟩ := List.exists_cons_of_ne_nil hbs
    have harg : ('/' :: joinSegs (segsOf basePath.data ++ t))
        = basePath.data ++ ('/' :: joinSegs t) := by
      rw [hbs2, hbasenorm, hbs2]
      rw [joinSegs_append (b :: bs) t (by simp) htne]
      rfl
    rw [show (⟨'/' :: joinSegs (segsOf basePath.data ++ t)⟩ : String)
          = ⟨basePath.data ++ ('/' :: joinSegs t)⟩ from congrArg String.mk harg]
    rw [replaceFirst_strip basePath _ hnil]
    rfl

theorem forestClean_cons {nm : String} {d : Bool} {sz : Nat} {ch rest : List FSEntry}
    (h : forestClean (FSEntry.mk nm d sz ch :: rest) = true) :
    cleanName nm = true ∧ forestClean ch = true ∧ forestClean rest = true := by
  simpa [forestClean, Bool.and_eq_true, and_assoc] using h

theorem cleanName_spec {nm : String} (h : cleanName nm = true) :
    nm.data ≠ [] ∧ '/' ∉ nm.data ∧ nm.data ≠ dotSeg ∧ nm.data ≠ dotDotSeg
    ∧ nm ≠ "." ∧ nm ≠ ".." := by
  simp only [cleanName, Bool.and_eq_true, bne_iff_ne, ne_eq, List.all_eq_true,
    decide_eq_true_eq] at h
  obtain ⟨⟨⟨hne, hsl⟩, hdot⟩, hdd⟩ := h
  refine ⟨?_, ?_, ?_, ?_, hdot, hdd⟩
  · intro hd
    exact hne ((string_eq_of_data hd).trans (by decide))
  · intro hmem
    exact hsl _ hmem rfl
  · intro hd
    exact hdot ((string_eq_of_data hd).trans (by decide))
  · intro hd
    exact hdd ((string_eq_of_data hd).trans (by decide))

theorem searchDirectory_spec (basePath lowerQuery : String)
    (hbasenorm : basePath.data = '/' :: joinSegs (segsOf basePath.data))
    (hbase : ∀ s ∈ segsOf basePath.data, s ≠ dotSeg ∧ s ≠ dotDotSeg) :
    ∀ n (entries : List FSEntry), sizeOf entries ≤ n →
      ∀ pre, (∀ x ∈ pre, x ≠ [] ∧ '/' ∉ x ∧ x ≠ dotSeg ∧ x ≠ dotDotSeg) →
      forestClean entries = true →
      searchDirectory basePath lowerQuery
          ⟨'/' :: joinSegs (segsOf basePath.data ++ pre)⟩ entries
        = (allEntries pre entries).filter
            (fun r => containsSub (toLowerL r.name.data) lowerQuery.data) := by
  intro n
  induction n with
  | zero =>
    intro entries hsz pre hpre hclean
    cases entries with
    | nil => simp [searchDirectory, allEntries]
    | cons e rest =>
      exfalso
      have h1 : 1 ≤ sizeOf (e :: rest) := by
        simp [List.cons.sizeOf_spec]
        omega
      omega
  | succ n ih =>
    intro entries hsz pre hpre hclean
    cases entries with
    | nil => simp [searchDirectory, allEntries]
    | cons e rest =>
      obtain ⟨nm, isDir, sz, ch⟩ := e
      have hsz' := hsz
      simp only [List.cons.sizeOf_spec, FSEntry.mk.sizeOf_spec] at hsz'
      obtain ⟨hcn, hcch, hcrest⟩ := forestClean_cons hclean
      obtain ⟨hne, hsl, hdot, hdd, hdotS, hddS⟩ := cleanName_spec hcn
      have hguard : ¬(nm = "." ∨ nm = "..") := by
        rintro (h' | h')
        · exact hdotS h'
        · exact hddS h'
      have hdirsegs : segsOf ((⟨'/' :: joinSegs (segsOf basePath.data ++ pre)⟩ : String)).data
          = segsOf basePath.data ++ pre := by
        show segsOf ('/' :: joinSegs (segsOf basePath.data ++ pre)) = _
        rw [segsOf_cons_slash]
        refine segsOf_joinSegs _ (fun x hx => ?_)
        rcases List.mem_append.mp hx with h' | h'
        · exact segsOf_clean _ x h'
        · exact ⟨(hpre x h').1, (hpre x h').2.1⟩
      have hjoin : joinModel ⟨'/' :: joinSegs (segsOf basePath.data ++ pre)⟩ nm
          = ⟨'/' :: joinSegs (segsOf basePath.data ++ (pre ++ [nm.data]))⟩ := by
        rw [joinModel_clean_str ⟨'/' :: joinSegs (segsOf basePath.data ++ pre)⟩ nm rfl
          (fun s hs => by
            rw [hdirsegs] at hs
            rcases List.mem_append.mp hs with h' | h'
            · exact hbase s h'
            · exact ⟨(hpre s h').2.2.1, (hpre s h').2.2.2⟩)
          (fun s hs => by
            rw [segsOf_single nm.data hsl hne] at hs
            simp only [List.mem_singleton] at hs
            subst hs
            exact ⟨hdot, hdd⟩)]
        rw [hdirsegs, segsOf_single nm.data hsl hne, List.append_assoc]
      have hrelp : stripLeadSlash (replaceFirst basePath ""
            ⟨'/' :: joinSegs (segsOf basePath.data ++ (pre ++ [nm.data]))⟩)
          = ⟨joinSegs (pre ++ [nm.data])⟩ := by
        refine relPath_eq basePath (pre ++ [nm.data]) hbasenorm (fun x hx => ?_) (by simp)
        rcases List.mem_append.mp hx with h' | h'
        · exact ⟨(hpre x h').1, (hpre x h').2.1⟩
        · simp only [List.mem_singleton] at h'
          subst h'
          exact ⟨hne, hsl⟩
      have hich := ih ch (by omega) (pre ++ [nm.data])
        (fun x hx => by
          rcases List.mem_append.mp hx with h' | h'
          · exact hpre x h'
          · simp only [List.mem_singleton] at h'
            subst h'
            exact ⟨hne, hsl, hdot, hdd⟩)
        hcch
      have hirest := ih rest (by omega) pre hpre hcrest
      simp only [searchDirectory, allEntries]
      rw [if_neg hguard, if_neg hguard]
      rw [hjoin, hrelp, hich, hirest]
      rw [List.filter_append, List.filter_cons]
      cases isDir with
      | true =>
        cases hmatch : containsSub (toLowerL nm.data) lowerQuery.data with
        | true => simp [hmatch]
        | false => simp [hmatch]
      | false =>
        cases hmatch : containsSub (toLowerL nm.data) lowerQuery.data with
        | true => simp [hmatch]
        | false => simp [hmatch]

/-- C4 (amended): `O2SwitchStorage.searchAdminFiles` returns, in one flat
list, exactly the entries at every depth of the searched subtree whose name
case-insensitively contains the query as a substring, each with its path
relative to the admin base root (the enumeration `allEntries` of the whole
subtree, filtered by the match predicate).  `AdminStorageClient.search`
does NOT satisfy the claim: it filters only the immediate children of the
given directory — see the counterexample missing a depth-3 match. -/
theorem searchAdminFiles_finds_all (basePath rel query : String) (entries : List FSEntry)
    (habs : basePath.data.head? = some '/')
    (hbasenorm : basePath.data = '/' :: joinSegs (segsOf basePath.data))
    (hbase : ∀ s ∈ segsOf basePath.data, s ≠ dotSeg ∧ s ≠ dotDotSeg)
    (hrel : ∀ s ∈ segsOf rel.data, s ≠ dotSeg ∧ s ≠ dotDotSeg)
    (hclean : forestClean entries = true) :
    searchAdminFiles basePath entries rel query
      = (allEntries (segsOf rel.data) entries).filter
          (fun r => containsSub (toLowerL r.name.data) (toLowerL query.data)) := by
  unfold searchAdminFiles
  rw [joinModel_clean_str basePath rel habs hbase hrel]
  exact searchDirectory_spec basePath ⟨toLowerL query.data⟩ hbasenorm hbase
    (sizeOf entries) entries le_rfl (segsOf rel.data)
    (fun x hx => ⟨(segsOf_clean _ x hx).1, (segsOf_clean _ x hx).2,
      (hrel x hx).1, (hrel x hx).2⟩)
    hclean

/-- Witness for C4 (amended): on a concrete tree with case-insensitive
matches at depth 0 and depth 3, the recursive search equals the filtered
full enumeration, which contains exactly the two matches with their
base-relative paths. -/
theorem searchAdminFiles_finds_all_witness :
    searchAdminFiles "/home/faji2535/admin-files" wTree "/" "Report"
      = [⟨"report.txt", 10, "-", "report.txt"⟩,
         ⟨"deepReport.txt", 22, "-", "a/b/c/deepReport.txt"⟩] := by
  have h := searchAdminFiles_finds_all "/home/faji2535/admin-files" "/" "Report" wTree
    (by decide) (by decide) (by decide) (by decide)
    (by simp [forestClean, cleanName, wTree])
  rw [h]
  have hall : allEntries (segsOf ("/" : String).data) wTree
      = [⟨"report.txt", 10, "-", "report.txt"⟩,
         ⟨"notes.md", 5, "-", "notes.md"⟩,
         ⟨"a", 0, "d", "a"⟩,
         ⟨"b", 0, "d", "a/b"⟩,
         ⟨"c", 0, "d", "a/b/c"⟩,
         ⟨"deepReport.txt", 22, "-", "a/b/c/deepReport.txt"⟩] := by
    simp [allEntries, wTree, segsOf, splitOnSlash, joinSegs]
  rw [hall]
  decide

/-- Counterexample for C4 as stated: on a concrete tree whose only
case-insensitive match for "report" sits at depth 3
(`a/b/c/report.txt`, listed by the full enumeration of the subtree),
`AdminStorageClient.search` returns the empty list — it examines only the
immediate children — refuting "returns every entry at any depth … on both
storage client implementations". -/
theorem adminSearch_misses_depth3 :
    adminSearch "/home/faji2535/admin-files" cTree "/" "report" = some []
    ∧ (⟨"report.txt", 10, "-", "a/b/c/report.txt"⟩ : SearchResult) ∈ allEntries [] cTree
    ∧ containsSub (toLowerL ("report.txt" : String).data)
        (toLowerL ("report" : String).data) = true := by
  refine ⟨by decide, ?_, by decide⟩
  have hall : allEntries [] cTree
      = [⟨"a", 0, "d", "a"⟩,
         ⟨"b", 0, "d", "a/b"⟩,
         ⟨"c", 0, "d", "a/b/c"⟩,
         ⟨"report.txt", 10, "-", "a/b/c/report.txt"⟩,
         ⟨"readme.md", 5, "-", "readme.md"⟩] := by
    simp [allEntries, cTree, joinSegs]
  rw [hall]
  decide

/-! ## C3: catalogue round trip — token-level lemmas -/

theorem string_mk_data (s : String) : (⟨s.data⟩ : String) = s := by
  cases s
  rfl

theorem parseStringBody_false_cons (c : Char) (cs : List Char) :
    parseStringBodyF false (c :: cs) =
      if c = '"' then some ([], cs)
      else if c = '\\' then parseStringBodyF true cs
      else if c = '\n' ∨ c = '\r' then none
      else (parseStringBodyF false cs).map fun p => (c :: p.1, p.2) := rfl

theorem parseStringBody_true_cons (e : Char) (cs : List Char) :
    parseStringBodyF true (e :: cs) =
      (parseStringBodyF false cs).map fun p => (escCharJs e :: p.1, p.2) := rfl

theorem parseStringBody_plain (s rest : List Char) (h : ∀ c ∈ s, plainChar c = true) :
    parseStringBody (s ++ '"' :: rest) = some (s, rest) := by
  induction s with
  | nil => rfl
  | cons c s' ih =>
    have hc := h c (by simp)
    have hq : c ≠ '"' := fun h' => by rw [h'] at hc; exact absurd hc (by decide)
    have hb : c ≠ '\\' := fun h' => by rw [h'] at hc; exact absurd hc (by decide)
    have hn : c ≠ '\n' := fun h' => by rw [h'] at hc; exact absurd hc (by decide)
    have hr : c ≠ '\r' := fun h' => by rw [h'] at hc; exact absurd hc (by decide)
    show parseStringBodyF false (c :: (s' ++ '"' :: rest)) = _
    rw [parseStringBody_false_cons, if_neg hq, if_neg hb, if_neg (fun h' => h'.elim hn hr),
      show parseStringBodyF false (s' ++ '"' :: rest) = parseStringBody (s' ++ '"' :: rest)
        from rfl,
      ih fun x hx => h x (by simp [hx])]
    rfl

theorem parseStringBody_escaped (s rest : List Char) (h : ∀ c ∈ s, descChar c = true) :
    parseStringBody (escDescL s ++ '"' :: rest) = some (s, rest) := by
  induction s with
  | nil => rfl
  | cons c s' ih =>
    have hc := h c (by simp)
    have hb : c ≠ '\\' := fun h' => by rw [h'] at hc; exact absurd hc (by decide)
    have hr : c ≠ '\r' := fun h' => by rw [h'] at hc; exact absurd hc (by decide)
    have ih' := ih fun x hx => h x (by simp [hx])
    by_cases hq : c = '"'
    · subst hq
      have he : escDescL ('"' :: s') = '\\' :: '"' :: escDescL s' := by
        rw [escDescL, if_pos rfl]
      show parseStringBodyF false (escDescL ('"' :: s') ++ '"' :: rest) = _
      rw [he, List.cons_append, List.cons_append, parseStringBody_false_cons,
        if_neg (by decide), if_pos rfl, parseStringBody_true_cons,
        show parseStringBodyF false (escDescL s' ++ '"' :: rest)
          = parseStringBody (escDescL s' ++ '"' :: rest) from rfl, ih']
      rfl
    · by_cases hn : c = '\n'
      · subst hn
        have he : escDescL ('\n' :: s') = '\\' :: 'n' :: escDescL s' := by
          rw [escDescL, if_neg (by decide), if_pos rfl]
        show parseStringBodyF false (escDescL ('\n' :: s') ++ '"' :: rest) = _
        rw [he, List.cons_append, List.cons_append, parseStringBody_false_cons,
          if_neg (by decide), if_pos rfl, parseStringBody_true_cons,
          show parseStringBodyF false (escDescL s' ++ '"' :: rest)
            = parseStringBody (escDescL s' ++ '"' :: rest) from rfl, ih']
        rfl
      · have he : escDescL (c :: s') = c :: escDescL s' := by
          rw [escDescL, if_neg hq, if_neg hn]
        show parseStringBodyF false (escDescL (c :: s') ++ '"' :: rest) = _
        rw [he, List.cons_append, parseStringBody_false_cons, if_neg hq, if_neg hb,
          if_neg (fun h' => h'.elim hn hr),
          show parseStringBodyF false (escDescL s' ++ '"' :: rest)
            = parseStringBody (escDescL s' ++ '"' :: rest) from rfl, ih']
        rfl

theorem parseIdent_exact (k : List Char) (c₀ : Char) (rest : List Char)
    (hk : ∀ c ∈ k, identChar c = true) (h₀ : identChar c₀ = false) :
    parseIdent (k ++ c₀ :: rest) = (k, c₀ :: rest) := by
  induction k with
  | nil => simp [parseIdent, h₀]
  | cons c k' ih =>
    show parseIdent (c :: (k' ++ c₀ :: rest)) = _
    rw [parseIdent, if_pos (hk c (by simp)), ih fun x hx => hk x (by simp [hx])]

theorem parseDigits_exact (ds : List Char) (c₀ : Char) (rest : List Char)
    (hds : ∀ c ∈ ds, c.isDigit = true) (h₀ : c₀.isDigit = false) :
    parseDigits (ds ++ c₀ :: rest) = (ds, c₀ :: rest) := by
  induction ds with
  | nil => simp [parseDigits, h₀]
  | cons c ds' ih =>
    show parseDigits (c :: (ds' ++ c₀ :: rest)) = _
    rw [parseDigits, if_pos (hds c (by simp)), ih fun x hx => hds x (by simp [hx])]

theorem hexDigitChar_isDigit (d : Nat) (h : d < 10) : (hexDigitChar d).isDigit = true := by
  interval_cases d <;> decide

theorem digitVal_hexDigitChar (d : Nat) (h : d < 10) : digitVal (hexDigitChar d) = d := by
  interval_cases d <;> decide

theorem natToDecimalAux_digits :
    ∀ fuel n, n ≤ fuel → ∀ c ∈ natToDecimalAux fuel n, c.isDigit = true := by
  intro fuel
  induction fuel with
  | zero => intro n h c hc; simp [natToDecimalAux] at hc
  | succ f ih =>
    intro n h c hc
    rw [natToDecimalAux] at hc
    by_cases h0 : n = 0
    · rw [if_pos h0] at hc; simp at hc
    · rw [if_neg h0] at hc
      rcases List.mem_append.mp hc with h' | h'
      · refine ih (n / 10) ?_ c h'
        have := Nat.div_lt_self (Nat.pos_of_ne_zero h0) (show 1 < 10 by omega)
        omega
      · simp only [List.mem_singleton] at h'
        subst h'
        exact hexDigitChar_isDigit _ (Nat.mod_lt _ (by omega))

theorem decimalVal_natToDecimalAux :
    ∀ fuel n, n ≤ fuel → decimalVal (natToDecimalAux fuel n) = n := by
  intro fuel
  induction fuel with
  | zero =>
    intro n h
    interval_cases n
    rfl
  | succ f ih =>
    intro n h
    rw [natToDecimalAux]
    by_cases h0 : n = 0
    · rw [if_pos h0]
      simp [decimalVal, h0]
    · rw [if_neg h0]
      have hdiv : n / 10 ≤ f := by
        have := Nat.div_lt_self (Nat.pos_of_ne_zero h0) (show 1 < 10 by omega)
        omega
      show decimalVal (natToDecimalAux f (n / 10) ++ [hexDigitChar (n % 10)]) = n
      unfold decimalVal
      rw [List.foldl_append]
      show 10 * decimalVal (natToDecimalAux f (n / 10)) + digitVal (hexDigitChar (n % 10)) = n
      rw [ih _ hdiv, digitVal_hexDigitChar _ (Nat.mod_lt _ (by omega))]
      omega

theorem natToDecimal_spec (n : Nat) :
    (∀ c ∈ natToDecimal n, c.isDigit = true) ∧ natToDecimal n ≠ []
    ∧ decimalVal (natToDecimal n) = n := by
  unfold natToDecimal
  by_cases h0 : n = 0
  · rw [if_pos h0]
    exact ⟨by decide, by simp, by simp [decimalVal, digitVal, h0]⟩
  · rw [if_neg h0]
    refine ⟨natToDecimalAux_digits n n le_rfl, ?_, decimalVal_natToDecimalAux n n le_rfl⟩
    obtain ⟨m, rfl⟩ : ∃ m, n = m + 1 := ⟨n - 1, by omega⟩
    rw [natToDecimalAux, if_neg h0]
    simp

theorem isDigit_not_ws (c : Char) (h : c.isDigit = true) : isWsChar c = false := by
  cases hw : isWsChar c
  · rfl
  · simp only [isWsChar, Bool.or_eq_true, decide_eq_true_eq] at hw
    rcases hw with ((rfl | rfl) | rfl) | rfl <;> exact absurd h (by decide)

theorem isDigit_ne_of (c : Char) (h : c.isDigit = true) :
    c ≠ '"' ∧ c ≠ '[' ∧ c ≠ '\x7b' ∧ c ≠ '-' := by
  refine ⟨?_, ?_, ?_, ?_⟩ <;>
    exact fun h' => by rw [h'] at h; exact absurd h (by decide)

theorem parseNum_intToDecimal (i : Int) (c₀ : Char) (rest : List Char)
    (h₀ : c₀.isDigit = false) :
    parseNum (intToDecimal i ++ c₀ :: rest) = some (i, c₀ :: rest) := by
  obtain ⟨hdig, hne, hval⟩ := natToDecimal_spec i.natAbs
  by_cases hi : i < 0
  · have : intToDecimal i = '-' :: natToDecimal i.natAbs := by
      rw [intToDecimal, if_pos hi]
    rw [this, List.cons_append, parseNum, if_pos rfl,
      parseDigits_exact _ _ _ hdig h₀]
    rw [if_neg hne]
    have : -((decimalVal (natToDecimal i.natAbs) : Nat) : Int) = i := by
      rw [hval]
      omega
    rw [this]
  · have hd : intToDecimal i = natToDecimal i.natAbs := by
      rw [intToDecimal, if_neg hi]
    obtain ⟨d, ds, hds⟩ := List.exists_cons_of_ne_nil hne
    have hdd : d.isDigit = true := hdig d (by rw [hds]; simp)
    obtain ⟨-, -, -, hdm⟩ := isDigit_ne_of d hdd
    rw [hd, hds, List.cons_append, parseNum, if_neg hdm]
    rw [show (d :: (ds ++ c₀ :: rest)) = ((d :: ds) ++ c₀ :: rest) from rfl, ← hds,
      parseDigits_exact _ _ _ hdig h₀]
    rw [if_neg hne]
    have : ((decimalVal (natToDecimal i.natAbs) : Nat) : Int) = i := by
      rw [hval]
      omega
    rw [this]

/-! ## C3 theorem stack: lemmas proved above, claims below -/

theorem skipWs_cons_ws (c : Char) (l : List Char) (hc : isWsChar c = true) :
    skipWs (c :: l) = skipWs l := by
  rw [skipWs, if_pos hc]

theorem skipWs_cons_not (c : Char) (l : List Char) (hc : isWsChar c = false) :
    skipWs (c :: l) = c :: l := by
  rw [skipWs, if_neg (by simp [hc])]

theorem identChar_facts (c : Char) (h : identChar c = true) :
    isWsChar c = false ∧ c ≠ '\x7d' ∧ c ≠ ']' := by
  refine ⟨?_, ?_, ?_⟩
  · cases hw : isWsChar c
    · rfl
    · simp only [isWsChar, Bool.or_eq_true, decide_eq_true_eq] at hw
      rcases hw with ((rfl | rfl) | rfl) | rfl <;> exact absurd h (by decide)
  · exact fun h' => by rw [h'] at h; exact absurd h (by decide)
  · exact fun h' => by rw [h'] at h; exact absurd h (by decide)

theorem parseStrListAux_succ (f : Nat) (l : List Char) :
    parseStrListAux (f + 1) l =
      match skipWs l with
      | [] => none
      | c :: r =>
        if c = ']' then some ([], r)
        else if c = '"' then
          match parseStringBody r with
          | none => none
          | some (s, r2) =>
            match skipWs r2 with
            | [] => none
            | c2 :: r4 =>
              if c2 = ',' then
                match parseStrListAux f r4 with
                | none => none
                | some (xs, r5) => some ((⟨s⟩ : String) :: xs, r5)
              else if c2 = ']' then some ([(⟨s⟩ : String)], r4)
              else none
        else none := by
  rw [parseStrListAux.eq_def]

theorem parseStrListAux_ws (f : Nat) (c : Char) (l : List Char) (hc : isWsChar c = true) :
    parseStrListAux (f + 1) (c :: l) = parseStrListAux (f + 1) l := by
  rw [parseStrListAux_succ, parseStrListAux_succ, skipWs_cons_ws c l hc]

theorem parseStrListAux_wsPre (f : Nat) (w l : List Char) (hw : ∀ c ∈ w, isWsChar c = true) :
    parseStrListAux (f + 1) (w ++ l) = parseStrListAux (f + 1) l := by
  induction w with
  | nil => rfl
  | cons c w' ih =>
    rw [List.cons_append, parseStrListAux_ws f c _ (hw c (by simp)),
      ih fun x hx => hw x (by simp [hx])]

theorem parseValue_cons (c : Char) (r : List Char) (hw : isWsChar c = false) :
    parseValue (c :: r) =
      if c = '"' then (parseStringBody r).map fun p => (JsVal.str ⟨p.1⟩, p.2)
      else if c = '[' then
        match parseStrListAux (r.length + 1) r with
        | none => none
        | some (xs, r2) => some (JsVal.arrS xs, r2)
      else if c = '\x7b' then
        match parseObjStrAux (r.length + 1) r with
        | none => none
        | some (kvs, r2) => some (JsVal.objS kvs, r2)
      else (parseNum (c :: r)).map fun p => (JsVal.num p.1, p.2) := by
  rw [parseValue, skipWs_cons_not c r hw]

theorem parseValue_ws (c : Char) (r : List Char) (hw : isWsChar c = true) :
    parseValue (c :: r) = parseValue r := by
  rw [parseValue, parseValue, skipWs_cons_ws c r hw]

theorem quoteRaw_append (s Z : List Char) : quoteRaw s ++ Z = '"' :: (s ++ '"' :: Z) := by
  simp [quoteRaw]

theorem parseValue_num (i : Int) (rest : List Char) :
    parseValue (intToDecimal i ++ ',' :: rest) = some (.num i, ',' :: rest) := by
  obtain ⟨hdig, hne, -⟩ := natToDecimal_spec i.natAbs
  by_cases hi : i < 0
  · have hd : intToDecimal i = '-' :: natToDecimal i.natAbs := by
      rw [intToDecimal, if_pos hi]
    rw [hd, List.cons_append, parseValue_cons '-' _ (by decide),
      if_neg (by decide), if_neg (by decide), if_neg (by decide),
      show ('-' :: (natToDecimal i.natAbs ++ ',' :: rest))
        = intToDecimal i ++ ',' :: rest from by rw [hd, List.cons_append],
      parseNum_intToDecimal i ',' rest (by decide)]
    rfl
  · have hd : intToDecimal i = natToDecimal i.natAbs := by
      rw [intToDecimal, if_neg hi]
    obtain ⟨d, ds, hds⟩ := List.exists_cons_of_ne_nil hne
    have hdd : d.isDigit = true := hdig d (by rw [hds]; simp)
    obtain ⟨hq, hbr, hbc, hm⟩ := isDigit_ne_of d hdd
    rw [hd, hds, List.cons_append, parseValue_cons d _ (isDigit_not_ws d hdd),
      if_neg hq, if_neg hbr, if_neg hbc,
      show (d :: (ds ++ ',' :: rest)) = intToDecimal i ++ ',' :: rest from by
        rw [hd, hds, List.cons_append],
      parseNum_intToDecimal i ',' rest (by decide)]
    rfl

theorem parseValue_str_plain (s : String) (rest : List Char) (h : plainStr s = true) :
    parseValue (quoteRaw s.data ++ rest) = some (.str s, rest) := by
  rw [quoteRaw_append, parseValue_cons '"' _ (by decide), if_pos rfl,
    parseStringBody_plain s.data rest (by simpa [plainStr, List.all_eq_true] using h)]
  simp [string_mk_data]

theorem parseValue_str_desc (s : String) (rest : List Char) (h : descOk s = true) :
    parseValue (quoteRaw (escDescL s.data) ++ rest) = some (.str s, rest) := by
  rw [quoteRaw_append, parseValue_cons '"' _ (by decide), if_pos rfl,
    parseStringBody_escaped s.data rest (by simpa [descOk, List.all_eq_true] using h)]
  simp [string_mk_data]

theorem skipWs_wsPre (w l : List Char) (hw : ∀ c ∈ w, isWsChar c = true) :
    skipWs (w ++ l) = skipWs l := by
  induction w with
  | nil => rfl
  | cons c w' ih =>
    rw [List.cons_append, skipWs_cons_ws c _ (hw c (by simp)),
      ih fun x hx => hw x (by simp [hx])]

theorem parseStrListAux_elem (f : Nat) (s r2 : List Char) (l : List Char)
    (hskip : skipWs l = '"' :: (s ++ '"' :: r2)) (hs : ∀ c ∈ s, plainChar c = true) :
    parseStrListAux (f + 1) l =
      match skipWs r2 with
      | [] => none
      | c2 :: r4 =>
        if c2 = ',' then
          match parseStrListAux f r4 with
          | none => none
          | some (xs, r5) => some ((⟨s⟩ : String) :: xs, r5)
        else if c2 = ']' then some ([(⟨s⟩ : String)], r4)
        else none := by
  rw [parseStrListAux_succ, hskip]
  show (match parseStringBody (s ++ '"' :: r2) with
    | none => none
    | some (s, r2) =>
      match skipWs r2 with
      | [] => none
      | c2 :: r4 =>
        if c2 = ',' then
          match parseStrListAux f r4 with
          | none => none
          | some (xs, r5) => some ((⟨s⟩ : String) :: xs, r5)
        else if c2 = ']' then some ([(⟨s⟩ : String)], r4)
        else none) = _
  rw [parseStringBody_plain s r2 hs]

theorem parseStrListAux_style : ∀ (f : Nat) (xs : List String) (suf : List Char),
    xs.length < f → (∀ s ∈ xs, plainStr s = true) →
    parseStrListAux f (joinWith (strL ", ") (xs.map fun s => quoteRaw s.data) ++ ']' :: suf)
      = some (xs, suf) := by
  intro f xs
  induction xs generalizing f with
  | nil =>
    intro suf hf _
    obtain ⟨f', rfl⟩ : ∃ f', f = f' + 1 := ⟨f - 1, by omega⟩
    rfl
  | cons x xs' ih =>
    intro suf hf hok
    obtain ⟨f', rfl⟩ : ∃ f', f = f' + 1 := ⟨f - 1, by omega⟩
    have hx : ∀ c ∈ x.data, plainChar c = true := by
      simpa [plainStr, List.all_eq_true] using hok x (by simp)
    cases xs' with
    | nil =>
      show parseStrListAux (f' + 1) (quoteRaw x.data ++ ']' :: suf) = _
      rw [quoteRaw_append,
        parseStrListAux_elem f' x.data (']' :: suf) _ (skipWs_cons_not _ _ (by decide)) hx,
        skipWs_cons_not _ _ (by decide)]
      show some ([(⟨x.data⟩ : String)], suf) = _
      rw [string_mk_data]
    | cons y t =>
      show parseStrListAux (f' + 1)
        ((quoteRaw x.data
          ++ (strL ", " ++ joinWith (strL ", ") ((y :: t).map fun s => quoteRaw s.data)))
          ++ ']' :: suf) = _
      simp only [List.append_assoc]
      rw [quoteRaw_append x.data
        (strL ", " ++ (joinWith (strL ", ") ((y :: t).map fun s => quoteRaw s.data)
          ++ ']' :: suf))]
      rw [parseStrListAux_elem f' x.data _ _ (skipWs_cons_not _ _ (by decide)) hx]
      rw [show strL ", "
          ++ (joinWith (strL ", ") ((y :: t).map fun s => quoteRaw s.data) ++ ']' :: suf)
        = ',' :: (' '
          :: (joinWith (strL ", ") ((y :: t).map fun s => quoteRaw s.data) ++ ']' :: suf))
        from rfl]
      rw [skipWs_cons_not ',' _ (by decide)]
      obtain ⟨f'', rfl⟩ : ∃ f'', f' = f'' + 1 :=
        ⟨f' - 1, by simp only [List.length_cons] at hf; omega⟩
      show (match parseStrListAux (f'' + 1)
          (' ' :: (joinWith (strL ", ") ((y :: t).map fun s => quoteRaw s.data) ++ ']' :: suf)) with
        | none => none
        | some (xs, r5) => some ((⟨x.data⟩ : String) :: xs, r5)) = _
      rw [parseStrListAux_ws f'' ' ' _ (by decide),
        ih (f'' + 1) suf (by simp only [List.length_cons] at hf ⊢; omega)
          fun s hs => hok s (by simp [hs])]

theorem parseStrListAux_videos : ∀ (f : Nat) (xs : List String) (suf : List Char),
    xs.length < f → (∀ s ∈ xs, plainStr s = true) →
    parseStrListAux f ('\n' :: (joinWith (strL ",\n")
        (xs.map fun v => strL "      " ++ quoteRaw v.data)
        ++ ('\n' :: (strL "    " ++ ']' :: suf))))
      = some (xs, suf) := by
  intro f xs
  induction xs generalizing f with
  | nil =>
    intro suf hf _
    obtain ⟨f', rfl⟩ : ∃ f', f = f' + 1 := ⟨f - 1, by omega⟩
    rfl
  | cons x xs' ih =>
    intro suf hf hok
    obtain ⟨f', rfl⟩ : ∃ f', f = f' + 1 := ⟨f - 1, by omega⟩
    have hx : ∀ c ∈ x.data, plainChar c = true := by
      simpa [plainStr, List.all_eq_true] using hok x (by simp)
    rw [parseStrListAux_ws f' '\n' _ (by decide)]
    cases xs' with
    | nil =>
      show parseStrListAux (f' + 1)
        ((strL "      " ++ quoteRaw x.data) ++ ('\n' :: (strL "    " ++ ']' :: suf))) = _
      simp only [List.append_assoc]
      rw [parseStrListAux_wsPre f' (strL "      ") _ (by decide),
        quoteRaw_append x.data ('\n' :: (strL "    " ++ ']' :: suf)),
        parseStrListAux_elem f' x.data _ _ (skipWs_cons_not _ _ (by decide)) hx,
        skipWs_cons_ws '\n' _ (by decide), skipWs_wsPre (strL "    ") _ (by decide),
        skipWs_cons_not ']' _ (by decide)]
      show some ([(⟨x.data⟩ : String)], suf) = _
      rw [string_mk_data]
    | cons y t =>
      show parseStrListAux (f' + 1)
        (((strL "      " ++ quoteRaw x.data)
          ++ (strL ",\n" ++ joinWith (strL ",\n")
            ((y :: t).map fun v => strL "      " ++ quoteRaw v.data)))
          ++ ('\n' :: (strL "    " ++ ']' :: suf))) = _
      simp only [List.append_assoc]
      rw [parseStrListAux_wsPre f' (strL "      ") _ (by decide)]
      rw [quoteRaw_append x.data
        (strL ",\n" ++ (joinWith (strL ",\n")
            ((y :: t).map fun v => strL "      " ++ quoteRaw v.data)
          ++ ('\n' :: (strL "    " ++ ']' :: suf))))]
      rw [parseStrListAux_elem f' x.data _ _ (skipWs_cons_not _ _ (by decide)) hx]
      rw [show strL ",\n" ++ (joinWith (strL ",\n")
            ((y :: t).map fun v => strL "      " ++ quoteRaw v.data)
          ++ ('\n' :: (strL "    " ++ ']' :: suf)))
        = ',' :: ('\n' :: (joinWith (strL ",\n")
            ((y :: t).map fun v => strL "      " ++ quoteRaw v.data)
          ++ ('\n' :: (strL "    " ++ ']' :: suf)))) from rfl]
      rw [skipWs_cons_not ',' _ (by decide)]
      show (match parseStrListAux f'
          ('\n' :: (joinWith (strL ",\n")
            ((y :: t).map fun v => strL "      " ++ quoteRaw v.data)
          ++ ('\n' :: (strL "    " ++ ']' :: suf)))) with
        | none => none
        | some (xs, r5) => some ((⟨x.data⟩ : String) :: xs, r5)) = _
      rw [ih f' suf (by simp only [List.length_cons] at hf ⊢; omega)
        fun s hs => hok s (by simp [hs])]

theorem parseObjStrAux_succ (f : Nat) (l : List Char) :
    parseObjStrAux (f + 1) l =
      match skipWs l with
      | [] => none
      | c :: r =>
        if c = '\x7d' then some ([], r)
        else
          match parseIdent (c :: r) with
          | ([], _) => none
          | (k, r1) =>
            match skipWs r1 with
            | [] => none
            | c2 :: r3 =>
              if c2 = ':' then
                match skipWs r3 with
                | [] => none
                | c3 :: r5 =>
                  if c3 = '"' then
                    match parseStringBody r5 with
                    | none => none
                    | some (v, r6) =>
                      match skipWs r6 with
                      | [] => none
                      | c4 :: r8 =>
                        if c4 = ',' then
                          match parseObjStrAux f r8 with
                          | none => none
                          | some (kvs, r9) =>
                            some (((⟨k⟩ : String), (⟨v⟩ : String)) :: kvs, r9)
                        else if c4 = '\x7d' then
                          some ([((⟨k⟩ : String), (⟨v⟩ : String))], r8)
                        else none
                  else none
              else none := by
  rw [parseObjStrAux.eq_def]

theorem parseObjStrAux_ws (f : Nat) (c : Char) (l : List Char) (hc : isWsChar c = true) :
    parseObjStrAux (f + 1) (c :: l) = parseObjStrAux (f + 1) l := by
  rw [parseObjStrAux_succ, parseObjStrAux_succ, skipWs_cons_ws c l hc]

theorem parseObjStrAux_wsPre (f : Nat) (w l : List Char) (hw : ∀ c ∈ w, isWsChar c = true) :
    parseObjStrAux (f + 1) (w ++ l) = parseObjStrAux (f + 1) l := by
  induction w with
  | nil => rfl
  | cons c w' ih =>
    rw [List.cons_append, parseObjStrAux_ws f c _ (hw c (by simp)),
      ih fun x hx => hw x (by simp [hx])]

theorem parseIdent_cons (c : Char) (cs rest : List Char) (c₀ : Char)
    (hc : identChar c = true) (hcs : ∀ x ∈ cs, identChar x = true)
    (h₀ : identChar c₀ = false) :
    parseIdent (c :: (cs ++ c₀ :: rest)) = (c :: cs, c₀ :: rest) := by
  rw [← List.cons_append,
    parseIdent_exact (c :: cs) c₀ rest (by
      intro x hx
      rcases List.mem_cons.mp hx with rfl | hx'
      · exact hc
      · exact hcs x hx') h₀]

theorem parseObjStrAux_key (f : Nat) (c : Char) (cs rest : List Char)
    (hident : identChar c = true) (hcs : ∀ x ∈ cs, identChar x = true) :
    parseObjStrAux (f + 1) ((c :: cs) ++ ':' :: rest) =
      match skipWs rest with
      | [] => none
      | c3 :: r5 =>
        if c3 = '"' then
          match parseStringBody r5 with
          | none => none
          | some (v, r6) =>
            match skipWs r6 with
            | [] => none
            | c4 :: r8 =>
              if c4 = ',' then
                match parseObjStrAux f r8 with
                | none => none
                | some (kvs, r9) =>
                  some (((⟨c :: cs⟩ : String), (⟨v⟩ : String)) :: kvs, r9)
              else if c4 = '\x7d' then
                some ([((⟨c :: cs⟩ : String), (⟨v⟩ : String))], r8)
              else none
        else none := by
  obtain ⟨hws, h7d, -⟩ := identChar_facts c hident
  rw [parseObjStrAux_succ, List.cons_append, skipWs_cons_not c _ hws]
  show (if c = '\x7d' then some ([], cs ++ ':' :: rest)
    else
      match parseIdent (c :: (cs ++ ':' :: rest)) with
      | ([], _) => none
      | (k, r1) =>
        match skipWs r1 with
        | [] => none
        | c2 :: r3 =>
          if c2 = ':' then
            match skipWs r3 with
            | [] => none
            | c3 :: r5 =>
              if c3 = '"' then
                match parseStringBody r5 with
                | none => none
                | some (v, r6) =>
                  match skipWs r6 with
                  | [] => none
                  | c4 :: r8 =>
                    if c4 = ',' then
                      match parseObjStrAux f r8 with
                      | none => none
                      | some (kvs, r9) =>
                        some (((⟨k⟩ : String), (⟨v⟩ : String)) :: kvs, r9)
                    else if c4 = '\x7d' then
                      some ([((⟨k⟩ : String), (⟨v⟩ : String))], r8)
                    else none
              else none
          else none) = _
  rw [if_neg h7d, parseIdent_cons c cs rest ':' hident hcs (by decide)]
  rfl

theorem parseObjStrAux_entry (f : Nat) (c : Char) (cs : List Char) (v : String)
    (r6 : List Char)
    (hident : identChar c = true) (hcs : ∀ x ∈ cs, identChar x = true)
    (hv : ∀ x ∈ v.data, plainChar x = true) :
    parseObjStrAux (f + 1) ((c :: cs) ++ ':' :: (' ' :: (quoteRaw v.data ++ r6))) =
      match skipWs r6 with
      | [] => none
      | c4 :: r8 =>
        if c4 = ',' then
          match parseObjStrAux f r8 with
          | none => none
          | some (kvs, r9) => some (((⟨c :: cs⟩ : String), v) :: kvs, r9)
        else if c4 = '\x7d' then some ([((⟨c :: cs⟩ : String), v)], r8)
        else none := by
  rw [parseObjStrAux_key f c cs _ hident hcs,
    skipWs_cons_ws ' ' _ (by decide), quoteRaw_append,
    skipWs_cons_not '"' _ (by decide)]
  show (match parseStringBody (v.data ++ '"' :: r6) with
    | none => none
    | some (w, r6) =>
      match skipWs r6 with
      | [] => none
      | c4 :: r8 =>
        if c4 = ',' then
          match parseObjStrAux f r8 with
          | none => none
          | some (kvs, r9) => some (((⟨c :: cs⟩ : String), (⟨w⟩ : String)) :: kvs, r9)
        else if c4 = '\x7d' then some ([((⟨c :: cs⟩ : String), (⟨w⟩ : String))], r8)
        else none) = _
  rw [parseStringBody_plain v.data r6 hv]

theorem identName_parts (s : String) (h : identName s = true) :
    ∃ c cs, s.data = c :: cs ∧ identChar c = true ∧ ∀ x ∈ cs, identChar x = true := by
  rcases hd : s.data with - | ⟨c, cs⟩
  · rw [identName, hd] at h
    cases h
  · rw [identName, hd] at h
    simp only [Bool.and_eq_true, List.all_eq_true, Bool.or_eq_true, decide_eq_true_eq] at h
    refine ⟨c, cs, rfl, ?_, fun x hx => h.2 x hx⟩
    rcases h.1 with h' | h' <;> simp [identChar, h']

theorem parseObjStrAux_social : ∀ (f : Nat) (kvs : List (String × String)) (suf : List Char),
    kvs.length < f →
    (∀ kv ∈ kvs, identName kv.1 = true ∧ plainStr kv.2 = true) →
    parseObjStrAux f ('\n' :: (joinWith (strL ",\n")
        (kvs.map fun kv => strL "      " ++ (kv.1.data ++ (strL ": " ++ quoteRaw kv.2.data)))
        ++ ('\n' :: (strL "    " ++ '\x7d' :: suf))))
      = some (kvs, suf) := by
  intro f kvs
  induction kvs generalizing f with
  | nil =>
    intro suf hf _
    obtain ⟨f', rfl⟩ : ∃ f', f = f' + 1 := ⟨f - 1, by omega⟩
    rfl
  | cons kv kvs' ih =>
    intro suf hf hok
    obtain ⟨f', rfl⟩ : ∃ f', f = f' + 1 := ⟨f - 1, by omega⟩
    obtain ⟨hid, hpl⟩ := hok kv (by simp)
    obtain ⟨c, cs, hcs, hident, hcsall⟩ := identName_parts kv.1 hid
    have hv : ∀ x ∈ kv.2.data, plainChar x = true := by
      simpa [plainStr, List.all_eq_true] using hpl
    rw [parseObjStrAux_ws f' '\n' _ (by decide)]
    cases kvs' with
    | nil =>
      show parseObjStrAux (f' + 1)
        ((strL "      " ++ (kv.1.data ++ (strL ": " ++ quoteRaw kv.2.data)))
          ++ ('\n' :: (strL "    " ++ '\x7d' :: suf))) = _
      simp only [List.append_assoc]
      rw [parseObjStrAux_wsPre f' (strL "      ") _ (by decide), hcs,
        show strL ": " ++ (quoteRaw kv.2.data ++ ('\n' :: (strL "    " ++ '\x7d' :: suf)))
          = ':' :: (' ' :: (quoteRaw kv.2.data ++ ('\n' :: (strL "    " ++ '\x7d' :: suf))))
          from rfl,
        parseObjStrAux_entry f' c cs kv.2 _ hident hcsall hv,
        skipWs_cons_ws '\n' _ (by decide), skipWs_wsPre (strL "    ") _ (by decide),
        skipWs_cons_not '\x7d' _ (by decide)]
      show some ([((⟨c :: cs⟩ : String), kv.2)], suf) = _
      rw [← hcs]
    | cons kv2 t =>
      show parseObjStrAux (f' + 1)
        (((strL "      " ++ (kv.1.data ++ (strL ": " ++ quoteRaw kv.2.data)))
          ++ (strL ",\n" ++ joinWith (strL ",\n")
            ((kv2 :: t).map fun kv => strL "      " ++ (kv.1.data ++ (strL ": "
              ++ quoteRaw kv.2.data)))))
          ++ ('\n' :: (strL "    " ++ '\x7d' :: suf))) = _
      simp only [List.append_assoc]
      rw [parseObjStrAux_wsPre f' (strL "      ") _ (by decide), hcs,
        show strL ": " ++ (quoteRaw kv.2.data ++ (strL ",\n" ++ (joinWith (strL ",\n")
            ((kv2 :: t).map fun kv => strL "      " ++ (kv.1.data ++ (strL ": "
              ++ quoteRaw kv.2.data)))
            ++ ('\n' :: (strL "    " ++ '\x7d' :: suf)))))
          = ':' :: (' ' :: (quoteRaw kv.2.data ++ (',' :: ('\n' :: (joinWith (strL ",\n")
            ((kv2 :: t).map fun kv => strL "      " ++ (kv.1.data ++ (strL ": "
              ++ quoteRaw kv.2.data)))
            ++ ('\n' :: (strL "    " ++ '\x7d' :: suf)))))))
          from rfl,
        parseObjStrAux_entry f' c cs kv.2 _ hident hcsall hv,
        skipWs_cons_not ',' _ (by decide)]
      show (match parseObjStrAux f'
          ('\n' :: (joinWith (strL ",\n")
            ((kv2 :: t).map fun kv => strL "      " ++ (kv.1.data ++ (strL ": "
              ++ quoteRaw kv.2.data)))
            ++ ('\n' :: (strL "    " ++ '\x7d' :: suf)))) with
        | none => none
        | some (kvs, r9) => some (((⟨c :: cs⟩ : String), kv.2) :: kvs, r9)) = _
      rw [ih f' suf (by simp only [List.length_cons] at hf ⊢; omega)
        fun x hx => hok x (by simp [hx])]
      show some (((⟨c :: cs⟩ : String), kv.2) :: kv2 :: t, suf) = _
      rw [← hcs]

theorem length_joinWith_ge (sep : List Char) (ys : List (List Char))
    (hy : ∀ y ∈ ys, y ≠ []) : ys.length ≤ (joinWith sep ys).length := by
  induction ys with
  | nil => simp [joinWith]
  | cons x ys' ih =>
    cases ys' with
    | nil =>
      simpa [joinWith] using List.length_pos.mpr (hy x (by simp))
    | cons y t =>
      have h1 := ih fun z hz => hy z (by simp [hz])
      have h2 := List.length_pos.mpr (hy x (by simp))
      show (x :: y :: t).length ≤ (x ++ (sep ++ joinWith sep (y :: t))).length
      simp only [List.length_cons, List.length_append] at h1 h2 ⊢
      omega

theorem parseValue_style (xs : List String) (rest : List Char)
    (h : ∀ s ∈ xs, plainStr s = true) :
    parseValue ('[' :: (joinWith (strL ", ") (xs.map fun s => quoteRaw s.data) ++ ']' :: rest))
      = some (.arrS xs, rest) := by
  have hlen : xs.length
      < (joinWith (strL ", ") (xs.map fun s => quoteRaw s.data) ++ ']' :: rest).length + 1 := by
    have := length_joinWith_ge (strL ", ") (xs.map fun s => quoteRaw s.data) (by
      intro y hy
      obtain ⟨s, -, rfl⟩ := List.mem_map.mp hy
      simp [quoteRaw])
    simp only [List.length_map] at this
    simp only [List.length_append, List.length_cons]
    omega
  rw [parseValue_cons '[' _ (by decide), if_neg (by decide), if_pos rfl,
    parseStrListAux_style _ xs rest hlen h]

theorem parseValue_videos (xs : List String) (rest : List Char)
    (h : ∀ s ∈ xs, plainStr s = true) :
    parseValue ('[' :: ('\n' :: (joinWith (strL ",\n")
        (xs.map fun v => strL "      " ++ quoteRaw v.data)
        ++ ('\n' :: (strL "    " ++ ']' :: rest)))))
      = some (.arrS xs, rest) := by
  have hlen : xs.length
      < ('\n' :: (joinWith (strL ",\n") (xs.map fun v => strL "      " ++ quoteRaw v.data)
        ++ ('\n' :: (strL "    " ++ ']' :: rest)))).length + 1 := by
    have := length_joinWith_ge (strL ",\n")
      (xs.map fun v => strL "      " ++ quoteRaw v.data) (by
        intro y hy
        obtain ⟨s, -, rfl⟩ := List.mem_map.mp hy
        simp [strL])
    simp only [List.length_map] at this
    simp only [List.length_cons, List.length_append]
    omega
  rw [parseValue_cons '[' _ (by decide), if_neg (by decide), if_pos rfl,
    parseStrListAux_videos _ xs rest hlen h]

theorem parseValue_social (kvs : List (String × String)) (rest : List Char)
    (h : ∀ kv ∈ kvs, identName kv.1 = true ∧ plainStr kv.2 = true) :
    parseValue ('\x7b' :: ('\n' :: (joinWith (strL ",\n")
        (kvs.map fun kv => strL "      " ++ (kv.1.data ++ (strL ": " ++ quoteRaw kv.2.data)))
        ++ ('\n' :: (strL "    " ++ '\x7d' :: rest)))))
      = some (.objS kvs, rest) := by
  have hlen : kvs.length
      < ('\n' :: (joinWith (strL ",\n")
        (kvs.map fun kv => strL "      " ++ (kv.1.data ++ (strL ": " ++ quoteRaw kv.2.data)))
        ++ ('\n' :: (strL "    " ++ '\x7d' :: rest)))).length + 1 := by
    have := length_joinWith_ge (strL ",\n")
      (kvs.map fun kv => strL "      " ++ (kv.1.data ++ (strL ": " ++ quoteRaw kv.2.data))) (by
        intro y hy
        obtain ⟨kv, -, rfl⟩ := List.mem_map.mp hy
        simp [strL])
    simp only [List.length_map] at this
    simp only [List.length_cons, List.length_append]
    omega
  rw [parseValue_cons '\x7b' _ (by decide), if_neg (by decide), if_neg (by decide),
    if_pos rfl, parseObjStrAux_social _ kvs rest hlen h]

theorem parseFieldsAux_succ (f : Nat) (l : List Char) :
    parseFieldsAux (f + 1) l =
      match skipWs l with
      | [] => none
      | c :: r =>
        if c = '\x7d' then some ([], r)
        else
          match parseIdent (c :: r) with
          | ([], _) => none
          | (k, r1) =>
            match skipWs r1 with
            | [] => none
            | c2 :: r3 =>
              if c2 = ':' then
                match parseValue r3 with
                | none => none
                | some (v, r4) =>
                  match skipWs r4 with
                  | [] => none
                  | c3 :: r6 =>
                    if c3 = ',' then
                      match parseFieldsAux f r6 with
                      | none => none
                      | some (kvs, r7) => some (((⟨k⟩ : String), v) :: kvs, r7)
                    else if c3 = '\x7d' then some ([((⟨k⟩ : String), v)], r6)
                    else none
              else none := by
  rw [parseFieldsAux.eq_def]

theorem parseFieldsAux_ws (f : Nat) (c : Char) (l : List Char) (hc : isWsChar c = true) :
    parseFieldsAux (f + 1) (c :: l) = parseFieldsAux (f + 1) l := by
  rw [parseFieldsAux_succ, parseFieldsAux_succ, skipWs_cons_ws c l hc]

theorem parseFieldsAux_wsPre (f : Nat) (w l : List Char) (hw : ∀ c ∈ w, isWsChar c = true) :
    parseFieldsAux (f + 1) (w ++ l) = parseFieldsAux (f + 1) l := by
  induction w with
  | nil => rfl
  | cons c w' ih =>
    rw [List.cons_append, parseFieldsAux_ws f c _ (hw c (by simp)),
      ih fun x hx => hw x (by simp [hx])]

theorem parseFieldsAux_key (f : Nat) (c : Char) (cs rest : List Char)
    (hident : identChar c = true) (hcs : ∀ x ∈ cs, identChar x = true) :
    parseFieldsAux (f + 1) ((c :: cs) ++ ':' :: rest) =
      match parseValue rest with
      | none => none
      | some (v, r4) =>
        match skipWs r4 with
        | [] => none
        | c3 :: r6 =>
          if c3 = ',' then
            match parseFieldsAux f r6 with
            | none => none
            | some (kvs, r7) => some (((⟨c :: cs⟩ : String), v) :: kvs, r7)
          else if c3 = '\x7d' then some ([((⟨c :: cs⟩ : String), v)], r6)
          else none := by
  obtain ⟨hws, h7d, -⟩ := identChar_facts c hident
  rw [parseFieldsAux_succ, List.cons_append, skipWs_cons_not c _ hws]
  show (if c = '\x7d' then some ([], cs ++ ':' :: rest)
    else
      match parseIdent (c :: (cs ++ ':' :: rest)) with
      | ([], _) => none
      | (k, r1) =>
        match skipWs r1 with
        | [] => none
        | c2 :: r3 =>
          if c2 = ':' then
            match parseValue r3 with
            | none => none
            | some (v, r4) =>
              match skipWs r4 with
              | [] => none
              | c3 :: r6 =>
                if c3 = ',' then
                  match parseFieldsAux f r6 with
                  | none => none
                  | some (kvs, r7) => some (((⟨k⟩ : String), v) :: kvs, r7)
                else if c3 = '\x7d' then some ([((⟨k⟩ : String), v)], r6)
                else none
          else none) = _
  rw [if_neg h7d, parseIdent_cons c cs rest ':' hident hcs (by decide)]
  rfl

theorem parseFieldsAux_fields :
    ∀ (f : Nat) (trips : List (String × (List Char → List Char) × JsVal)) (suf : List Char),
    trips.length < f →
    (∀ tr ∈ trips, identName tr.1 = true ∧
      ∀ tail, parseValue (tr.2.1 (',' :: tail)) = some (tr.2.2, ',' :: tail)) →
    parseFieldsAux f
      (trips.foldr
        (fun tr acc => strL "\n    " ++ (tr.1.data ++ (':' :: (' ' :: tr.2.1 (',' :: acc)))))
        (strL "\n  " ++ '\x7d' :: suf))
      = some (trips.map fun tr => (tr.1, tr.2.2), suf) := by
  intro f trips
  induction trips generalizing f with
  | nil =>
    intro suf hf _
    obtain ⟨f', rfl⟩ : ∃ f', f = f' + 1 := ⟨f - 1, by omega⟩
    rfl
  | cons tr trips' ih =>
    intro suf hf hok
    obtain ⟨f', rfl⟩ : ∃ f', f = f' + 1 := ⟨f - 1, by omega⟩
    obtain ⟨hid, hval⟩ := hok tr (by simp)
    obtain ⟨c, cs, hcs, hident, hcsall⟩ := identName_parts tr.1 hid
    show parseFieldsAux (f' + 1)
      (strL "\n    " ++ (tr.1.data ++ (':' :: (' ' :: tr.2.1 (',' ::
        trips'.foldr
          (fun tr acc => strL "\n    "
            ++ (tr.1.data ++ (':' :: (' ' :: tr.2.1 (',' :: acc)))))
          (strL "\n  " ++ '\x7d' :: suf)))))) = _
    rw [parseFieldsAux_wsPre f' (strL "\n    ") _ (by decide), hcs,
      parseFieldsAux_key f' c cs _ hident hcsall,
      parseValue_ws ' ' _ (by decide), hval _]
    show (match skipWs (',' ::
        trips'.foldr
          (fun tr acc => strL "\n    "
            ++ (tr.1.data ++ (':' :: (' ' :: tr.2.1 (',' :: acc)))))
          (strL "\n  " ++ '\x7d' :: suf)) with
      | [] => none
      | c3 :: r6 =>
        if c3 = ',' then
          match parseFieldsAux f' r6 with
          | none => none
          | some (kvs, r7) => some (((⟨c :: cs⟩ : String), tr.2.2) :: kvs, r7)
        else if c3 = '\x7d' then some ([((⟨c :: cs⟩ : String), tr.2.2)], r6)
        else none) = _
    rw [skipWs_cons_not ',' _ (by decide)]
    show (match parseFieldsAux f'
        (trips'.foldr
          (fun tr acc => strL "\n    "
            ++ (tr.1.data ++ (':' :: (' ' :: tr.2.1 (',' :: acc)))))
          (strL "\n  " ++ '\x7d' :: suf)) with
      | none => none
      | some (kvs, r7) => some (((⟨c :: cs⟩ : String), tr.2.2) :: kvs, r7)) = _
    rw [ih f' suf (by simp only [List.length_cons] at hf ⊢; omega)
      fun x hx => hok x (by simp [hx])]
    show some (((⟨c :: cs⟩ : String), tr.2.2) :: trips'.map fun tr => (tr.1, tr.2.2), suf) = _
    rw [← hcs]
    rfl

theorem parseFieldsAux_artist (f : Nat) (a : Artist) (tail : List Char)
    (ha : artistOk a = true) (hf : 9 < f) :
    parseFieldsAux f (artistFieldsText a tail) = some (fieldsOf a, tail) := by
  simp only [artistOk, Bool.and_eq_true] at ha
  obtain ⟨⟨⟨⟨⟨⟨⟨h1, h2⟩, h3⟩, h4⟩, h5⟩, h6⟩, h7⟩, h8⟩ := ha
  have hstyle : ∀ s ∈ a.style, plainStr s = true := by
    simpa [List.all_eq_true] using h4
  have hsocial : ∀ kv ∈ (a.social.filter fun kv => kv.2 != ""),
      identName kv.1 = true ∧ plainStr kv.2 = true := by
    intro kv hkv
    have hmem := List.mem_of_mem_filter hkv
    have h := List.all_eq_true.mp h5 kv hmem
    simp only [Bool.and_eq_true] at h
    exact ⟨h.1.1, h.2⟩
  have hvideos : ∀ v ∈ a.videos, plainStr v = true := by
    simpa [List.all_eq_true] using h8
  rw [artistFieldsText, parseFieldsAux_fields f (artistTrips a) tail
    (by by_cases hv : a.videos = [] <;> simp [artistTrips, hv] <;> omega)
    (by
      intro tr htr
      simp only [artistTrips] at htr
      rcases List.mem_append.mp htr with h8m | hvm
      · simp only [List.mem_cons, List.not_mem_nil, or_false] at h8m
        rcases h8m with rfl | rfl | rfl | rfl | rfl | rfl | rfl | rfl
        · exact ⟨(by decide : identName "id" = true), fun t2 => parseValue_num a.id t2⟩
        · exact ⟨(by decide : identName "name" = true),
            fun t2 => parseValue_str_plain a.name (',' :: t2) h1⟩
        · exact ⟨(by decide : identName "act" = true),
            fun t2 => parseValue_str_plain a.act (',' :: t2) h2⟩
        · exact ⟨(by decide : identName "description" = true),
            fun t2 => parseValue_str_desc a.description (',' :: t2) h3⟩
        · exact ⟨(by decide : identName "style" = true),
            fun t2 => parseValue_style a.style (',' :: t2) hstyle⟩
        · exact ⟨(by decide : identName "social" = true), fun t2 =>
            parseValue_social (a.social.filter fun kv => kv.2 != "") (',' :: t2) hsocial⟩
        · exact ⟨(by decide : identName "country" = true),
            fun t2 => parseValue_str_plain a.country (',' :: t2) h6⟩
        · exact ⟨(by decide : identName "image_url" = true),
            fun t2 => parseValue_str_plain a.image_url (',' :: t2) h7⟩
      · by_cases hv : a.videos = []
        · rw [if_pos hv] at hvm
          simp at hvm
        · rw [if_neg hv] at hvm
          simp only [List.mem_singleton] at hvm
          subst hvm
          exact ⟨(by decide : identName "videos" = true),
            fun t2 => parseValue_videos a.videos (',' :: t2) hvideos⟩)]
  by_cases hv : a.videos = [] <;> simp [artistTrips, fieldsOf, hv]

theorem parseObjsAux_succ (f : Nat) (l : List Char) :
    parseObjsAux (f + 1) l =
      match skipWs l with
      | [] => none
      | c :: r =>
        if c = ']' then some ([], r)
        else if c = '\x7b' then
          match parseFieldsAux (r.length + 1) r with
          | none => none
          | some (kvs, r2) =>
            match skipWs r2 with
            | [] => none
            | c2 :: r4 =>
              if c2 = ',' then
                match parseObjsAux f r4 with
                | none => none
                | some (objs, r5) => some (kvs :: objs, r5)
              else if c2 = ']' then some ([kvs], r4)
              else none
        else none := by
  rw [parseObjsAux.eq_def]

theorem parseObjsAux_ws (f : Nat) (c : Char) (l : List Char) (hc : isWsChar c = true) :
    parseObjsAux (f + 1) (c :: l) = parseObjsAux (f + 1) l := by
  rw [parseObjsAux_succ, parseObjsAux_succ, skipWs_cons_ws c l hc]

theorem parseObjsAux_brace (f : Nat) (B : List Char) :
    parseObjsAux (f + 1) ('\x7b' :: B) =
      match parseFieldsAux (B.length + 1) B with
      | none => none
      | some (kvs, r2) =>
        match skipWs r2 with
        | [] => none
        | c2 :: r4 =>
          if c2 = ',' then
            match parseObjsAux f r4 with
            | none => none
            | some (objs, r5) => some (kvs :: objs, r5)
          else if c2 = ']' then some ([kvs], r4)
          else none := by
  rw [parseObjsAux_succ, skipWs_cons_not '\x7b' _ (by decide)]
  rfl

theorem nine_lt_length_succ {l r : List Char} {c1 c2 c3 c4 c5 c6 c7 c8 c9 : Char}
    (h : l = c1 :: c2 :: c3 :: c4 :: c5 :: c6 :: c7 :: c8 :: c9 :: r) :
    9 < l.length + 1 := by
  subst h
  simp

theorem parseFieldsAux_artist_len (a : Artist) (tail : List Char) (ha : artistOk a = true) :
    parseFieldsAux ((artistFieldsText a tail).length + 1) (artistFieldsText a tail)
      = some (fieldsOf a, tail) := by
  refine parseFieldsAux_artist _ a tail ha ?_
  exact @nine_lt_length_succ (artistFieldsText a tail) _ _ _ _ _ _ _ _ _ _ rfl

set_option maxRecDepth 4000 in
theorem artistToTSL_bridge (a : Artist) (T : List Char) :
    artistToTSL a ++ T = ' ' :: (' ' :: ('\x7b' :: artistFieldsText a T)) := by
  by_cases hv : a.videos = [] <;>
    simp only [artistFieldsText, artistTrips, artistToTSL, hv, if_true, if_false,
      List.append_assoc, List.nil_append, List.append_nil, List.cons_append] <;>
    rfl

theorem parseObjsAux_render : ∀ (f : Nat) (as : List Artist) (suf : List Char),
    as.length < f → (∀ a ∈ as, artistOk a = true) →
    parseObjsAux f ('\n' :: (joinWith (strL ",\n") (as.map artistToTSL) ++ ']' :: suf))
      = some (as.map fieldsOf, suf) := by
  intro f as
  induction as generalizing f with
  | nil =>
    intro suf hf _
    obtain ⟨f', rfl⟩ : ∃ f', f = f' + 1 := ⟨f - 1, by omega⟩
    rfl
  | cons a as' ih =>
    intro suf hf hok
    obtain ⟨f', rfl⟩ : ∃ f', f = f' + 1 := ⟨f - 1, by omega⟩
    rw [parseObjsAux_ws f' '\n' _ (by decide)]
    cases as' with
    | nil =>
      rw [show joinWith (strL ",\n") (([a]).map artistToTSL) ++ ']' :: suf
          = artistToTSL a ++ (']' :: suf) from rfl,
        artistToTSL_bridge a (']' :: suf),
        parseObjsAux_ws f' ' ' _ (by decide), parseObjsAux_ws f' ' ' _ (by decide),
        parseObjsAux_brace f' _,
        parseFieldsAux_artist_len a (']' :: suf) (hok a (by simp))]
      show (match skipWs (']' :: suf) with
        | [] => none
        | c2 :: r4 =>
          if c2 = ',' then
            match parseObjsAux f' r4 with
            | none => none
            | some (objs, r5) => some (fieldsOf a :: objs, r5)
          else if c2 = ']' then some ([fieldsOf a], r4)
          else none) = _
      rw [skipWs_cons_not ']' _ (by decide)]
      rfl
    | cons a2 t =>
      rw [show joinWith (strL ",\n") ((a :: a2 :: t).map artistToTSL)
          = artistToTSL a ++ (strL ",\n" ++ joinWith (strL ",\n")
            ((a2 :: t).map artistToTSL))
          from rfl]
      simp only [List.append_assoc]
      rw [show strL ",\n" ++ (joinWith (strL ",\n") ((a2 :: t).map artistToTSL) ++ ']' :: suf)
          = ',' :: ('\n' :: (joinWith (strL ",\n") ((a2 :: t).map artistToTSL) ++ ']' :: suf))
          from rfl,
        artistToTSL_bridge a _,
        parseObjsAux_ws f' ' ' _ (by decide), parseObjsAux_ws f' ' ' _ (by decide),
        parseObjsAux_brace f' _,
        parseFieldsAux_artist_len a _ (hok a (by simp))]
      show (match skipWs (',' :: ('\n' :: (joinWith (strL ",\n")
            ((a2 :: t).map artistToTSL) ++ ']' :: suf))) with
        | [] => none
        | c2 :: r4 =>
          if c2 = ',' then
            match parseObjsAux f' r4 with
            | none => none
            | some (objs, r5) => some (fieldsOf a :: objs, r5)
          else if c2 = ']' then some ([fieldsOf a], r4)
          else none) = _
      rw [skipWs_cons_not ',' _ (by decide)]
      show (match parseObjsAux f' ('\n' :: (joinWith (strL ",\n")
            ((a2 :: t).map artistToTSL) ++ ']' :: suf)) with
        | none => none
        | some (objs, r5) => some (fieldsOf a :: objs, r5)) = _
      rw [ih f' suf (by simp only [List.length_cons] at hf ⊢; omega)
        fun x hx => hok x (by simp [hx])]
      rfl

theorem artistOfJs_fieldsOf (a : Artist) (ha : artistOk a = true) :
    artistOfJs (fieldsOf a) = some a := by
  obtain ⟨i, nm, ac, de, st, so, co, ur, vs⟩ := a
  simp only [artistOk, Bool.and_eq_true] at ha
  have h5 := ha.1.1.1.2
  have hfil : (so.filter fun kv => kv.2 != "") = so := by
    rw [List.filter_eq_self]
    intro kv hkv
    have h := List.all_eq_true.mp h5 kv hkv
    simp only [Bool.and_eq_true] at h
    exact h.1.2
  by_cases hv : vs = []
  · subst hv
    show some (⟨i, nm, ac, de, st, so.filter fun kv => kv.2 != "", co, ur, []⟩ : Artist) = _
    rw [hfil]
  · rw [show fieldsOf ⟨i, nm, ac, de, st, so, co, ur, vs⟩
        = ([("id", .num i), ("name", .str nm), ("act", .str ac), ("description", .str de),
           ("style", .arrS st), ("social", .objS (so.filter fun kv => kv.2 != "")),
           ("country", .str co), ("image_url", .str ur)]
          ++ (if vs = [] then [] else [("videos", .arrS vs)])) from rfl,
      if_neg hv]
    show some (⟨i, nm, ac, de, st, so.filter fun kv => kv.2 != "", co, ur, vs⟩ : Artist) = _
    rw [hfil]

theorem mapM_artistOfJs_fieldsOf (as : List Artist) (h : ∀ a ∈ as, artistOk a = true) :
    (as.map fieldsOf).mapM artistOfJs = some as := by
  induction as with
  | nil => rfl
  | cons a t ih =>
    rw [List.map_cons, List.mapM_cons, artistOfJs_fieldsOf a (h a (by simp)),
      ih fun x hx => h x (by simp [hx])]
    rfl

theorem nlBr_of_ne (a b : Char) (h : b ≠ ']') : nlBr a b = true := by
  simp [nlBr, h]

theorem nlBr_of_ne_nl (a b : Char) (h : a ≠ '\n') : nlBr a b = true := by
  simp [nlBr, h]

theorem nlChainB_cons (a : Char) (l : List Char) (hl : nlChainB l = true)
    (ha : ∀ b, l.head? = some b → nlBr a b = true) : nlChainB (a :: l) = true := by
  cases l with
  | nil => rfl
  | cons b t =>
    show (nlBr a b && nlChainB (b :: t)) = true
    simp [ha b rfl, hl]

theorem nlChainB_tail (a : Char) (l : List Char) (h : nlChainB (a :: l) = true) :
    nlChainB l = true := by
  cases l with
  | nil => rfl
  | cons b t =>
    have h' : (nlBr a b && nlChainB (b :: t)) = true := h
    simp only [Bool.and_eq_true] at h'
    exact h'.2

theorem nlChainB_append (l₁ l₂ : List Char) (h₁ : nlChainB l₁ = true) (h₂ : nlChainB l₂ = true)
    (hb : ∀ a b, l₁.getLast? = some a → l₂.head? = some b → nlBr a b = true) :
    nlChainB (l₁ ++ l₂) = true := by
  induction l₁ with
  | nil => simpa using h₂
  | cons a l₁' ih =>
    cases l₁' with
    | nil =>
      cases l₂ with
      | nil => simpa using h₁
      | cons b t =>
        show (nlBr a b && nlChainB (b :: t)) = true
        simp [hb a b rfl rfl, h₂]
    | cons a2 t1 =>
      have hsplit : (nlBr a a2 && nlChainB (a2 :: t1)) = true := h₁
      simp only [Bool.and_eq_true] at hsplit
      obtain ⟨hbr, h₁'⟩ := hsplit
      have htail := ih h₁' fun x y hx hy =>
        hb x y (by rw [List.getLast?_cons_cons]; exact hx) hy
      have htail' : nlChainB (a2 :: (t1 ++ l₂)) = true := htail
      show (nlBr a a2 && nlChainB (a2 :: (t1 ++ l₂))) = true
      simp [hbr, htail']

theorem getLast?_mem' : ∀ (l : List Char) (a : Char), l.getLast? = some a → a ∈ l := by
  intro l
  induction l with
  | nil => intro a h; cases h
  | cons b t ih =>
    intro a h
    cases t with
    | nil =>
      simp only [List.getLast?_singleton, Option.some.injEq] at h
      simp [h]
    | cons c t' =>
      rw [List.getLast?_cons_cons] at h
      exact List.mem_cons_of_mem _ (ih a h)

theorem getLast?_ne_of_all {l : List Char} (h : ∀ c ∈ l, c ≠ '\n') :
    ∀ a, l.getLast? = some a → a ≠ '\n' :=
  fun a ha => h a (getLast?_mem' l a ha)

theorem getLast?_ne_nl_of_eq {l : List Char} {x : Char} (h : l.getLast? = some x)
    (hx : x ≠ '\n') : ∀ a, l.getLast? = some a → a ≠ '\n' := by
  intro a ha
  rw [h] at ha
  have := Option.some.inj ha
  exact this ▸ hx

theorem nlChainB_of_no_nl (l : List Char) (h : ∀ c ∈ l, c ≠ '\n') : nlChainB l = true := by
  induction l with
  | nil => rfl
  | cons a t ih =>
    refine nlChainB_cons a t (ih fun c hc => h c (by simp [hc])) ?_
    intro b _
    exact nlBr_of_ne_nl a b (h a (by simp))

theorem mem_joinWith {c : Char} {sep : List Char} {ys : List (List Char)}
    (h : c ∈ joinWith sep ys) : c ∈ sep ∨ ∃ y ∈ ys, c ∈ y := by
  induction ys with
  | nil => simp [joinWith] at h
  | cons x ys' ih =>
    cases ys' with
    | nil => exact Or.inr ⟨x, by simp, (h : c ∈ x)⟩
    | cons y t =>
      have h' : c ∈ x ++ (sep ++ joinWith sep (y :: t)) := h
      rcases List.mem_append.mp h' with hx | h2
      · exact Or.inr ⟨x, by simp, hx⟩
      rcases List.mem_append.mp h2 with hs | hj
      · exact Or.inl hs
      rcases ih hj with hs | ⟨y', hy', hc⟩
      · exact Or.inl hs
      · exact Or.inr ⟨y', List.mem_cons_of_mem x hy', hc⟩

theorem joinWith_head? (sep y : List Char) (t : List (List Char)) (hy : y ≠ []) :
    (joinWith sep (y :: t)).head? = y.head? := by
  cases t with
  | nil => rfl
  | cons z t' =>
    show (y ++ (sep ++ joinWith sep (z :: t'))).head? = _
    cases y with
    | nil => exact absurd rfl hy
    | cons c y' => rfl

theorem nlChainB_joinWith_commaNl (ys : List (List Char))
    (hy : ∀ y ∈ ys, nlChainB y = true)
    (hne : ∀ y ∈ ys, y ≠ [])
    (hhead : ∀ y ∈ ys, ∀ b, y.head? = some b → b ≠ ']') :
    nlChainB (joinWith (strL ",\n") ys) = true := by
  induction ys with
  | nil => rfl
  | cons x ys' ih =>
    cases ys' with
    | nil => exact (hy x (by simp) : nlChainB x = true)
    | cons y t =>
      show nlChainB (x ++ (strL ",\n" ++ joinWith (strL ",\n") (y :: t))) = true
      refine nlChainB_append x _ (hy x (by simp)) ?_ ?_
      · refine nlChainB_append (strL ",\n") _ (by decide)
          (ih (fun z hz => hy z (by simp [hz])) (fun z hz => hne z (by simp [hz]))
            (fun z hz => hhead z (by simp [hz]))) ?_
        intro a b ha hb
        have ha' : a = '\n' := by
          rw [show (strL ",\n").getLast? = some '\n' from by decide] at ha
          exact (Option.some.inj ha).symm
        rw [joinWith_head? _ y t (hne y (by simp))] at hb
        exact nlBr_of_ne a b (hhead y (by simp) b hb)
      · intro a b ha hb
        have hb' : b = ',' := by
          rw [show (strL ",\n" ++ joinWith (strL ",\n") (y :: t)).head? = some ','
            from rfl] at hb
          exact (Option.some.inj hb).symm
        exact nlBr_of_ne a b (by rw [hb']; decide)

theorem intToDecimal_no_nl (i : Int) : ∀ c ∈ intToDecimal i, c ≠ '\n' := by
  obtain ⟨hdig, -, -⟩ := natToDecimal_spec i.natAbs
  intro c hc
  rw [intToDecimal] at hc
  by_cases hi : i < 0
  · rw [if_pos hi] at hc
    rcases List.mem_cons.mp hc with rfl | hc'
    · decide
    · have := hdig c hc'
      intro h'
      rw [h'] at this
      exact absurd this (by decide)
  · rw [if_neg hi] at hc
    have := hdig c hc
    intro h'
    rw [h'] at this
    exact absurd this (by decide)

theorem quoteRaw_no_nl (l : List Char) (h : ∀ x ∈ l, plainChar x = true) :
    ∀ c ∈ quoteRaw l, c ≠ '\n' := by
  intro c hc
  simp only [quoteRaw, List.mem_cons, List.mem_append, List.mem_singleton,
    List.not_mem_nil, or_false] at hc
  rcases hc with rfl | hc' | rfl
  · decide
  · have := h c hc'
    intro h'
    rw [h'] at this
    exact absurd this (by decide)
  · decide

theorem escDescL_no_nl (l : List Char) : ∀ c ∈ escDescL l, c ≠ '\n' := by
  induction l with
  | nil => intro c hc; simp [escDescL] at hc
  | cons a t ih =>
    intro c hc
    rw [escDescL] at hc
    by_cases hq : a = '"'
    · rw [if_pos hq] at hc
      rcases List.mem_cons.mp hc with rfl | hc2
      · decide
      rcases List.mem_cons.mp hc2 with rfl | hc3
      · decide
      · exact ih c hc3
    · rw [if_neg hq] at hc
      by_cases hn : a = '\n'
      · rw [if_pos hn] at hc
        rcases List.mem_cons.mp hc with rfl | hc2
        · decide
        rcases List.mem_cons.mp hc2 with rfl | hc3
        · decide
        · exact ih c hc3
      · rw [if_neg hn] at hc
        rcases List.mem_cons.mp hc with rfl | hc3
        · exact hn
        · exact ih c hc3

theorem quoteRaw_escDesc_no_nl (l : List Char) : ∀ c ∈ quoteRaw (escDescL l), c ≠ '\n' := by
  intro c hc
  simp only [quoteRaw, List.mem_cons, List.mem_append, List.mem_singleton,
    List.not_mem_nil, or_false] at hc
  rcases hc with rfl | hc' | rfl
  · decide
  · exact escDescL_no_nl l c hc'
  · decide

theorem plainStr_chars (s : String) (h : plainStr s = true) : ∀ x ∈ s.data, plainChar x = true := by
  simpa [plainStr, List.all_eq_true] using h

theorem styleJoin_no_nl (xs : List String) (h : ∀ s ∈ xs, plainStr s = true) :
    ∀ c ∈ joinWith (strL ", ") (xs.map fun s => quoteRaw s.data), c ≠ '\n' := by
  intro c hc
  rcases mem_joinWith hc with hs | ⟨y, hy, hcy⟩
  · intro h'
    rw [h'] at hs
    exact absurd hs (by decide)
  · obtain ⟨s, hsmem, rfl⟩ := List.mem_map.mp hy
    exact quoteRaw_no_nl s.data (plainStr_chars s (h s hsmem)) c hcy

theorem identChar_ne_nl (c : Char) (h : identChar c = true) : c ≠ '\n' :=
  fun h' => by rw [h'] at h; exact absurd h (by decide)

theorem socialEntry_no_nl (k v : String) (hk : identName k = true) (hv : plainStr v = true) :
    ∀ c ∈ strL "      " ++ (k.data ++ (strL ": " ++ quoteRaw v.data)), c ≠ '\n' := by
  intro c hc
  simp only [List.mem_append] at hc
  rcases hc with hc | hc | hc | hc
  · intro h'
    rw [h'] at hc
    exact absurd hc (by decide)
  · obtain ⟨ch, cs, hcs, hid1, hidr⟩ := identName_parts k hk
    rw [hcs] at hc
    rcases List.mem_cons.mp hc with rfl | hc'
    · exact identChar_ne_nl _ hid1
    · exact identChar_ne_nl _ (hidr c hc')
  · intro h'
    rw [h'] at hc
    exact absurd hc (by decide)
  · exact quoteRaw_no_nl v.data (plainStr_chars v hv) c hc

theorem videoEntry_no_nl (v : String) (hv : plainStr v = true) :
    ∀ c ∈ strL "      " ++ quoteRaw v.data, c ≠ '\n' := by
  intro c hc
  rcases List.mem_append.mp hc with hc | hc
  · intro h'
    rw [h'] at hc
    exact absurd hc (by decide)
  · exact quoteRaw_no_nl v.data (plainStr_chars v hv) c hc

theorem head?_cons_ne_br {l : List Char} {c : Char} (h : l.head? = some c) (hc : c ≠ ']') :
    ∀ b, l.head? = some b → b ≠ ']' := by
  intro b hb
  rw [h] at hb
  exact (Option.some.inj hb) ▸ hc

theorem head_ne_br_joinCommaNl_append (ys : List (List Char)) (R : List Char)
    (hhead : ∀ y ∈ ys, ∀ b, y.head? = some b → b ≠ ']')
    (hne : ∀ y ∈ ys, y ≠ [])
    (hR : ∀ b, R.head? = some b → b ≠ ']') :
    ∀ b, ((joinWith (strL ",\n") ys) ++ R).head? = some b → b ≠ ']' := by
  cases ys with
  | nil =>
    intro b hb
    exact hR b (by simpa [joinWith] using hb)
  | cons y t =>
    intro b hb
    have hy := hne y (by simp)
    have hh : ((joinWith (strL ",\n") (y :: t)) ++ R).head? = y.head? := by
      cases t with
      | nil =>
        show (y ++ R).head? = y.head?
        cases y with
        | nil => exact absurd rfl hy
        | cons c y' => rfl
      | cons z t' =>
        show ((y ++ (strL ",\n" ++ joinWith (strL ",\n") (z :: t'))) ++ R).head? = y.head?
        cases y with
        | nil => exact absurd rfl hy
        | cons c y' => rfl
    rw [hh] at hb
    exact hhead y (by simp) b hb

theorem strL_append_ne_nil (s : String) (l : List Char) (h : s.data ≠ []) :
    strL s ++ l ≠ [] := by
  intro hE
  exact h (List.append_eq_nil.mp hE).1

theorem head?_strL_append (s : String) (l : List Char) (c : Char) (h : s.data.head? = some c) :
    (strL s ++ l).head? = some c := by
  cases hd : s.data with
  | nil => rw [hd] at h; cases h
  | cons x t =>
    rw [show strL s = s.data from rfl, hd]
    rw [hd] at h
    exact h

theorem nlChainB_artistCore (a : Artist) (R : List Char)
    (h1 : plainStr a.name = true) (h2 : plainStr a.act = true)
    (h4 : ∀ s ∈ a.style, plainStr s = true)
    (h5 : ∀ kv ∈ (a.social.filter fun kv => kv.2 != ""),
      identName kv.1 = true ∧ plainStr kv.2 = true)
    (h6 : plainStr a.country = true) (h7 : plainStr a.image_url = true)
    (hR : nlChainB R = true) :
    nlChainB (strL "\n    id: " ++ (intToDecimal a.id
      ++ (strL ",\n    name: " ++ (quoteRaw a.name.data
      ++ (strL ",\n    act: " ++ (quoteRaw a.act.data
      ++ (strL ",\n    description: " ++ (quoteRaw (escDescL a.description.data)
      ++ (strL ",\n    style: [" ++ (joinWith (strL ", ")
          (a.style.map fun s => quoteRaw s.data)
      ++ (strL "],\n    social: \x7b\n" ++ (joinWith (strL ",\n")
          ((a.social.filter fun kv => kv.2 != "").map fun kv =>
            strL "      " ++ (kv.1.data ++ (strL ": " ++ quoteRaw kv.2.data)))
      ++ (strL "\n    \x7d,\n    country: " ++ (quoteRaw a.country.data
      ++ (strL ",\n    image_url: " ++ (quoteRaw a.image_url.data
      ++ R)))))))))))))))) = true := by
  have hEchain : ∀ y ∈ (a.social.filter fun kv => kv.2 != "").map fun kv =>
      strL "      " ++ (kv.1.data ++ (strL ": " ++ quoteRaw kv.2.data)),
      nlChainB y = true := by
    intro y hy
    obtain ⟨kv, hkv, rfl⟩ := List.mem_map.mp hy
    exact nlChainB_of_no_nl _ (socialEntry_no_nl kv.1 kv.2 (h5 kv hkv).1 (h5 kv hkv).2)
  have hEne : ∀ y ∈ (a.social.filter fun kv => kv.2 != "").map fun kv =>
      strL "      " ++ (kv.1.data ++ (strL ": " ++ quoteRaw kv.2.data)),
      y ≠ [] := by
    intro y hy
    obtain ⟨kv, -, rfl⟩ := List.mem_map.mp hy
    exact strL_append_ne_nil "      " _ (by decide)
  have hEhead : ∀ y ∈ (a.social.filter fun kv => kv.2 != "").map fun kv =>
      strL "      " ++ (kv.1.data ++ (strL ": " ++ quoteRaw kv.2.data)),
      ∀ b, y.head? = some b → b ≠ ']' := by
    intro y hy
    obtain ⟨kv, -, rfl⟩ := List.mem_map.mp hy
    exact head?_cons_ne_br (head?_strL_append "      " _ ' ' (by decide)) (by decide)
  refine nlChainB_append _ _ (by decide) ?_
    (fun x y hx _ => nlBr_of_ne_nl x y
      (getLast?_ne_nl_of_eq (show (strL "\n    id: ").getLast? = some ' ' by decide)
        (by decide) x hx))
  refine nlChainB_append _ _ (nlChainB_of_no_nl _ (intToDecimal_no_nl a.id)) ?_
    (fun x y hx _ => nlBr_of_ne_nl x y (getLast?_ne_of_all (intToDecimal_no_nl a.id) x hx))
  refine nlChainB_append _ _ (by decide) ?_
    (fun x y hx _ => nlBr_of_ne_nl x y
      (getLast?_ne_nl_of_eq (show (strL ",\n    name: ").getLast? = some ' ' by decide)
        (by decide) x hx))
  refine nlChainB_append _ _
    (nlChainB_of_no_nl _ (quoteRaw_no_nl a.name.data (plainStr_chars _ h1))) ?_
    (fun x y hx _ => nlBr_of_ne_nl x y
      (getLast?_ne_of_all (quoteRaw_no_nl a.name.data (plainStr_chars _ h1)) x hx))
  refine nlChainB_append _ _ (by decide) ?_
    (fun x y hx _ => nlBr_of_ne_nl x y
      (getLast?_ne_nl_of_eq (show (strL ",\n    act: ").getLast? = some ' ' by decide)
        (by decide) x hx))
  refine nlChainB_append _ _
    (nlChainB_of_no_nl _ (quoteRaw_no_nl a.act.data (plainStr_chars _ h2))) ?_
    (fun x y hx _ => nlBr_of_ne_nl x y
      (getLast?_ne_of_all (quoteRaw_no_nl a.act.data (plainStr_chars _ h2)) x hx))
  refine nlChainB_append _ _ (by decide) ?_
    (fun x y hx _ => nlBr_of_ne_nl x y
      (getLast?_ne_nl_of_eq
        (show (strL ",\n    description: ").getLast? = some ' ' by decide)
        (by decide) x hx))
  refine nlChainB_append _ _
    (nlChainB_of_no_nl _ (quoteRaw_escDesc_no_nl a.description.data)) ?_
    (fun x y hx _ => nlBr_of_ne_nl x y
      (getLast?_ne_of_all (quoteRaw_escDesc_no_nl a.description.data) x hx))
  refine nlChainB_append _ _ (by decide) ?_
    (fun x y hx _ => nlBr_of_ne_nl x y
      (getLast?_ne_nl_of_eq (show (strL ",\n    style: [").getLast? = some '[' by decide)
        (by decide) x hx))
  refine nlChainB_append _ _ (nlChainB_of_no_nl _ (styleJoin_no_nl a.style h4)) ?_
    (fun x y hx _ => nlBr_of_ne_nl x y
      (getLast?_ne_of_all (styleJoin_no_nl a.style h4) x hx))
  refine nlChainB_append _ _ (by decide) ?_
    (fun x y _ hy => nlBr_of_ne x y
      (head_ne_br_joinCommaNl_append _ _ hEhead hEne
        (fun b hb => head?_cons_ne_br
          (head?_strL_append "\n    \x7d,\n    country: " _ '\n' (by decide))
          (by decide) b hb) y hy))
  refine nlChainB_append _ _
    (nlChainB_joinWith_commaNl _ hEchain hEne hEhead) ?_
    (fun x y _ hy => nlBr_of_ne x y
      (head?_cons_ne_br
        (head?_strL_append "\n    \x7d,\n    country: " _ '\n' (by decide))
        (by decide) y hy))
  refine nlChainB_append _ _ (by decide) ?_
    (fun x y hx _ => nlBr_of_ne_nl x y
      (getLast?_ne_nl_of_eq
        (show (strL "\n    \x7d,\n    country: ").getLast? = some ' ' by decide)
        (by decide) x hx))
  refine nlChainB_append _ _
    (nlChainB_of_no_nl _ (quoteRaw_no_nl a.country.data (plainStr_chars _ h6))) ?_
    (fun x y hx _ => nlBr_of_ne_nl x y
      (getLast?_ne_of_all (quoteRaw_no_nl a.country.data (plainStr_chars _ h6)) x hx))
  refine nlChainB_append _ _ (by decide) ?_
    (fun x y hx _ => nlBr_of_ne_nl x y
      (getLast?_ne_nl_of_eq
        (show (strL ",\n    image_url: ").getLast? = some ' ' by decide)
        (by decide) x hx))
  refine nlChainB_append _ _
    (nlChainB_of_no_nl _ (quoteRaw_no_nl a.image_url.data (plainStr_chars _ h7))) ?_
    (fun x y hx _ => nlBr_of_ne_nl x y
      (getLast?_ne_of_all (quoteRaw_no_nl a.image_url.data (plainStr_chars _ h7)) x hx))
  exact hR

set_option maxRecDepth 4000 in
theorem nlChainB_artistFieldsText (a : Artist) (T : List Char)
    (ha : artistOk a = true) (hT : nlChainB T = true) :
    nlChainB (artistFieldsText a T) = true := by
  simp only [artistOk, Bool.and_eq_true] at ha
  obtain ⟨⟨⟨⟨⟨⟨⟨h1, h2⟩, h3⟩, h4⟩, h5⟩, h6⟩, h7⟩, h8⟩ := ha
  have h4' : ∀ s ∈ a.style, plainStr s = true := by simpa [List.all_eq_true] using h4
  have h5' : ∀ kv ∈ (a.social.filter fun kv => kv.2 != ""),
      identName kv.1 = true ∧ plainStr kv.2 = true := by
    intro kv hkv
    have h := List.all_eq_true.mp h5 kv (List.mem_of_mem_filter hkv)
    simp only [Bool.and_eq_true] at h
    exact ⟨h.1.1, h.2⟩
  have h8' : ∀ v ∈ a.videos, plainStr v = true := by simpa [List.all_eq_true] using h8
  by_cases hv : a.videos = []
  · rw [artistFieldsText, artistTrips, if_pos hv]
    exact nlChainB_artistCore a (strL ",\n  " ++ ('\x7d' :: T)) h1 h2 h4' h5' h6 h7
      (nlChainB_append _ _ (by decide)
        (nlChainB_cons '\x7d' T hT (fun b _ => nlBr_of_ne_nl _ b (by decide)))
        (fun x y hx _ => nlBr_of_ne_nl x y
          (getLast?_ne_nl_of_eq (show (strL ",\n  ").getLast? = some ' ' by decide)
            (by decide) x hx)))
  · rw [artistFieldsText, artistTrips, if_neg hv]
    have hVchain : ∀ y ∈ a.videos.map fun v => strL "      " ++ quoteRaw v.data,
        nlChainB y = true := by
      intro y hy
      obtain ⟨v, hvm, rfl⟩ := List.mem_map.mp hy
      exact nlChainB_of_no_nl _ (videoEntry_no_nl v (h8' v hvm))
    have hVne : ∀ y ∈ a.videos.map fun v => strL "      " ++ quoteRaw v.data, y ≠ [] := by
      intro y hy
      obtain ⟨v, -, rfl⟩ := List.mem_map.mp hy
      exact strL_append_ne_nil "      " _ (by decide)
    have hVhead : ∀ y ∈ a.videos.map fun v => strL "      " ++ quoteRaw v.data,
        ∀ b, y.head? = some b → b ≠ ']' := by
      intro y hy
      obtain ⟨v, -, rfl⟩ := List.mem_map.mp hy
      exact head?_cons_ne_br (head?_strL_append "      " _ ' ' (by decide)) (by decide)
    refine nlChainB_artistCore a
      (strL ",\n    videos: [\n" ++ (joinWith (strL ",\n")
        (a.videos.map fun v => strL "      " ++ quoteRaw v.data)
        ++ (strL "\n    ],\n  " ++ ('\x7d' :: T))))
      h1 h2 h4' h5' h6 h7 ?_
    refine nlChainB_append _ _ (by decide) ?_
      (fun x y _ hy => nlBr_of_ne x y
        (head_ne_br_joinCommaNl_append _ _ hVhead hVne
          (fun b hb => head?_cons_ne_br
            (head?_strL_append "\n    ],\n  " _ '\n' (by decide)) (by decide) b hb) y hy))
    refine nlChainB_append _ _ (nlChainB_joinWith_commaNl _ hVchain hVne hVhead) ?_
      (fun x y _ hy => nlBr_of_ne x y
        (head?_cons_ne_br (head?_strL_append "\n    ],\n  " _ '\n' (by decide))
          (by decide) y hy))
    exact nlChainB_append _ _ (by decide)
      (nlChainB_cons '\x7d' T hT (fun b _ => nlBr_of_ne_nl _ b (by decide)))
      (fun x y hx _ => nlBr_of_ne_nl x y
        (getLast?_ne_nl_of_eq (show (strL "\n    ],\n  ").getLast? = some ' ' by decide)
          (by decide) x hx))

theorem artistToTSL_eq_cons (a : Artist) :
    artistToTSL a = ' ' :: (' ' :: ('\x7b' :: artistFieldsText a [])) := by
  have := artistToTSL_bridge a []
  rwa [List.append_nil] at this

theorem nlChainB_artistToTSL (a : Artist) (ha : artistOk a = true) :
    nlChainB (artistToTSL a) = true := by
  rw [artistToTSL_eq_cons a]
  refine nlChainB_cons _ _ ?_ (fun b _ => nlBr_of_ne_nl _ b (by decide))
  refine nlChainB_cons _ _ ?_ (fun b _ => nlBr_of_ne_nl _ b (by decide))
  exact nlChainB_cons _ _ (nlChainB_artistFieldsText a [] ha rfl)
    (fun b _ => nlBr_of_ne_nl _ b (by decide))

theorem nlChainB_body (as : List Artist) (h : ∀ a ∈ as, artistOk a = true) :
    nlChainB (joinWith (strL ",\n") (as.map artistToTSL)) = true := by
  refine nlChainB_joinWith_commaNl _ ?_ ?_ ?_
  · intro y hy
    obtain ⟨a, hamem, rfl⟩ := List.mem_map.mp hy
    exact nlChainB_artistToTSL a (h a hamem)
  · intro y hy
    obtain ⟨a, -, rfl⟩ := List.mem_map.mp hy
    rw [artistToTSL_eq_cons a]
    simp
  · intro y hy
    obtain ⟨a, -, rfl⟩ := List.mem_map.mp hy
    intro b hb
    rw [artistToTSL_eq_cons a] at hb
    simp only [List.head?_cons, Option.some.injEq] at hb
    rw [← hb]
    decide

theorem findFirstIdx_nlbr : ∀ (l rest : List Char), nlChainB l = true →
    findFirstIdx (strL "\n]") (l ++ ('\n' :: (']' :: rest))) = some l.length := by
  intro l
  induction l with
  | nil => intro rest _; rfl
  | cons a l' ih =>
    intro rest hl
    show findFirstIdx (strL "\n]") (a :: (l' ++ ('\n' :: (']' :: rest)))) = some (l'.length + 1)
    rw [findFirstIdx, if_neg ?hno, ih rest (nlChainB_tail a l' hl)]
    · rfl
    case hno =>
      intro hcontra
      have hlw : (decide ('\n' = a)
          && leadsWith [']'] (l' ++ ('\n' :: (']' :: rest)))) = true := hcontra
      simp only [Bool.and_eq_true] at hlw
      obtain ⟨hh1, hh2⟩ := hlw
      have ha : a = '\n' := by
        have := of_decide_eq_true hh1
        exact this.symm
      cases l' with
      | nil =>
        have hf : (false : Bool) = true := hh2
        exact absurd hf (by decide)
      | cons b l'' =>
        have h₂' : (decide (']' = b) && true) = true := hh2
        simp only [Bool.and_eq_true] at h₂'
        have hb : b = ']' := (of_decide_eq_true h₂'.1).symm
        subst ha
        have hpair : (nlBr '\n' b && nlChainB (b :: l'')) = true := hl
        simp only [Bool.and_eq_true] at hpair
        have hbr := hpair.1
        rw [hb] at hbr
        exact absurd hbr (by decide)

theorem leadsWith_append_of_le (p : List Char) : ∀ (l m : List Char), p.length ≤ l.length →
    leadsWith p (l ++ m) = leadsWith p l := by
  induction p with
  | nil => intro l m _; rfl
  | cons a p' ih =>
    intro l m h
    cases l with
    | nil => simp at h
    | cons b l' =>
      show (decide (a = b) && leadsWith p' (l' ++ m)) = (decide (a = b) && leadsWith p' l')
      rw [ih l' m (by simpa using h)]

theorem drop_append_le {α : Type} (l₁ l₂ : List α) :
    ∀ i, i ≤ l₁.length → (l₁ ++ l₂).drop i = l₁.drop i ++ l₂ := by
  induction l₁ with
  | nil =>
    intro i hi
    simp only [List.length_nil, Nat.le_zero] at hi
    subst hi
    simp
  | cons a t ih =>
    intro i hi
    cases i with
    | zero => simp
    | succ j =>
      show ((a :: t) ++ l₂).drop (j + 1) = (a :: t).drop (j + 1) ++ l₂
      rw [List.cons_append, List.drop_succ_cons, List.drop_succ_cons,
        ih j (by simpa using hi)]

theorem findFirstIdx_at (pat : List Char) (hne : pat ≠ []) :
    ∀ (pre suf : List Char),
    (∀ i, i < pre.length → leadsWith pat ((pre ++ suf).drop i) = false) →
    leadsWith pat suf = true →
    findFirstIdx pat (pre ++ suf) = some pre.length := by
  intro pre
  induction pre with
  | nil =>
    intro suf _ h2
    cases suf with
    | nil =>
      obtain ⟨p, ps, rfl⟩ := List.exists_cons_of_ne_nil hne
      have hf : (false : Bool) = true := h2
      exact absurd hf (by decide)
    | cons c r =>
      show findFirstIdx pat (c :: r) = some 0
      rw [findFirstIdx, if_pos h2]
  | cons b pre' ih =>
    intro suf h1 h2
    show findFirstIdx pat (b :: (pre' ++ suf)) = some (pre'.length + 1)
    have hno : ¬(leadsWith pat (b :: (pre' ++ suf)) = true) := by
      intro hc
      have h0' : leadsWith pat (b :: (pre' ++ suf)) = false := h1 0 (by simp)
      rw [hc] at h0'
      exact absurd h0' (by decide)
    have hrec := ih suf (fun i hi => h1 (i + 1) (by simpa using hi)) h2
    rw [findFirstIdx, if_neg hno, hrec]
    rfl

set_option maxRecDepth 40000 in
theorem marker_windows : ∀ i, i < artistsHeader.data.length →
    leadsWith artistsMarker.data ((artistsHeader.data ++ artistsMarker.data).drop i)
      = false := by decide

theorem marker_pos (X : List Char) :
    findFirstIdx artistsMarker.data (artistsHeader.data ++ (artistsMarker.data ++ X))
      = some artistsHeader.data.length := by
  refine findFirstIdx_at artistsMarker.data (by decide) _ _ ?_ (leadsWith_append _ _)
  intro i hi
  have hsplit : (artistsHeader.data ++ (artistsMarker.data ++ X)).drop i
      = ((artistsHeader.data ++ artistsMarker.data).drop i) ++ X := by
    rw [← List.append_assoc]
    exact drop_append_le _ X i (by simp only [List.length_append]; omega)
  rw [hsplit, leadsWith_append_of_le _ _ X ?_, marker_windows i hi]
  simp only [List.length_drop, List.length_append]
  have : i < artistsHeader.data.length := hi
  omega

theorem nlChainB_nlBody (as : List Artist) (h : ∀ a ∈ as, artistOk a = true) :
    nlChainB ('\n' :: joinWith (strL ",\n") (as.map artistToTSL)) = true := by
  refine nlChainB_cons _ _ (nlChainB_body as h) ?_
  intro b hb
  cases as with
  | nil =>
    have hb' : (none : Option Char) = some b := hb
    cases hb'
  | cons a t =>
    rw [List.map_cons, joinWith_head? _ _ _ (by rw [artistToTSL_eq_cons a]; simp)] at hb
    rw [artistToTSL_eq_cons a] at hb
    simp only [List.head?_cons, Option.some.injEq] at hb
    rw [← hb]
    decide

set_option maxRecDepth 4000 in
theorem extract_write (as : List Artist) (h : ∀ a ∈ as, artistOk a = true) :
    extractArtistsData (writeArtistsFileModel as)
      = some ⟨'\n' :: joinWith (strL ",\n") (as.map artistToTSL)⟩ := by
  have hdata : (writeArtistsFileModel as).data
      = artistsHeader.data ++ (artistsMarker.data
        ++ ('\n' :: (joinWith (strL ",\n") (as.map artistToTSL) ++ artistsFooter.data))) := by
    show (((artistsHeader.data ++ artistsMarker.data) ++ strL "\n")
        ++ joinWith (strL ",\n") (as.map artistToTSL)) ++ artistsFooter.data = _
    simp only [List.append_assoc]
    rfl
  have hdrop : (artistsHeader.data ++ (artistsMarker.data
      ++ ('\n' :: (joinWith (strL ",\n") (as.map artistToTSL) ++ artistsFooter.data)))).drop
      (artistsHeader.data.length + artistsMarker.data.length)
      = '\n' :: (joinWith (strL ",\n") (as.map artistToTSL) ++ artistsFooter.data) := by
    rw [← List.append_assoc, ← List.length_append]
    exact List.drop_left _ _
  rw [extractArtistsData, hdata, marker_pos _]
  show (match findFirstIdx (strL "\n]")
      ((artistsHeader.data ++ (artistsMarker.data
        ++ ('\n' :: (joinWith (strL ",\n") (as.map artistToTSL) ++ artistsFooter.data)))).drop
        (artistsHeader.data.length + artistsMarker.data.length)) with
    | none => none
    | some j => some (⟨((artistsHeader.data ++ (artistsMarker.data
        ++ ('\n' :: (joinWith (strL ",\n") (as.map artistToTSL) ++ artistsFooter.data)))).drop
        (artistsHeader.data.length + artistsMarker.data.length)).take j⟩ : String)) = _
  rw [hdrop]
  have hfoot : artistsFooter.data = '\n' :: (']' :: artistsFooter.data.drop 2) := rfl
  have hsplit : '\n' :: (joinWith (strL ",\n") (as.map artistToTSL) ++ artistsFooter.data)
      = ('\n' :: joinWith (strL ",\n") (as.map artistToTSL))
        ++ ('\n' :: (']' :: artistsFooter.data.drop 2)) := by
    rw [hfoot]
    rfl
  rw [hsplit, findFirstIdx_nlbr _ _ (nlChainB_nlBody as h)]
  show some (⟨(('\n' :: joinWith (strL ",\n") (as.map artistToTSL))
      ++ ('\n' :: (']' :: artistsFooter.data.drop 2))).take
      ('\n' :: joinWith (strL ",\n") (as.map artistToTSL)).length⟩ : String) = _
  rw [List.take_left]

theorem eval_write (as : List Artist) (h : ∀ a ∈ as, artistOk a = true) :
    evalArtistArray ("[" ++ (⟨'\n' :: joinWith (strL ",\n") (as.map artistToTSL)⟩ : String)
      ++ "]") = some (as.map fieldsOf) := by
  have hdata : ("[" ++ (⟨'\n' :: joinWith (strL ",\n") (as.map artistToTSL)⟩ : String)
      ++ "]").data
      = '[' :: ('\n' :: (joinWith (strL ",\n") (as.map artistToTSL) ++ (']' :: []))) := rfl
  rw [evalArtistArray, hdata, skipWs_cons_not '[' _ (by decide)]
  show (match parseObjsAux
      (('\n' :: (joinWith (strL ",\n") (as.map artistToTSL) ++ (']' :: []))).length + 1)
      ('\n' :: (joinWith (strL ",\n") (as.map artistToTSL) ++ (']' :: []))) with
    | none => none
    | some (objs, rest) => if skipWs rest = [] then some objs else none) = _
  rw [parseObjsAux_render _ as []
    (by
      have := length_joinWith_ge (strL ",\n") (as.map artistToTSL) (by
        intro y hy
        obtain ⟨a, -, rfl⟩ := List.mem_map.mp hy
        rw [artistToTSL_eq_cons a]
        simp)
      simp only [List.length_map] at this
      simp only [List.length_cons, List.length_append]
      omega) h]
  rfl

theorem writeArtists_roundtrip_core (as : List Artist) (h : as.all artistOk = true) :
    parseArtistsFileModel (writeArtistsFileModel as) = some as := by
  have h' : ∀ a ∈ as, artistOk a = true := by simpa [List.all_eq_true] using h
  rw [parseArtistsFileModel, extract_write as h']
  show (match evalArtistArray ("[" ++ (⟨'\n' :: joinWith (strL ",\n")
      (as.map artistToTSL)⟩ : String) ++ "]") with
    | none => none
    | some objs => objs.mapM artistOfJs) = _
  rw [eval_write as h']
  show (as.map fieldsOf).mapM artistOfJs = _
  exact mapM_artistOfJs_fieldsOf as h'

/-- **C3** (corrected).  For every list of catalogue entities in the
well-formedness class `artistOk` — description free of backslashes and
carriage returns (embedded quotes and newlines allowed: the serializer
escapes them), the other free-text fields free of quotes, backslashes and
line terminators, social keys identifier-shaped with non-empty values —
serializing with `writeArtistsFile` and parsing back with
`parseArtistsFile` yields entities equal field for field to what was
written.  Outside this class the round trip breaks, so the frozen
universally-quantified claim is corrected (see the counterexample). -/
theorem writeAll_readAll_roundtrip (as : List Artist) (h : as.all artistOk = true) :
    parseArtistsFileModel (writeArtistsFileModel as) = some as :=
  writeArtists_roundtrip_core as h

set_option maxRecDepth 1000000 in
/-- **C3** counterexample to the frozen claim: one artist whose name
contains a double quote serializes to a file whose artist array no longer
evaluates, so the read-back fails instead of returning the entity. -/
theorem writeAll_readAll_quote_name_fails :
    parseArtistsFileModel (writeArtistsFileModel [cArtistQuote]) = none := by decide

/-- **C3** witness: the round-trip theorem applied to a concrete artist
with an embedded newline and embedded quotes in its description, a
negative id, and non-empty style, social and videos lists. -/
theorem writeAll_readAll_roundtrip_witness :
    ([wArtist].all artistOk = true)
    ∧ parseArtistsFileModel (writeArtistsFileModel [wArtist]) = some [wArtist] :=
  ⟨by decide, writeAll_readAll_roundtrip [wArtist] (by decide)⟩

end Transubtil
